import Mathlib

/-!
Verification of the CCL skin-language analysis engine against its specification.

The definitions below are a shallow embedding, translated function by function
from the TypeScript sources of the `ccl-skin-language-extension` repository
(`server/src/skinexpressionparser.ts`, `server/src/variableresolver.ts`,
`server/src/skindefinitionparser.ts`, `server/src/skinfileinfo.ts`,
`server/src/skindocumentchecker.ts`, `server/src/domhelper.ts`).

Modelling conventions, used throughout:
* JavaScript strings are Lean `String` / `List Char`; the JS string methods
  used by the sources (`indexOf`, `substring`, `split`, `trim`, `startsWith`,
  `splice`) are re-implemented below with their JS semantics.
* JavaScript numbers are modelled exactly: a number is either `NaN` or an
  exact rational (`JNum`).  The code under verification only performs
  arithmetic that is exact in IEEE doubles on every input appearing in a
  theorem of this file, so no rounding is modelled.
* JavaScript `null` is `Option.none`; thrown exceptions are explicit values.
* The DOM produced by the external XML parser (htmlparser2) is given as data
  (an arena of nodes with parent / sibling back-pointers, exactly the shape
  the sources traverse); the XML parser itself is outside the verified core.
* Mutable instance state is threaded explicitly; where the sources mutate a
  shared token object in place the model performs a functional update (the
  difference is not observable in any execution examined by the theorems).
-/

namespace CCLSkin

/-! ## JavaScript string primitives -/

/-- The single-quote character (character code 39). -/
def quoteChar : Char := Char.ofNat 39

/-- The single-quote character as a string. -/
def sq : String := String.mk [quoteChar]

/-- JS `String.prototype.trim`: drop whitespace from both ends. -/
def jsTrimList (s : List Char) : List Char :=
  ((s.dropWhile Char.isWhitespace).reverse.dropWhile Char.isWhitespace).reverse

/-- Auxiliary single-character split, accumulator-based. -/
def splitOnCharAux (c : Char) : List Char → List Char → List (List Char)
  | [], acc => [acc.reverse]
  | x :: xs, acc =>
    if x = c then acc.reverse :: splitOnCharAux c xs []
    else splitOnCharAux c xs (x :: acc)

/-- JS `s.split(c)` for a single-character separator. -/
def splitOnChar (c : Char) (s : List Char) : List (List Char) :=
  splitOnCharAux c s []

/-- Concatenate a list of strings with a single-character separator. -/
def joinWithChar (c : Char) : List (List Char) → List Char
  | [] => []
  | [x] => x
  | x :: xs => x ++ c :: joinWithChar c xs

/-- Does the character occur in the string (JS `s.indexOf(c) > -1`)? -/
def hasChar (s : List Char) (c : Char) : Bool := s.contains c

/-- JS `haystack.indexOf(needle, start)`, returning `-1` when absent. -/
def jsIndexOfFrom (needle hay : List Char) (start : Nat) : Int :=
  let rec go : List Char → Nat → Int
    | [], i => if needle = [] then (i : Int) else -1
    | c :: cs, i =>
      if i ≥ start ∧ needle.isPrefixOf (c :: cs) then (i : Int)
      else go cs (i + 1)
  go hay 0

/-- Is `needle` a contiguous substring of `hay`? -/
def listIsSubstr (needle : List Char) : List Char → Bool
  | [] => needle.isPrefixOf []
  | c :: cs => needle.isPrefixOf (c :: cs) || listIsSubstr needle cs

/-- JS `haystack.indexOf(needle) > -1`. -/
def hasSubstr (hay needle : List Char) : Bool := listIsSubstr needle hay

/-- JS `Array.prototype.splice(idx, deleteCount, ...items)` (returns the
updated array; the removed elements are not used by the sources). -/
def jsSplice {α : Type} (l : List α) (idx deleteCount : Nat) (items : List α) : List α :=
  l.take idx ++ items ++ l.drop (idx + deleteCount)

/-- Digits of a numeral, most significant first, folded to a `Nat`. -/
def digitsToNat (ds : List Char) : Nat :=
  ds.foldl (fun acc c => acc * 10 + (c.toNat - 48)) 0

/-- Rational value of a JS decimal numeral `[-] intDigits [. fracDigits]`. -/
def decimalToRat (neg : Bool) (ip fp : List Char) : ℚ :=
  let mag : ℚ := (digitsToNat ip : ℚ) + (digitsToNat fp : ℚ) / ((10 : ℚ) ^ fp.length)
  if neg then -mag else mag

/-! ## JavaScript numbers and values

`server/src/skinexpressionparser.ts` computes with JS values of type
`number | string | boolean | null`.  `JNum` models a JS number exactly
(`nan` or an exact rational); `JSVal` models the non-null values. -/

/-- A JavaScript number: `NaN` or an exact rational. -/
inductive JNum where
  | nan : JNum
  | fin : ℚ → JNum
deriving DecidableEq, Repr

/-- A non-null JavaScript value of the expression evaluator. -/
inductive JSVal where
  | num : JNum → JSVal
  | str : String → JSVal
  | bool : Bool → JSVal
deriving DecidableEq, Repr

/-- JS `Number(string)` on the numeral fragment used by the sources:
whitespace-trimmed; empty means `0`; an optionally signed decimal numeral
parses exactly; anything else is `NaN`.  (Hexadecimal and exponent forms
never occur in the verified executions.) -/
def jsStringToNumber (s : String) : JNum :=
  let t := jsTrimList s.toList
  if t = [] then .fin 0
  else
    let (neg, r1) :=
      match t with
      | c :: cs => if c = '-' then (true, cs) else if c = '+' then (false, cs) else (false, t)
      | [] => (false, t)
    let ip := r1.takeWhile Char.isDigit
    let r2 := r1.drop ip.length
    match r2 with
    | [] => if ip = [] then .nan else .fin (decimalToRat neg ip [])
    | c :: cs =>
      if c = '.' then
        let fp := cs.takeWhile Char.isDigit
        if cs.drop fp.length = [] ∧ ¬(ip = [] ∧ fp = []) then .fin (decimalToRat neg ip fp)
        else .nan
      else .nan

/-- Truncation toward zero, as JS float-to-integer conversion in `%`. -/
def truncRat (q : ℚ) : Int := if q ≥ 0 then q.floor else q.ceil

/-- JS `+` on numbers (`NaN` propagates). -/
def jadd : JNum → JNum → JNum
  | .fin a, .fin b => .fin (a + b)
  | _, _ => .nan

/-- JS `*` on numbers (`NaN` propagates). -/
def jmul : JNum → JNum → JNum
  | .fin a, .fin b => .fin (a * b)
  | _, _ => .nan

/-- JS `/` on numbers, only reached when the divisor compared unequal to 0. -/
def jdiv : JNum → JNum → JNum
  | .fin a, .fin b => if b = 0 then .nan else .fin (a / b)
  | _, _ => .nan

/-- JS `%` on numbers: remainder with the dividend's sign. -/
def jmod : JNum → JNum → JNum
  | .fin a, .fin b => if b = 0 then .nan else .fin (a - b * (truncRat (a / b) : ℚ))
  | _, _ => .nan

/-- JS `v == 0` for a number `v` (`NaN == 0` is false). -/
def jeqZero : JNum → Bool
  | .fin a => a = 0
  | .nan => false

/-- JS `ToNumber` on an evaluator value. -/
def toJNum : JSVal → JNum
  | .num n => n
  | .str s => jsStringToNumber s
  | .bool b => .fin (if b then 1 else 0)

/-- JS truthiness of an evaluator value. -/
def jsTruthy : JSVal → Bool
  | .num (.fin q) => q ≠ 0
  | .num .nan => false
  | .str s => s ≠ ""
  | .bool b => b

/-- JS `<` on evaluator values: lexicographic when both are strings,
numeric otherwise (`NaN` comparisons are false). -/
def jsLess (a b : JSVal) : Bool :=
  match a, b with
  | .str x, .str y => decide (x < y)
  | _, _ =>
    match toJNum a, toJNum b with
    | .fin x, .fin y => decide (x < y)
    | _, _ => false

/-- JS `==` on evaluator values, for the value domain of the evaluator. -/
def jsLooseEq (a b : JSVal) : Bool :=
  match a, b with
  | .str x, .str y => x = y
  | _, _ =>
    match toJNum a, toJNum b with
    | .fin x, .fin y => x = y
    | _, _ => false

/-- Left-pad a numeral string with zeros to the given length. -/
def padZerosTo (len : Nat) (s : String) : String :=
  String.mk (List.replicate (len - s.length) '0') ++ s

/-- JS number-to-string for the numbers reachable in the verified
executions: integers print in decimal, terminating decimals print with a
point; non-terminating decimals (unreachable here) fall back to a
fraction rendering. -/
def ratToJsString (q : ℚ) : String :=
  if q.den = 1 then toString q.num
  else
    match (List.range 40).find? (fun k => (q * (10 : ℚ) ^ (k + 1)).den = 1) with
    | some k =>
      let m := (q * (10 : ℚ) ^ (k + 1)).num
      let n := m.natAbs
      let ip := n / 10 ^ (k + 1)
      let fp := n % 10 ^ (k + 1)
      (if m < 0 then "-" else "") ++ toString ip ++ "." ++ padZerosTo (k + 1) (toString fp)
    | none => toString q.num ++ "/" ++ toString q.den

/-- JS `String(n)` for a number. -/
def jnumToString : JNum → String
  | .nan => "NaN"
  | .fin q => ratToJsString q

/-- JS `String(v)` for an evaluator value. -/
def jsValToString : JSVal → String
  | .num n => jnumToString n
  | .str s => s
  | .bool b => if b then "true" else "false"

/-! ## Skin expression parser (`server/src/skinexpressionparser.ts`)

The parser object holds two pieces of mutable state: the remaining
`expression` string and the `error` field; `PState` carries both. -/

/-- Operator tags, as in the `OperatorType` enum of the source. -/
inductive OperatorType where
  | kError | kAnd | kOr | kLess | kLessOrEqual | kGreater | kGreaterOrEqual
  | kEqual | kMultiply | kDivide | kModulo
deriving DecidableEq, Repr

/-- Parser state: the not-yet-consumed expression and the error field. -/
structure PState where
  exp : List Char
  err : Option String
deriving DecidableEq, Repr

/-- `read(character)` for a single character: consume it if it is next. -/
def readCh (c : Char) (s : PState) : Bool × PState :=
  match s.exp with
  | x :: xs => if x = c then (true, { s with exp := xs }) else (false, s)
  | [] => (false, s)

/-- `peek()`. -/
def peekCh (s : PState) : Option Char := s.exp.head?

/-- `skipWhite()`: JS `trim` removes whitespace from both ends. -/
def skipWhite (s : PState) : PState := { s with exp := jsTrimList s.exp }

/-- `readNumber()`: match the regex `^-?\d+(?:\.\d+)?`, consume the match
and convert it with JS `+`. -/
def readNumber (s : PState) : Option JNum × PState :=
  let (neg, signLen) :=
    match s.exp with
    | c :: _ => if c = '-' then (true, 1) else (false, 0)
    | [] => (false, 0)
  let afterSign := s.exp.drop signLen
  let ip := afterSign.takeWhile Char.isDigit
  if ip = [] then (none, s)
  else
    let afterInt := afterSign.drop ip.length
    match afterInt with
    | c :: cs =>
      if c = '.' then
        let fp := cs.takeWhile Char.isDigit
        if fp = [] then
          (some (.fin (decimalToRat neg ip [])), { s with exp := afterInt })
        else
          (some (.fin (decimalToRat neg ip fp)), { s with exp := cs.drop fp.length })
      else (some (.fin (decimalToRat neg ip [])), { s with exp := afterInt })
    | [] => (some (.fin (decimalToRat neg ip [])), { s with exp := [] })

/-- `readStringLiteral(quoteCharacter)`: the source computes the literal
between the quotes but never advances `this.expression`; the model
faithfully leaves the state unchanged. -/
def readStringLiteral (q : Char) (s : PState) : Option String × PState :=
  if s.exp.head? = some q then
    (some (String.mk ((s.exp.drop 1).takeWhile (· ≠ q))), s)
  else (none, s)

/-- `readConstant()`. -/
def readConstant (s : PState) : Option JSVal × PState :=
  match readNumber s with
  | (some n, s') => (some (.num n), s')
  | (none, s') =>
    if peekCh s' = some quoteChar then
      match readStringLiteral quoteChar s' with
      | (some lit, s'') => (some (.str lit), s'')
      | (none, s'') => (none, s'')
    else (none, s')

/-- `readBoolOperator()`. -/
def readBoolOperator (s : PState) : OperatorType × PState :=
  let (isAnd, s) := readCh '&' s
  if isAnd then (.kAnd, s)
  else
    let (isOr, s) := readCh '|' s
    if isOr then (.kOr, s) else (.kError, s)

/-- `readRelationalOperator()`. -/
def readRelationalOperator (s : PState) : OperatorType × PState :=
  let (lt, s) := readCh '<' s
  if lt then
    let (eq, s) := readCh '=' s
    (if eq then .kLessOrEqual else .kLess, s)
  else
    let (gt, s) := readCh '>' s
    if gt then
      let (eq, s) := readCh '=' s
      (if eq then .kGreaterOrEqual else .kGreater, s)
    else
      let (eq, s) := readCh '=' s
      if eq then (.kEqual, s) else (.kError, s)

/-- `readProductOperator()`. -/
def readProductOperator (s : PState) : OperatorType × PState :=
  let (m, s) := readCh '*' s
  if m then (.kMultiply, s)
  else
    let (d, s) := readCh '/' s
    if d then (.kDivide, s)
    else
      let (md, s) := readCh '%' s
      if md then (.kModulo, s) else (.kError, s)

/-- `if (typeof v === "string") v = +v` — the string-to-number coercion
applied to both operands of `+ - * / %`. -/
def coerceStr : JSVal → JSVal
  | .str s => .num (jsStringToNumber s)
  | v => v

/-- The body of the `readProduct` loop: coercion, the boolean-operand
check, and the `try`/`catch` around `DivideHelper`; a caught division or
modulo by zero sets the error and replaces the value by `0` (matching the
C++ implementation, as the source comments).  Returns the new value
(`none` = the loop aborts with `null`) and an error to store, if any. -/
def productStep (v1 v2 : JSVal) (op : OperatorType) : Option JSVal × Option String :=
  let v1 := coerceStr v1
  let v2 := coerceStr v2
  match v1, v2 with
  | .bool _, _ => (none, some "Cannot multiply or divide boolean values.")
  | _, .bool _ => (none, some "Cannot multiply or divide boolean values.")
  | .num a, .num b =>
    match op with
    | .kMultiply => (some (.num (jmul a b)), none)
    | .kDivide =>
      if jeqZero b then (some (.num (.fin 0)), some "Cannot divide by 0.")
      else (some (.num (jdiv a b)), none)
    | .kModulo =>
      if jeqZero b then (some (.num (.fin 0)), some "Cannot modulo by 0.")
      else (some (.num (jmod a b)), none)
    | _ => (some (.num a), none)
  | v1, _ => (some v1, none)

/-- The body of the `readSum` loop: coercion, the boolean-operand check,
then `v1 + sign * v2`. -/
def sumStep (v1 v2 : JSVal) (plus : Bool) : Option JSVal × Option String :=
  let v1 := coerceStr v1
  let v2 := coerceStr v2
  match v1, v2 with
  | .bool _, _ => (none, some "Cannot add or subtract boolean values.")
  | _, .bool _ => (none, some "Cannot add or subtract boolean values.")
  | .num a, .num b =>
    (some (.num (jadd a (jmul (.fin (if plus then 1 else -1)) b))), none)
  | v1, _ => (some v1, none)

/-- The body of the `readRelation` loop (`result` starts `false` and the
`switch` leaves it so for non-relational tags, as in the source). -/
def relationStep (v1 v2 : JSVal) (op : OperatorType) : JSVal :=
  .bool (match op with
    | .kLess => jsLess v1 v2
    | .kLessOrEqual => jsLess v1 v2 || jsLooseEq v1 v2
    | .kGreater => jsLess v2 v1
    | .kGreaterOrEqual => jsLess v2 v1 || jsLooseEq v1 v2
    | .kEqual => jsLooseEq v1 v2
    | _ => false)

/-- JS `v1 && v2` / `v1 || v2` as in the `readBoolExpression` switch
(non-boolean tags leave `v1` unchanged, as the source's switch does). -/
def boolStep (v1 v2 : JSVal) (op : OperatorType) : JSVal :=
  match op with
  | .kAnd => if jsTruthy v1 then v2 else v1
  | .kOr => if jsTruthy v1 then v1 else v2
  | _ => v1

/-- One pending recursive-descent call of the expression parser.  The
mutually recursive `read*` methods are packed into one structurally
fuel-recursive interpreter so that every run reduces definitionally. -/
inductive PCall where
  | expr (s : PState)
  | boolE (s : PState)
  | boolLoop (op : OperatorType) (v1 : JSVal) (s : PState)
  | rel (s : PState)
  | relLoop (op : OperatorType) (v1 : JSVal) (s : PState)
  | sum (s : PState)
  | sumLoop (plus : Bool) (v1 : JSVal) (s : PState)
  | prod (s : PState)
  | prodLoop (op : OperatorType) (v1 : JSVal) (s : PState)
  | factor (s : PState)
deriving DecidableEq

/-- The parser state a pending call operates on. -/
def PCall.st : PCall → PState
  | .expr s | .boolE s | .boolLoop _ _ s | .rel s | .relLoop _ _ s
  | .sum s | .sumLoop _ _ s | .prod s | .prodLoop _ _ s | .factor s => s

/-- Run one packed parser call.  Each branch is the body of the
corresponding `read*` method of `SkinExpressionParser`:
`expr` = `readExpression` (if input remains, the result becomes
`(result ?? "") + remaining` — a JS string concatenation that does not
consume the remaining input); `boolE`/`boolLoop` = `readBoolExpression`
and its `while` loop (the source never re-reads the operator inside
that loop, so the same operator tag drives every iteration);
`rel`/`relLoop` = `readRelation` (re-reads its operator each time);
`sum`/`sumLoop` = `readSum` with `while (plus || this.read('-'))`;
`prod`/`prodLoop` = `readProduct`; `factor` = `readFactor`. -/
def parseRun : Nat → PCall → Option JSVal × PState
  | 0, c => (none, c.st)
  | fuel + 1, c =>
    match c with
    | .expr s =>
      let (r, s) := parseRun fuel (.boolE s)
      if s.exp ≠ [] then
        (some (.str ((match r with | some v => jsValToString v | none => "") ++ String.mk s.exp)), s)
      else (r, s)
    | .boolE s =>
      (match parseRun fuel (.rel s) with
      | (none, s) => (none, s)
      | (some v1, s) =>
        let s := skipWhite s
        let (op, s) := readBoolOperator s
        parseRun fuel (.boolLoop op v1 s))
    | .boolLoop op v1 s =>
      if op = .kError then (some v1, s)
      else
        (match parseRun fuel (.rel s) with
        | (none, s) => (none, s)
        | (some v2, s) =>
          let v1 := boolStep v1 v2 op
          let s := skipWhite s
          parseRun fuel (.boolLoop op v1 s))
    | .rel s =>
      (match parseRun fuel (.sum s) with
      | (none, s) => (none, s)
      | (some v1, s) =>
        let s := skipWhite s
        let (op, s) := readRelationalOperator s
        parseRun fuel (.relLoop op v1 s))
    | .relLoop op v1 s =>
      if op = .kError then (some v1, s)
      else
        (match parseRun fuel (.sum s) with
        | (none, s) => (none, s)
        | (some v2, s) =>
          let v1 := relationStep v1 v2 op
          let s := skipWhite s
          let (op, s) := readRelationalOperator s
          parseRun fuel (.relLoop op v1 s))
    | .sum s =>
      (match parseRun fuel (.prod s) with
      | (none, s) => (none, s)
      | (some v1, s) =>
        let s := skipWhite s
        let (plus, s) := readCh '+' s
        parseRun fuel (.sumLoop plus v1 s))
    | .sumLoop plus v1 s =>
      let (doIter, plusIter, s) :=
        if plus then (true, true, s)
        else
          let (minus, s) := readCh '-' s
          (minus, false, s)
      if doIter then
        match parseRun fuel (.prod s) with
        | (none, s) => (none, s)
        | (some v2, s) =>
          match sumStep v1 v2 plusIter with
          | (none, e) => (none, { s with err := e })
          | (some v1, e) =>
            let s := match e with | some m => { s with err := some m } | none => s
            let s := skipWhite s
            let (plus, s) := readCh '+' s
            parseRun fuel (.sumLoop plus v1 s)
      else (some v1, s)
    | .prod s =>
      (match parseRun fuel (.factor s) with
      | (none, s) => (none, s)
      | (some v1, s) =>
        let s := skipWhite s
        let (op, s) := readProductOperator s
        parseRun fuel (.prodLoop op v1 s))
    | .prodLoop op v1 s =>
      if op = .kError then (some v1, s)
      else
        (match parseRun fuel (.factor s) with
        | (none, s) => (none, s)
        | (some v2, s) =>
          match productStep v1 v2 op with
          | (none, e) => (none, { s with err := e })
          | (some v1, e) =>
            let s := match e with | some m => { s with err := some m } | none => s
            let s := skipWhite s
            let (op, s) := readProductOperator s
            parseRun fuel (.prodLoop op v1 s))
    | .factor s =>
      let s := skipWhite s
      let (bang, s) := readCh '!' s
      if bang then
        match parseRun fuel (.factor s) with
        | (some v, s) =>
          (some (match v with | .bool b => .bool (!b) | v => v), s)
        | (none, s) => (none, s)
      else
        match readConstant s with
        | (some v, s) => (some v, s)
        | (none, s) =>
          let (paren, s) := readCh '(' s
          if paren then
            match parseRun fuel (.expr s) with
            | (none, s) => (none, s)
            | (some v, s) =>
              let s := skipWhite s
              let (closed, s) := readCh ')' s
              if closed then (some v, s) else (none, s)
          else (none, s)

/-- `readExpression()`. -/
def readExpression (fuel : Nat) (s : PState) : Option JSVal × PState :=
  parseRun fuel (.expr s)

/-- `readBoolExpression()`. -/
def readBoolExpression (fuel : Nat) (s : PState) : Option JSVal × PState :=
  parseRun fuel (.boolE s)

/-- `readRelation()`. -/
def readRelation (fuel : Nat) (s : PState) : Option JSVal × PState :=
  parseRun fuel (.rel s)

/-- `readSum()`. -/
def readSum (fuel : Nat) (s : PState) : Option JSVal × PState :=
  parseRun fuel (.sum s)

/-- `readProduct()`. -/
def readProduct (fuel : Nat) (s : PState) : Option JSVal × PState :=
  parseRun fuel (.prod s)

/-- `readFactor()`. -/
def readFactor (fuel : Nat) (s : PState) : Option JSVal × PState :=
  parseRun fuel (.factor s)

/-- `SkinExpressionParser.evaluate(expression)`: expressions containing a
`$` are rejected as unresolved variables; otherwise the recursive-descent
parser runs on the expression.  The fuel bound strictly dominates the
number of recursive calls any input of this length can cause. -/
def evaluate (expression : String) : Option JSVal × Option String :=
  if hasChar expression.toList '$' then
    (some (.str expression), some "Cannot evaluate unresolved variable.")
  else
    let s : PState := { exp := expression.toList, err := none }
    let (v, s') := readExpression ((expression.length + 2) * (expression.length + 2)) s
    (v, s'.err)

/-! ## DOM model

htmlparser2 (with `withStartIndices`/`withEndIndices` and `xmlMode`) hands
the sources a DOM of tag elements, processing instructions ("directives")
and text nodes, with parent and previous-sibling back-pointers.  The model
is an arena: a node is addressed by its index in `Dom.nodes`.  Start and
end offsets are always set by the parser, so they are plain naturals. -/

/-- Node kinds: `root` is the `Document`, the rest as in domhandler. -/
inductive NodeKind where
  | root | tag | directive | text
deriving DecidableEq, Repr

/-- One DOM node.  For a directive, `piData` is the full instruction text
(domhandler's `data`, e.g. `"?platform mac ?"` for `<?platform mac ?>`). -/
structure DomNode where
  kind : NodeKind
  tagName : String
  piData : String
  attribs : List (String × String)
  parent : Option Nat
  prevSib : Option Nat
  children : List Nat
  startIndex : Nat
  endIndex : Nat
deriving DecidableEq, Repr

/-- A parsed document: node 0 is the `Document` root. -/
structure Dom where
  nodes : List DomNode
deriving DecidableEq, Repr

/-- Fetch a node by arena index. -/
def Dom.get? (d : Dom) (i : Nat) : Option DomNode := d.nodes.get? i

/-- JS `elem.attribs[name]` (`none` = `undefined`). -/
def getAttr (attribs : List (String × String)) (name : String) : Option String :=
  (attribs.find? (·.1 = name)).map (·.2)

/-- Does this node kind have a `name` property (`"name" in parent`)? -/
def NodeKind.hasName : NodeKind → Bool
  | .tag | .directive => true
  | _ => false

mutual

/-- `DomHelper.findChildrenInternal`: preorder search for elements whose
tag name is in `names` (and whose attribute matches, when requested),
descending only into tag children; `depth = -1` means unbounded,
`firstOnly` stops at the first match without descending into it. -/
def findChildrenAux (d : Dom) : Nat → Bool → Int → Nat → List String →
    Option (String × String) → Bool → List Nat
  | 0, _, _, _, _, _, _ => []
  | fuel + 1, firstOnly, depth, idx, names, attrFilter, firstIteration =>
    match d.get? idx with
    | none => []
    | some n =>
      let selfMatch : Bool :=
        !firstIteration && n.kind.hasName && names.contains n.tagName &&
          (match attrFilter with
           | some (an, av) => getAttr n.attribs an = some av
           | none => true)
      if selfMatch ∧ firstOnly then [idx]
      else
        let selfPart := if selfMatch then [idx] else []
        if depth = 0 then selfPart
        else selfPart ++
          findChildrenList d fuel firstOnly (depth - 1) n.children names attrFilter

/-- The child loop of `findChildrenInternal` (tag children only, early
exit under `firstOnly`). -/
def findChildrenList (d : Dom) : Nat → Bool → Int → List Nat → List String →
    Option (String × String) → List Nat
  | 0, _, _, _, _, _ => []
  | _ + 1, _, _, [], _, _ => []
  | fuel + 1, firstOnly, depth, c :: cs, names, attrFilter =>
    let sub :=
      match d.get? c with
      | some cn =>
        if cn.kind = .tag then
          findChildrenAux d fuel firstOnly depth c names attrFilter false
        else []
      | none => []
    if firstOnly ∧ sub ≠ [] then sub
    else sub ++ findChildrenList d fuel firstOnly depth cs names attrFilter

end

/-- Fuel that dominates any traversal of the arena. -/
def Dom.fuel (d : Dom) : Nat := d.nodes.length + 1

/-- `DomHelper.findChildren` (unbounded depth). -/
def findChildren (d : Dom) (idx : Nat) (names : List String) : List Nat :=
  findChildrenAux d d.fuel false (-1) idx names none true

/-- `DomHelper.findFirstChild`. -/
def findFirstChild (d : Dom) (idx : Nat) (names : List String)
    (attrFilter : Option (String × String) := none) : Option Nat :=
  (findChildrenAux d d.fuel true (-1) idx names attrFilter true).head?

/-- `DomHelper.findDirectChildren` (depth 1). -/
def findDirectChildren (d : Dom) (idx : Nat) (names : List String) : List Nat :=
  findChildrenAux d d.fuel false 1 idx names none true

/-! ## Source files and platform / optional gating
(`server/src/skinfileinfo.ts`) -/

/-- The static identity and content of one skin file: skin-pack root,
relative url, namespace (from the `<Include name=…>` that pulled it in),
its source text and the DOM htmlparser2 produced for that text. -/
structure FileModel where
  root : String
  url : String
  ns : String
  text : String
  dom : Dom
deriving Repr

/-- `getURI()`. -/
def FileModel.uri (f : FileModel) : String := f.root ++ f.url

/-- The process platform (`os.platform()`), fixed at process start. -/
inductive OSPlatform where
  | darwin | win32 | other
deriving DecidableEq, Repr

/-- The gating string: `"mac"` on darwin, `"win"` on win32, else empty. -/
def platformStringOf : OSPlatform → String
  | .darwin => "mac"
  | .win32 => "win"
  | .other => ""

/-- `containsPlatformDefinitions`: the file text contains `"<?platform"`. -/
def containsPlatformDefs (f : FileModel) : Bool :=
  hasSubstr f.text.toList "<?platform".toList

/-- `containsOptionalDefinitions`. -/
def containsOptionalDefs (f : FileModel) : Bool :=
  hasSubstr f.text.toList "<?language".toList ||
  hasSubstr f.text.toList "<?defined".toList ||
  hasSubstr f.text.toList "<?not:".toList

mutual

/-- The preceding-sibling / ancestor scan of `isDefinedForPlatform`,
started at an element (without the `containsPlatformDefinitions`
short-circuit of the wrapper). -/
def platformScan (d : Dom) (ps : String) : Nat → Nat → Bool
  | 0, _ => true
  | fuel + 1, idx =>
    match d.get? idx with
    | none => true
    | some n => platformScanPrev d ps fuel n.prevSib idx

/-- The `while (prev != null)` loop of `isDefinedForPlatform`: a
`?platform` directive must mention `" " ++ platform`, a `?not:platform`
must not, `?platform?` terminates the scan as defined, and
`?desktop_platform` must mention `" 1"`; other nodes are skipped; when
the siblings are exhausted the scan restarts at a tag parent. -/
def platformScanPrev (d : Dom) (ps : String) : Nat → Option Nat → Nat → Bool
  | 0, _, _ => true
  | fuel + 1, none, idx =>
    match d.get? idx with
    | none => true
    | some n =>
      match n.parent with
      | some p =>
        match d.get? p with
        | some pn => if pn.kind = .tag then platformScan d ps fuel p else true
        | none => true
      | none => true
  | fuel + 1, some pv, idx =>
    match d.get? pv with
    | none => true
    | some pn =>
      if pn.kind = .directive then
        if pn.tagName = "?platform" then
          hasSubstr pn.piData.toList (" " ++ ps).toList
        else if pn.tagName = "?not:platform" then
          ¬hasSubstr pn.piData.toList (" " ++ ps).toList
        else if pn.tagName = "?platform?" then true
        else if pn.tagName = "?desktop_platform" then
          hasSubstr pn.piData.toList " 1".toList
        else platformScanPrev d ps fuel pn.prevSib idx
      else platformScanPrev d ps fuel pn.prevSib idx

end

/-- `isDefinedForPlatform(elem)`: always true when the file text contains
no `"<?platform"`, otherwise the sibling/ancestor scan decides. -/
def isDefinedForPlatform (os : OSPlatform) (f : FileModel) (idx : Nat) : Bool :=
  if ¬containsPlatformDefs f then true
  else platformScan f.dom (platformStringOf os) f.dom.fuel idx

mutual

/-- The sibling / ancestor scan of `isOptionallyDefined` (without the
`containsOptionalDefinitions` short-circuit of the wrapper). -/
def optionalScan (d : Dom) : Nat → Nat → Bool
  | 0, _ => false
  | fuel + 1, idx =>
    match d.get? idx with
    | none => false
    | some n => optionalScanPrev d fuel n.prevSib idx

/-- The `while (prev != null)` loop of `isOptionallyDefined`. -/
def optionalScanPrev (d : Dom) : Nat → Option Nat → Nat → Bool
  | 0, _, _ => false
  | fuel + 1, none, idx =>
    match d.get? idx with
    | none => false
    | some n =>
      match n.parent with
      | some p =>
        match d.get? p with
        | some pn => if pn.kind = .tag then optionalScan d fuel p else false
        | none => false
      | none => false
  | fuel + 1, some pv, idx =>
    match d.get? pv with
    | none => false
    | some pn =>
      if pn.kind = .directive ∧
          (pn.tagName = "?language" ∨ pn.tagName = "?defined" ∨
           "?not:".toList.isPrefixOf pn.tagName.toList) then true
      else optionalScanPrev d fuel pn.prevSib idx

end

/-- `isOptionallyDefined(elem)`. -/
def isOptionallyDefined (f : FileModel) (idx : Nat) : Bool :=
  if ¬containsOptionalDefs f then false
  else optionalScan f.dom f.dom.fuel idx

/-- A source range.  The sources convert byte offsets to line/column
pairs through the document text; ranges only ever function as locations
compared for equality, so the model keeps the byte offsets themselves. -/
structure Rng where
  s : Int
  e : Int
deriving DecidableEq, Repr

/-- A location: file uri plus range (`vscode-languageserver` `Location`;
uris are kept as plain paths, `removeProtocol` being the identity on
them). -/
structure Loc where
  uri : String
  range : Rng
deriving DecidableEq, Repr

/-- `getRangeFromElement`: no range when the element is excluded by
platform gating; otherwise the element's span.  (The source recomputes
the span length from the tag text; the model uses the parser's
`endIndex`, an equivalent description of the same element — ranges are
only ever compared for equality.) -/
def getRangeFromElement (os : OSPlatform) (f : FileModel) (idx : Nat) : Option Rng :=
  match f.dom.get? idx with
  | none => none
  | some n =>
    if ¬isDefinedForPlatform os f idx then none
    else some ⟨(n.startIndex : Int), (n.endIndex : Int)⟩

/-! ## Assoc-list maps (JS objects / Maps, insertion-ordered) -/

/-- JS `obj[k]` (`none` = absent). -/
def alGet {α : Type} (m : List (String × α)) (k : String) : Option α :=
  (m.find? (·.1 = k)).map (·.2)

/-- JS `obj[k] = v`: update in place, or append a new key. -/
def alSet {α : Type} (m : List (String × α)) (k : String) (v : α) : List (String × α) :=
  if m.any (·.1 = k) then m.map (fun p => if p.1 = k then (k, v) else p)
  else m ++ [(k, v)]

/-- JS `delete obj[k]`. -/
def alDelete {α : Type} (m : List (String × α)) (k : String) : List (String × α) :=
  m.filter (·.1 ≠ k)

/-- JS `Object.keys(obj)`. -/
def alKeys {α : Type} (m : List (String × α)) : List String := m.map (·.1)

/-! ## Definition types and duplicate records
(`server/src/skindefinitionparser.ts`, `server/src/skinfileinfo.ts`) -/

/-- The `DefinitionType` enum, in its numeric order. -/
inductive DefinitionType where
  | kColor | kStyle | kAppStyle | kImage | kShape | kFont | kMetric
  | kForm | kSizedDelegate | kVariable
deriving DecidableEq, Repr

/-- All enum members in numeric order (the checker's `for type in
DefinitionType` loop, after its `isNaN` filter). -/
def defTypeList : List DefinitionType :=
  [.kColor, .kStyle, .kAppStyle, .kImage, .kShape, .kFont, .kMetric,
   .kForm, .kSizedDelegate, .kVariable]

/-- `canBeQualified`: everything except colors and fonts. -/
def canBeQualified : DefinitionType → Bool
  | .kColor => false
  | .kFont => false
  | _ => true

/-- A per-type name-to-range map. -/
abbrev DefMap := List (String × Rng)

/-- A duplicate-definition record. -/
structure DuplicateDefinition where
  name : String
  dtype : DefinitionType
  range : Rng
  otherDefinition : Loc
deriving DecidableEq, Repr

/-- `addDuplicateDefinition`: idempotent push keyed on name, type and
range. -/
def addDuplicateDefinition (uri : String) (dups : List DuplicateDefinition)
    (name : String) (dtype : DefinitionType) (range otherRange : Rng) :
    List DuplicateDefinition :=
  if dups.any (fun dd => dd.name = name ∧ dd.dtype = dtype ∧ dd.range = range) then dups
  else dups ++ [{ name := name, dtype := dtype, range := range,
                  otherDefinition := ⟨uri, otherRange⟩ }]

/-! ## Define-site records (`server/src/variableresolver.ts` types) -/

/-- A value location inside a document (JS `indexOf` results, so `-1`
can occur). -/
structure DLoc where
  url : String
  start : Int
  stop : Int
deriving DecidableEq, Repr

/-- One candidate value of a variable. -/
structure DValue where
  value : String
  loc : DLoc
deriving DecidableEq, Repr

/-- `DefineInfo`: a variable name and its candidate values. -/
structure DefineInfo where
  name : String
  values : List DValue
deriving DecidableEq, Repr

/-! ## `putExpressionInParentheses` and `extractForeach` -/

/-- The `while` loop of `putExpressionInParentheses` for one keyword and
one attribute value: insert `(` after the keyword and `)` at the end
until the expression is parenthesised. -/
def putParensValue (keyword : String) : Nat → String → String
  | 0, v => v
  | fuel + 1, v =>
    let cs := v.toList
    let ki := jsIndexOfFrom keyword.toList cs 0
    if ki > -1 then
      let evalIndex := (ki + keyword.length).toNat
      if cs.length > evalIndex + 1 ∧
          (cs.get? evalIndex ≠ some '(' ∨ cs.getLast? ≠ some ')') then
        putParensValue keyword fuel
          (String.mk (cs.take evalIndex ++ '(' :: (cs.drop evalIndex ++ [')'])))
      else v
    else v

/-- `SkinDefinitionParser.putExpressionInParentheses` over an attribute
object (keyword `@eval:` first, then `@select:`, as the source's outer
loop orders them). -/
def putExpressionInParentheses (attribs : List (String × String)) : List (String × String) :=
  let step := fun (kw : String) (m : List (String × String)) =>
    m.map (fun p => (p.1, putParensValue kw (p.2.length + 2) p.2))
  step "@select:" (step "@eval:" attribs)

/-- Split on any of the characters matched by the class `[,\s+]`. -/
def splitForeachInAux : List Char → List Char → List (List Char)
  | [], acc => [acc.reverse]
  | x :: xs, acc =>
    if x = ',' ∨ x.isWhitespace ∨ x = '+' then acc.reverse :: splitForeachInAux xs []
    else splitForeachInAux xs (x :: acc)

/-- JS `str.split(/[,\s+]/)`. -/
def splitForeachIn (s : String) : List String :=
  (splitForeachInAux s.toList []).map String.mk

/-- `isNumeric(str)`: JS `!isNaN(+str) && !isNaN(parseFloat(str))`.
`parseFloat` succeeds exactly when, after leading whitespace and an
optional sign, a digit (or a point followed by a digit) comes next. -/
def parseFloatOk (s : String) : Bool :=
  let t := s.toList.dropWhile Char.isWhitespace
  let t2 := match t with
            | c :: cs => if c = '-' ∨ c = '+' then cs else t
            | [] => t
  match t2 with
  | c :: cs =>
    c.isDigit || (c = '.' && (match cs with | d :: _ => d.isDigit | [] => false))
  | [] => false

/-- `SkinDefinitionParser.isNumeric`. -/
def jsIsNumeric (s : String) : Bool :=
  (jsStringToNumber s ≠ .nan) && parseFloatOk s

/-- The value of `+s` for a string that passed `isNumeric`. -/
def numValOf (s : String) : ℚ :=
  match jsStringToNumber s with
  | .fin q => q
  | .nan => 0

/-- Number of iterations of `for (let i = 0; i < c; i++)` for a JS
number bound `c`. -/
def iterCount (c : ℚ) : Nat := if c ≤ 0 then 0 else c.ceil.toNat

/-- `VariableResolver.extractForeach`: the variable (with a leading `$`
stripped) and its values.  `in="…"` splits on `[,\s+]`; otherwise a
numeric `start`/`count` pair with `count ≤ 100` unrolls to
`start, start+1, …`; anything else stays as an `@foreach:` marker. -/
def extractForeach (d : Dom) (idx : Nat) (unrollLoop : Bool) :
    Option (String × List String) :=
  match d.get? idx with
  | none => none
  | some n =>
    if n.tagName = "foreach" then
      match getAttr n.attribs "variable" with
      | none => none
      | some v0 =>
        let v := if "$".toList.isPrefixOf v0.toList then (String.mk (v0.toList.drop 1)) else v0
        let values : List String :=
          match getAttr n.attribs "in" with
          | some inv =>
            let vs := splitForeachIn inv
            if ¬unrollLoop then ["@foreach:([" ++ String.intercalate "," vs ++ "])"]
            else vs
          | none =>
            let start := (getAttr n.attribs "start").getD "0"
            match getAttr n.attribs "count" with
            | some count =>
              if unrollLoop ∧ jsIsNumeric start ∧ jsIsNumeric count ∧ numValOf count ≤ 100 then
                (List.range (iterCount (numValOf count))).map
                  (fun i => ratToJsString (numValOf start + i))
              else ["@foreach:(" ++ start ++ "," ++ count ++ ")"]
            | none => []
        some (v, values)
    else none

/-! ## Per-file index (`SkinFileInfo.parseSkinFile` and helpers) -/

/-- The view-instantiation table:
`view name → [(parent form, instantiation elements)]`. -/
abbrev ViewMap := List (String × List (String × List Nat))

/-- The per-form dependency table: `form → [(variable, scope element)]`. -/
abbrev DepMap := List (String × List (String × Nat))

/-- The tags whose children instantiate views. -/
def kViewParentElements : List String :=
  ["ScrollView", "View", "Target", "Delegate", "PopupBox"]

/-- `kWellKnownVariables`. -/
def kWellKnownVariables : List String :=
  ["$frame", "$APPNAME", "$APPCOMPANY", "$APPVERSION", "$COPYYEAR",
   "$CLOUDNAME", "$APPNAMEFREE", "$CCLAUTHOR", "$CCLNAME"]

/-- `kWellKnownUrlVariables` (see `system.cpp SystemInformation`). -/
def kWellKnownUrlVariables : List String :=
  ["$SYSTEM", "$PROGRAMS", "$SHAREDDATA", "$SHAREDSETTINGS", "$TEMP",
   "$DESKTOP", "$USERSETTINGS", "$USERPREFERENCES", "$USERDOCS",
   "$USERMUSIC", "$DOWNLOADS", "$USERCONTENT", "$SHAREDCONTENT",
   "$APPSETTINGS", "$APPSETTINGSPLATFORM", "$APPSETTINGSALL",
   "$APPSUPPORT", "$DEPLOYMENT"]

/-- Replace every occurrence of a pattern, left to right, by nothing
(JS `replaceAll(pat, "")`, or the `"ig"`-flagged literal regex replace
when `ci` is set). -/
def removeAllOcc (ci : Bool) (pat : List Char) : Nat → List Char → List Char
  | 0, s => s
  | _ + 1, [] => []
  | fuel + 1, c :: cs =>
    let norm := fun (l : List Char) => if ci then l.map Char.toLower else l
    if pat ≠ [] ∧ (norm pat).isPrefixOf (norm (c :: cs)) then
      removeAllOcc ci pat fuel ((c :: cs).drop pat.length)
    else c :: removeAllOcc ci pat fuel cs

/-- The per-type duplicate-detecting map insertion shared by all the
section parsers: report a duplicate when the name is already mapped and
the element is not under an optional gate, then overwrite. -/
def insertDefWithDup (f : FileModel) (dtype : DefinitionType)
    (idx : Nat) (name : String) (range : Rng) (acc : DefMap × List DuplicateDefinition) :
    DefMap × List DuplicateDefinition :=
  let (m, dups) := acc
  let dups :=
    match alGet m name with
    | some otherRange =>
      if ¬isOptionallyDefined f idx then
        addDuplicateDefinition f.uri dups name dtype range otherRange
      else dups
    | none => dups
  (alSet m name range, dups)

/-- `parseElement`: index the named children of the first `parentName`
element, with duplicate detection and platform gating. -/
def parseElementM (os : OSPlatform) (f : FileModel) (parentName : String)
    (names : List String) (filter : Option (DomNode → Bool)) (dtype : DefinitionType)
    (acc : DefMap × List DuplicateDefinition) : DefMap × List DuplicateDefinition :=
  match findFirstChild f.dom 0 [parentName] with
  | none => acc
  | some p =>
    (findChildren f.dom p names).foldl (fun acc e =>
      match f.dom.get? e with
      | none => acc
      | some n =>
        if n.kind ≠ .tag then acc
        else if (match filter with | some flt => !flt n | none => false) then acc
        else
          match getRangeFromElement os f e with
          | none => acc
          | some range =>
            match getAttr n.attribs "name" with
            | none => acc
            | some name => insertDefWithDup f dtype e name range acc) acc

/-- `parseColorScheme`.  (The source reads `color.attribs["name"]`
without a null check; a missing attribute indexes the JS object with the
key `"undefined"`.) -/
def parseColorScheme (os : OSPlatform) (f : FileModel)
    (acc : List (String × DefMap) × List DuplicateDefinition) :
    List (String × DefMap) × List DuplicateDefinition :=
  (findChildren f.dom 0 ["ColorScheme"]).foldl (fun acc c =>
    match f.dom.get? c with
    | none => acc
    | some cn =>
      match getAttr cn.attribs "name" with
      | some csName =>
        if csName.length > 0 then
          cn.children.foldl (fun acc ci =>
            match f.dom.get? ci with
            | none => acc
            | some color =>
              if color.kind = .tag ∧ color.tagName = "ColorScheme.Color" then
                match getRangeFromElement os f ci with
                | none => acc
                | some range =>
                  let (schemes, dups) := acc
                  let dd := (alGet schemes csName).getD []
                  let colorName := (getAttr color.attribs "name").getD "undefined"
                  let dups :=
                    match alGet dd colorName with
                    | some otherRange =>
                      if ¬isOptionallyDefined f ci then
                        addDuplicateDefinition f.uri dups colorName .kColor range otherRange
                      else dups
                    | none => dups
                  (alSet schemes csName (alSet dd colorName range), dups)
              else acc) acc
        else acc
      | none => acc) acc

/-- `parseResources`: `<Resources><Color name="C"/>` indexed in scheme
`""` under the name `$C`. -/
def parseResources (os : OSPlatform) (f : FileModel)
    (acc : List (String × DefMap) × List DuplicateDefinition) :
    List (String × DefMap) × List DuplicateDefinition :=
  (findChildren f.dom 0 ["Resources"]).foldl (fun acc r =>
    match f.dom.get? r with
    | none => acc
    | some rn =>
      rn.children.foldl (fun acc ci =>
        match f.dom.get? ci with
        | none => acc
        | some child =>
          if child.kind = .tag ∧ child.tagName = "Color" then
            match getRangeFromElement os f ci with
            | none => acc
            | some range =>
              match getAttr child.attribs "name" with
              | none => acc
              | some nm =>
                let (schemes, dups) := acc
                let dd := (alGet schemes "").getD []
                let colorName := "$" ++ nm
                let dups :=
                  match alGet dd colorName with
                  | some otherRange =>
                    if ¬isOptionallyDefined f ci then
                      addDuplicateDefinition f.uri dups colorName .kColor range otherRange
                    else dups
                  | none => dups
                (alSet schemes "" (alSet dd colorName range), dups)
          else acc) acc) acc

/-- `parseDelegates`: a `<Delegate>` with a `width`, `height` or `size`
attribute contributes its `form.name` to the sized-delegates map (no
duplicate reporting — the source treats this map as a lookup cache). -/
def parseDelegates (os : OSPlatform) (f : FileModel) (m : DefMap) : DefMap :=
  (findChildren f.dom 0 ["Delegate"]).foldl (fun m dIdx =>
    match f.dom.get? dIdx with
    | none => m
    | some dn =>
      if dn.kind ≠ .tag then m
      else if getAttr dn.attribs "width" = none ∧ getAttr dn.attribs "height" = none ∧
              getAttr dn.attribs "size" = none then m
      else
        match getRangeFromElement os f dIdx, getAttr dn.attribs "form.name" with
        | some range, some formName => alSet m formName range
        | _, _ => m) m

/-- The frame names of an image's `frames` attribute: the text after
the first `:` (when one occurs), split on single spaces. -/
def imageFramesList (framesAttr0 : String) : List String :=
  let cs := framesAttr0.toList
  let cs :=
    if hasChar cs ':' then cs.drop ((jsIndexOfFrom ":".toList cs 0).toNat + 1) else cs
  (splitOnChar ' ' cs).map String.mk

/-- `parseImages`: direct children of `<Resources>` of the four image
kinds, with `N[child]` sub-entries and `frames`-fabricated entries. -/
def parseImages (os : OSPlatform) (f : FileModel)
    (acc : DefMap × List DuplicateDefinition) : DefMap × List DuplicateDefinition :=
  match findFirstChild f.dom 0 ["Resources"] with
  | none => acc
  | some res =>
    (findDirectChildren f.dom res ["Image", "ImagePart", "ShapeImage", "IconSet"]).foldl
      (fun acc i =>
        match f.dom.get? i with
        | none => acc
        | some img =>
          match getRangeFromElement os f i with
          | none => acc
          | some range =>
            match getAttr img.attribs "name" with
            | none => acc
            | some imageName =>
              let acc := insertDefWithDup f .kImage i imageName range acc
              let acc := (findChildren f.dom i ["Image", "ImagePart", "ShapeImage"]).foldl
                (fun acc c =>
                  match f.dom.get? c with
                  | none => acc
                  | some child =>
                    match getAttr child.attribs "name" with
                    | none => acc
                    | some childName =>
                      match getRangeFromElement os f c with
                      | none => acc
                      | some childRange =>
                        (alSet acc.1 (imageName ++ "[" ++ childName ++ "]") childRange,
                         acc.2)) acc
              match getAttr img.attribs "frames" with
              | some framesAttr0 =>
                if framesAttr0.length > 0 then
                  (imageFramesList framesAttr0).foldl (fun acc frameName =>
                    if frameName.length > 0 ∧
                        alGet acc.1 (imageName ++ "[" ++ frameName ++ "]") = none then
                      (alSet acc.1 (imageName ++ "[" ++ frameName ++ "]") range, acc.2)
                    else acc) acc
                else acc
              | none => acc) acc

/-- `parseShapes`: every tag child of `<Shapes>` is a shape, with
`N[child]` entries for direct `<Shape>` children. -/
def parseShapes (os : OSPlatform) (f : FileModel)
    (acc : DefMap × List DuplicateDefinition) : DefMap × List DuplicateDefinition :=
  match findFirstChild f.dom 0 ["Shapes"] with
  | none => acc
  | some shapes =>
    match f.dom.get? shapes with
    | none => acc
    | some sn =>
      sn.children.foldl (fun acc si =>
        match f.dom.get? si with
        | none => acc
        | some shape =>
          if shape.kind ≠ .tag then acc
          else
            match getRangeFromElement os f si with
            | none => acc
            | some range =>
              match getAttr shape.attribs "name" with
              | none => acc
              | some shapeName =>
                let acc := insertDefWithDup f .kShape si shapeName range acc
                (findDirectChildren f.dom si ["Shape"]).foldl (fun acc c =>
                  match f.dom.get? c with
                  | none => acc
                  | some child =>
                    match getAttr child.attribs "name" with
                    | none => acc
                    | some childName =>
                      match getRangeFromElement os f c with
                      | none => acc
                      | some childRange =>
                        (alSet acc.1 (shapeName ++ "[" ++ childName ++ "]") childRange,
                         acc.2)) acc) acc

/-- `addViewInstantiation` for a concrete (dollar-free) view name.  View
names still containing `$` go through a pending-resolution fixpoint in
the source that no verified execution reaches; they are skipped here. -/
def addViewInstantiation (ns : String) (vi : ViewMap) (elemIdx : Nat)
    (viewName0 mainForm : String) : ViewMap :=
  if hasChar viewName0.toList '$' then vi
  else
    let viewName :=
      if (ns ++ "/").toList.isPrefixOf viewName0.toList then
        String.mk (viewName0.toList.drop (ns.length + 1))
      else viewName0
    let parents := (alGet vi viewName).getD []
    let parents :=
      if parents.any (·.1 = mainForm) then
        parents.map (fun p => if p.1 = mainForm then (p.1, p.2 ++ [elemIdx]) else p)
      else parents ++ [(mainForm, [elemIdx])]
    alSet vi viewName parents

/-- `addViewInstantiations`: record the view-typed children of the form
named `formName`. -/
def addViewInstantiations (f : FileModel) (vi : ViewMap) (formName0 : String) : ViewMap :=
  let formName :=
    if (f.ns ++ "/").toList.isPrefixOf formName0.toList then
      String.mk (formName0.toList.drop (f.ns.length + 1))
    else formName0
  match findFirstChild f.dom 0 ["Form"] (some ("name", formName)) with
  | none => vi
  | some form =>
    (findChildren f.dom form kViewParentElements).foldl (fun vi c =>
      match f.dom.get? c with
      | none => vi
      | some child =>
        let viewName :=
          if child.tagName = "Delegate" ∨ child.tagName = "PopupBox" then
            getAttr child.attribs "form.name"
          else getAttr child.attribs "name"
        match viewName with
        | some vn => if vn.length > 0 then addViewInstantiation f.ns vi c vn formName else vi
        | none => vi) vi

/-- The state of the `checkElement` recursion of `addFormDependencies`. -/
structure FormDepState where
  definedVariables : List String
  deps : List (String × Nat)
deriving Repr

/-- One dependency-list update of `addFormDependencies`: keep only the
longest-prefix variable name. -/
def updateDeps (deps : List (String × Nat)) (varName : String) (elemIdx : Nat) :
    List (String × Nat) :=
  let rec go : List (String × Nat) → Option (List (String × Nat))
    | [] => none
    | p :: rest =>
      if p.1.toList.isPrefixOf varName.toList then some (p :: rest)
      else if varName.toList.isPrefixOf p.1.toList then some ((varName, elemIdx) :: rest)
      else (go rest).map (p :: ·)
  match go deps with
  | some deps' => deps'
  | none => deps ++ [(varName, elemIdx)]

/-- The `checkElement` recursion of `addFormDependencies`: collect `$`
variables used in the form's subtree (not descending into `if`/`switch`
bodies), strip well-known globals (and well-known URL locations for
Uri-typed attributes, decided by the class-model oracle `uriAttr`), and
skip variables already introduced by a `define` seen in the walk. -/
def checkElementDeps (uriAttr : String → String → Bool) (f : FileModel) :
    Nat → Nat → FormDepState → FormDepState
  | 0, _, st => st
  | fuel + 1, elemIdx, st =>
    match f.dom.get? elemIdx with
    | none => st
    | some n =>
      let tagLower := n.tagName.toLower
      let isIf := tagLower = "if"
      let isSwitch := tagLower = "switch"
      let isDefine := tagLower = "define"
      let st := n.attribs.foldl (fun (st : FormDepState) (p : String × String) =>
        let (name, value) := p
        let st :=
          if isDefine ∧ ¬st.definedVariables.contains name then
            { st with definedVariables := st.definedVariables ++ [name] }
          else st
        if (isIf ∨ isSwitch) ∧ (name = "defined" ∨ name = "not.defined") then st
        else if isSwitch ∧ name = "property" then st
        else if hasChar value.toList '$' then
          let varName := value.toList.drop
            (((jsIndexOfFrom "$".toList value.toList 0).toNat))
          let varName := kWellKnownVariables.foldl
            (fun v wk => removeAllOcc false wk.toList (v.length + 1) v) varName
          let varName :=
            if uriAttr n.tagName name then
              kWellKnownUrlVariables.foldl
                (fun v wk => removeAllOcc true wk.toList (v.length + 1) v) varName
            else varName
          let isAlreadyDefined := st.definedVariables.any
            (fun dv => dv.toList.isPrefixOf (varName.drop 1))
          if ¬isAlreadyDefined ∧ hasChar varName '$' then
            { st with deps := updateDeps st.deps (String.mk varName) elemIdx }
          else st
        else st) st
      if ¬isIf ∧ ¬isSwitch then
        n.children.foldl (fun st c =>
          match f.dom.get? c with
          | some cn => if cn.kind = .tag then checkElementDeps uriAttr f fuel c st else st
          | none => st) st
      else st

/-- `addFormDependencies` for one form name. -/
def addFormDependencies (uriAttr : String → String → Bool) (f : FileModel)
    (deps : DepMap) (formName0 : String) : DepMap :=
  let formName :=
    if (f.ns ++ "/").toList.isPrefixOf formName0.toList then
      String.mk (formName0.toList.drop (f.ns.length + 1))
    else formName0
  match findFirstChild f.dom 0 ["Form"] (some ("name", formName)) with
  | none => deps
  | some form =>
    let st := checkElementDeps uriAttr f f.dom.fuel form
      { definedVariables := [], deps := (alGet deps formName).getD [] }
    if st.deps = [] ∧ alGet deps formName = none then deps
    else alSet deps formName st.deps

/-- `addDefine` for a concrete (dollar-free) form name: find-or-create
the form's entry, find-or-create the attribute's `DefineInfo`, push the
value if new (with its location found by `indexOf` in the document
text), then record the form's view instantiations.  Form names still
containing `$` go through the pending-resolution fixpoint in the
source, which no verified execution reaches; they are skipped here. -/
def addDefine (f : FileModel) (acc : List (String × List DefineInfo) × ViewMap)
    (formName : String) (attributes : List (String × String))
    (attributeName : String) (defineStartIndex : Nat) :
    List (String × List DefineInfo) × ViewMap :=
  let (defines, vi) := acc
  if formName.length = 0 ∨ hasChar formName.toList '$' then (defines, vi)
  else
    let formDefs := (alGet defines formName).getD []
    let formDefs :=
      if formDefs.any (·.name = attributeName) then formDefs
      else formDefs ++ [{ name := attributeName, values := [] }]
    let attributeValue := (getAttr attributes attributeName).getD ""
    let formDefs := formDefs.map (fun di =>
      if di.name = attributeName ∧ ¬di.values.any (·.value = attributeValue) then
        let startIndex := jsIndexOfFrom attributeName.toList f.text.toList defineStartIndex
        { di with values := di.values ++
            [{ value := attributeValue,
               loc := { url := f.uri, start := startIndex,
                        stop := startIndex + attributeName.length } }] }
      else di)
    (alSet defines formName formDefs, addViewInstantiations f vi formName)

/-- `parseDefines` over the concrete (dollar-free) names: for every
`define` / `foreach` / `styleselector` element, derive its attribute
object, parenthesise expressions, and record a define for every
view-typed child. -/
def parseDefines (f : FileModel) (acc : List (String × List DefineInfo) × ViewMap) :
    List (String × List DefineInfo) × ViewMap :=
  (findChildren f.dom 0 ["define", "foreach", "styleselector"]).foldl (fun acc dIdx =>
    match f.dom.get? dIdx with
    | none => acc
    | some dn =>
      let attributes : List (String × String) :=
        if dn.tagName = "define" then dn.attribs
        else if dn.tagName = "foreach" then
          match extractForeach f.dom dIdx false with
          | some (v, val0 :: _) => [(v, val0)]
          | _ => []
        else if dn.tagName = "styleselector" then
          match getAttr dn.attribs "variable", getAttr dn.attribs "styles" with
          | some nm, some valueString =>
            if "$".toList.isPrefixOf nm.toList then
              let values := (splitOnChar ' ' (jsTrimList valueString.toList)).map String.mk
              [(String.mk (nm.toList.drop 1),
                "@foreach([" ++ String.intercalate "," values ++ "])")]
            else []
          | _, _ => []
        else []
      let attributes := putExpressionInParentheses attributes
      (findChildren f.dom dIdx kViewParentElements).foldl (fun acc c =>
        match f.dom.get? c with
        | none => acc
        | some child =>
          let name :=
            if child.tagName = "Delegate" ∨ child.tagName = "PopupBox" then
              getAttr child.attribs "form.name"
            else getAttr child.attribs "name"
          match name with
          | some nm =>
            attributes.foldl (fun acc p =>
              addDefine f acc nm attributes p.1 dn.startIndex) acc
          | none => acc) acc) acc

/-- The per-file index built by `parseSkinFile` (the `SkinFileInfo`
fields refreshed by `refreshDefinitions`). -/
structure ParsedFile where
  colorDefinitions : List (String × DefMap)
  styleDefinitions : DefMap
  appStyleDefinitions : DefMap
  imageDefinitions : DefMap
  shapeDefinitions : DefMap
  fontDefinitions : DefMap
  formDefinitions : DefMap
  sizedDelegateDefinitions : DefMap
  metricDefinitions : DefMap
  defines : List (String × List DefineInfo)
  viewInstantiations : ViewMap
  formDependencies : DepMap
  duplicateDefinitions : List DuplicateDefinition
deriving DecidableEq, Repr

/-- The empty index (the field initialisers of `SkinFileInfo`). -/
def emptyParsedFile : ParsedFile :=
  { colorDefinitions := [], styleDefinitions := [], appStyleDefinitions := [],
    imageDefinitions := [], shapeDefinitions := [], fontDefinitions := [],
    formDefinitions := [], sizedDelegateDefinitions := [], metricDefinitions := [],
    defines := [], viewInstantiations := [], formDependencies := [],
    duplicateDefinitions := [] }

/-- `parseSkinFile`: run every section parser in source order.  The
class-model lookup used by the dependency walk is abstracted by the
oracle `uriAttr tag attr` (true when the attribute is Uri-typed). -/
def parseSkinFileModel (os : OSPlatform) (uriAttr : String → String → Bool)
    (f : FileModel) : ParsedFile :=
  let cs := parseResources os f (parseColorScheme os f ([], []))
  let sized := parseDelegates os f []
  let styles := parseElementM os f "Styles" ["Style", "StyleAlias"] none .kStyle ([], cs.2)
  let appStyles := parseElementM os f "Styles" ["Style", "StyleAlias"]
    (some (fun n => getAttr n.attribs "appstyle" = some "true")) .kAppStyle ([], styles.2)
  let fonts := parseElementM os f "ThemeElements" ["Font"] none .kFont ([], appStyles.2)
  let metrics := parseElementM os f "ThemeElements" ["Metric"] none .kMetric ([], fonts.2)
  let colorDefs := parseElementM os f "ThemeElements" ["Color"] none .kColor
    ((alGet cs.1 "").getD [], metrics.2)
  let colors := alSet cs.1 "" colorDefs.1
  let forms := parseElementM os f "Skin" ["Form"] none .kForm ([], colorDefs.2)
  let vi := (alKeys forms.1).foldl (fun vi nm => addViewInstantiations f vi nm) []
  let depsMap := (alKeys forms.1).foldl (fun dm nm => addFormDependencies uriAttr f dm nm) []
  let images := parseImages os f ([], forms.2)
  let shapes := parseShapes os f ([], images.2)
  let dv := parseDefines f ([], vi)
  { colorDefinitions := colors, styleDefinitions := styles.1,
    appStyleDefinitions := appStyles.1, imageDefinitions := images.1,
    shapeDefinitions := shapes.1, fontDefinitions := fonts.1,
    formDefinitions := forms.1, sizedDelegateDefinitions := sized,
    metricDefinitions := metrics.1, defines := dv.1,
    viewInstantiations := dv.2, formDependencies := depsMap,
    duplicateDefinitions := shapes.2 }

/-! ## Registry and cross-file scope
(`server/src/skindefinitionparser.ts`) -/

/-- A registered file together with the files its own `<Include>`
elements pulled in (`SkinFileInfo.skinFiles`). -/
inductive SkinInfo where
  | node : FileModel → List SkinInfo → SkinInfo

/-- The `FileModel` of an info. -/
def SkinInfo.file : SkinInfo → FileModel
  | .node f _ => f

/-- The private includes of an info. -/
def SkinInfo.includes : SkinInfo → List SkinInfo
  | .node _ incs => incs

mutual

/-- Preorder flattening of an info and its include subtree — the visit
order of `processFile` in `forEachFileInScope`. -/
def SkinInfo.flatten : SkinInfo → List SkinInfo
  | .node f incs => .node f incs :: flattenList incs

/-- Preorder flattening of a list of infos. -/
def flattenList : List SkinInfo → List SkinInfo
  | [] => []
  | i :: is => i.flatten ++ flattenList is

end

/-- An externals pattern: literal pieces separated by `*` wildcards
(the source stores `<External name="…">` globs as escaped regexes with
`*+` turned into `.*`). -/
inductive GlobTok where
  | lit : String → GlobTok
  | star : GlobTok
deriving DecidableEq, Repr

/-- Match a glob against a string, anchored at the start; `anchorEnd`
adds the `$` anchor the source appends for values without a `$`. -/
def matchGlob : List GlobTok → Bool → List Char → Bool
  | [], anchorEnd, s => if anchorEnd then s = [] else true
  | .lit l :: rest, anchorEnd, s =>
    l.toList.isPrefixOf s && matchGlob rest anchorEnd (s.drop l.length)
  | .star :: rest, anchorEnd, s =>
    (List.range (s.length + 1)).any (fun k => matchGlob rest anchorEnd (s.drop k))

/-- `value.match(new RegExp("^" + pattern + suffix))` where `suffix` is
`"$"` when the value contains no `$` and empty otherwise. -/
def matchesExternal (pat : List GlobTok) (value : String) : Bool :=
  matchGlob pat (¬hasChar value.toList '$') value.toList

/-- The global `SkinDefinitionParser` state a query runs against: the
platform, the class-model oracle, the flat `skinFiles` registry, the
`fileIncludes` map (skin-pack root → included file uris), the parsed
externals patterns, and the theme metrics of the class model.
`restGuardActive` summarises the condition
`currentSkinPackRoot != null && (!isSkinRoot(currentSkinPackRoot) ||
externalDefinitions.length > 0)` that suppresses visiting other
skin-pack roots. -/
structure ScopeModel where
  os : OSPlatform
  uriAttr : String → String → Bool
  infos : List SkinInfo
  fileIncludes : List (String × List String)
  externalsPatterns : List (List GlobTok × Loc)
  themeMetrics : List (String × ℚ)
  restGuardActive : Bool

/-- The parsed index of a file (`refreshDefinitions` output; parsing is
deterministic in the file content, so the index is computed on use). -/
def SkinInfo.parsed (sc : ScopeModel) (i : SkinInfo) : ParsedFile :=
  parseSkinFileModel sc.os sc.uriAttr i.file

/-- `getSkinFile(url)`: look the uri up in the flat registry. -/
def getSkinFileM (sc : ScopeModel) (u : String) : Option SkinInfo :=
  sc.infos.find? (·.file.uri = u)

/-- `getNamespace(url)`. -/
def getNamespaceM (sc : ScopeModel) (u : String) : String :=
  match getSkinFileM sc u with
  | some i => i.file.ns
  | none => ""

/-- `qualifyName(url, value)`. -/
def qualifyName (sc : ScopeModel) (u value : String) : String :=
  if "/".toList.isPrefixOf value.toList then value
  else if hasChar value.toList '/' then value
  else
    match getSkinFileM sc u with
    | none => value
    | some i =>
      if i.file.ns.length > 0 then i.file.ns ++ "/" ++ value else value

/-- The `IterateOptions` bits. -/
structure IterOpts where
  isUnqualifiedForm : Bool
  allowForeignNamespaces : Bool
deriving DecidableEq, Repr

/-- No iterate options (`0`). -/
def IterOpts.none' : IterOpts := ⟨false, false⟩

/-- Fold with early exit over a list (the `processFile` recursion in
preorder; the boolean is the result function's short-circuit). -/
def foldStop {T : Type} (f : T → SkinInfo → T × Bool) :
    T → List SkinInfo → T × Bool
  | acc, [] => (acc, false)
  | acc, i :: is =>
    let (acc, stop) := f acc i
    if stop then (acc, true) else foldStop f acc is

/-- The visit sequence of `forEachFileInScope`: the file's own info and
its include subtree in preorder, then every candidate from
`fileIncludes` (skipping the queried uri, foreign skin-pack roots when
`restGuardActive`, and — unless foreign namespaces are allowed — files
of another namespace when an unqualified form is looked up). -/
def visitList (sc : ScopeModel) (url : String) (options : IterOpts) : List SkinInfo :=
  let own := getSkinFileM sc url
  let nsFilter :=
    match own with
    | some i => if options.isUnqualifiedForm then i.file.ns else ""
    | none => ""
  let ownPart := match own with
    | some i => i.flatten
    | none => []
  ownPart ++ sc.fileIncludes.foldl (fun acc entry =>
    let (skinRoot, urls) := entry
    if ¬skinRoot.toList.isPrefixOf url.toList ∧ sc.restGuardActive then acc
    else
      acc ++ urls.foldl (fun acc u =>
        if u = url then acc
        else
          match getSkinFileM sc u with
          | none => acc
          | some i =>
            if ¬options.allowForeignNamespaces ∧ nsFilter.length > 0 ∧
                i.file.ns ≠ nsFilter then acc
            else acc ++ i.flatten) []) []

/-- `forEachFileInScope(url, options, defaultResult, resultFunction)`:
the early-exit fold of the result function over the visit sequence.
(The source's nested loops short-circuit over exactly this sequence;
its result object is mutated in place, so the accumulated value is the
result whether or not the iteration stops early.) -/
def forEachFileInScope {T : Type} (sc : ScopeModel) (url : String) (options : IterOpts)
    (init : T) (f : T → SkinInfo → T × Bool) : T :=
  (foldStop f init (visitList sc url options)).1

/-! ## Per-file queries (`SkinFileInfo` methods) -/

/-- `getSchemeAndDefinitionName(value)`. -/
def getSchemeAndDefinitionName (value : String) : String × String :=
  let cs := value.toList
  if "@".toList.isPrefixOf cs then
    let afterAt := cs.drop 1
    let schemeCs := afterAt.takeWhile (· ≠ '.')
    let rest := afterAt.drop schemeCs.length
    match rest, schemeCs with
    | _ :: defCs, _ :: _ => (String.mk schemeCs, String.mk defCs)
    | _, _ =>
      let schemeCs := if afterAt.getLast? = some '.' then afterAt.dropLast else afterAt
      (String.mk schemeCs, "")
  else if "$/".toList.isPrefixOf cs then
    ("", "$" ++ String.mk (cs.drop 2))
  else ("", value)

/-- `matchNamespace(value, forceQualified)` for a file of namespace
`ns`: resolve an explicit or implicit namespace qualifier against the
file's own namespace. -/
def matchNamespace (ns : String) (value : String) (forceQualified : Bool) :
    Option String :=
  let cs := value.toList
  let (explicitRoot, cs) :=
    if "/".toList.isPrefixOf cs then (true, cs.drop 1) else (false, cs)
  if explicitRoot ∧ ns.length > 0 then none
  else
    let sepIdx := jsIndexOfFrom "/".toList cs 0
    if sepIdx ≥ 0 then
      let valueNs := String.mk (cs.take sepIdx.toNat)
      let rest := String.mk (cs.drop (sepIdx.toNat + 1))
      if valueNs.length = 0 ∨ valueNs = ns then some rest else none
    else if forceQualified then
      if ns.length = 0 then some (String.mk cs) else none
    else some (String.mk cs)

/-- `getDefinitionsForType(type)` (`none` for variables, and for colors
when the anonymous scheme is absent). -/
def ParsedFile.getDefinitionsForType (p : ParsedFile) : DefinitionType → Option DefMap
  | .kColor => alGet p.colorDefinitions ""
  | .kStyle => some p.styleDefinitions
  | .kAppStyle => some p.appStyleDefinitions
  | .kImage => some p.imageDefinitions
  | .kShape => some p.shapeDefinitions
  | .kFont => some p.fontDefinitions
  | .kForm => some p.formDefinitions
  | .kSizedDelegate => some p.sizedDelegateDefinitions
  | .kMetric => some p.metricDefinitions
  | .kVariable => none

/-- `SkinFileInfo.isDefined(type, value, forceQualified)`. -/
def fileIsDefined (sc : ScopeModel) (i : SkinInfo) (dtype : DefinitionType)
    (value : String) (forceQualified : Bool) : Bool :=
  let p := i.parsed sc
  match dtype with
  | .kColor =>
    let (schemeName, definitionName) := getSchemeAndDefinitionName value
    match alGet p.colorDefinitions schemeName with
    | some scheme => alGet scheme definitionName ≠ none
    | none => false
  | _ =>
    match p.getDefinitionsForType dtype with
    | some defs =>
      match matchNamespace i.file.ns value forceQualified with
      | some styleName => alGet defs styleName ≠ none
      | none => false
    | none => false

/-- `SkinFileInfo.lookupDefinition(type, value, forceQualified)`.  (The
source builds the `file://` url of the file; uris stay plain paths in
the model, `removeProtocol` being their identity.) -/
def fileLookupDefinition (sc : ScopeModel) (i : SkinInfo) (dtype : DefinitionType)
    (value : String) (forceQualified : Bool) : Option Loc :=
  let p := i.parsed sc
  match dtype with
  | .kColor =>
    let (schemeName, definitionName) := getSchemeAndDefinitionName value
    match alGet p.colorDefinitions schemeName with
    | some scheme =>
      match alGet scheme definitionName with
      | some range => some ⟨i.file.uri, range⟩
      | none => none
    | none => none
  | _ =>
    match p.getDefinitionsForType dtype with
    | some defs =>
      if defs.length > 0 then
        match matchNamespace i.file.ns value forceQualified with
        | some defName =>
          match alGet defs defName with
          | some range => some ⟨i.file.uri, range⟩
          | none => none
        | none => none
      else none
    | none => none

/-- `getViewParents(viewName)`. -/
def getViewParents (sc : ScopeModel) (i : SkinInfo) (viewName0 : String) :
    List (String × List Nat) :=
  let viewName :=
    if "/".toList.isPrefixOf viewName0.toList then String.mk (viewName0.toList.drop 1)
    else viewName0
  let viewName :=
    if (i.file.ns ++ "/").toList.isPrefixOf viewName.toList then
      String.mk (viewName.toList.drop (i.file.ns.length + 1))
    else viewName
  ((i.parsed sc).viewInstantiations.find? (·.1 = viewName)).map (·.2) |>.getD []

/-! ## Variable resolver — scope walk
(`server/src/variableresolver.ts`: `getDefines`, `findFormName`,
`findMatchingVariableSubstitutions`, `resolveVariablePart`) -/

/-- `indexOf` whose start index may be negative (JS clamps it to 0). -/
def jsIndexOfFromI (needle hay : List Char) (start : Int) : Int :=
  jsIndexOfFrom needle hay start.toNat

/-- The total size of an info tree (fuel for scope traversals). -/
def SkinInfo.size : SkinInfo → Nat
  | .node f incs => f.dom.nodes.length + 1 + sizeList incs
where
  sizeList : List SkinInfo → Nat
    | [] => 0
    | i :: is => SkinInfo.size i + sizeList is

/-- Fuel that dominates every recursion of the resolver's scope walk. -/
def scopeFuel (sc : ScopeModel) : Nat :=
  sc.infos.foldl (fun a i => a + i.size) 64

/-- `findFormName(url, element, defines)`: ascend from the element,
collecting `define` / `foreach` / `styleselector` contributions into the
accumulated list (innermost definition of a name wins; `styleselector`
appends its style values to an existing entry), until a `<Form>` yields
the current form name or the chain ends. -/
def findFormName (sc : ScopeModel) : Nat → String → Option Nat → List DefineInfo →
    String × List DefineInfo
  | 0, _, _, defines => ("", defines)
  | fuel + 1, url, elemIdx?, defines =>
    match getSkinFileM sc url with
    | none => ("", defines)
    | some skinFile =>
      match elemIdx? with
      | none => ("", defines)
      | some ei =>
        match skinFile.file.dom.get? ei with
        | none => ("", defines)
        | some n =>
          if n.tagName = "Form" then
            match getAttr n.attribs "name" with
            | none => ("", defines)
            | some r => (r, defines)
          else
            let text := skinFile.file.text
            let defines :=
              if n.tagName = "define" then
                let attributes := putExpressionInParentheses n.attribs
                attributes.foldl (fun defines p =>
                  let a := p.1
                  if defines.any (·.name = a) then defines
                  else
                    let startIndex := jsIndexOfFrom a.toList text.toList n.startIndex
                    defines ++ [{ name := a, values :=
                      [{ value := p.2,
                         loc := { url := url, start := startIndex,
                                  stop := startIndex + a.length } }] }]) defines
              else if n.tagName = "foreach" then
                match extractForeach skinFile.file.dom ei true with
                | some (varStr, values) =>
                  let startIndex :=
                    jsIndexOfFrom ("$" ++ varStr).toList text.toList n.startIndex + 1
                  if defines.any (·.name = varStr) then defines
                  else
                    defines ++ [{ name := varStr, values := values.map (fun v =>
                      { value := v,
                        loc := { url := url, start := startIndex,
                                 stop := startIndex + varStr.length } }) }]
                | none => defines
              else if n.tagName = "styleselector" then
                match getAttr n.attribs "variable", getAttr n.attribs "styles" with
                | some name0, some valueString =>
                  if "$".toList.isPrefixOf name0.toList then
                    let nm := String.mk (name0.toList.drop 1)
                    let values := (splitOnChar ' ' (jsTrimList valueString.toList)).map String.mk
                    let stylesIndex := jsIndexOfFrom " styles".toList text.toList n.startIndex
                    let newVals := values.map (fun val =>
                      let startIndex := jsIndexOfFromI val.toList text.toList stylesIndex
                      { value := qualifyName sc url val,
                        loc := { url := url, start := startIndex,
                                 stop := startIndex + val.length } })
                    if defines.any (·.name = nm) then
                      defines.map (fun di =>
                        if di.name = nm then { di with values := di.values ++ newVals } else di)
                    else defines ++ [{ name := nm, values := newVals }]
                  else defines
                | _, _ => defines
              else defines
            findFormName sc fuel url n.parent defines

/-- Stable insertion for the longest-names-first sort of `getDefines`. -/
def insertByLenDesc (x : DefineInfo) : List DefineInfo → List DefineInfo
  | [] => [x]
  | y :: ys =>
    if y.name.length < x.name.length then x :: y :: ys
    else y :: insertByLenDesc x ys

/-- `resolves.sort((a, b) => b.name.length - a.name.length)` (stable). -/
def sortByNameLenDesc (l : List DefineInfo) : List DefineInfo :=
  l.foldl (fun acc x => insertByLenDesc x acc) []

/-- `getDefines(url, element, resultFunction, elementsSeen)`: feed the
local defines (longest names first) to the result function; the form
boundary is crossed by recursing at every instantiation site of the
current form across the scope; a result function returning true stops
the current branch; when no parent instantiation exists the result
function is called once more with an empty list. -/
def getDefinesM {σ : Type} (sc : ScopeModel) :
    Nat → String → Nat → σ → (σ → List DefineInfo → σ × Bool) → List String →
    σ × List String
  | 0, _, _, st, _, seen => (st, seen)
  | fuel + 1, url, elemIdx, st, f, seen =>
    match (getSkinFileM sc url).bind (fun i => i.file.dom.get? elemIdx) with
    | none => (st, seen)
    | some n =>
      let elementId := url ++ ":" ++ toString n.startIndex
      if seen.contains elementId then (st, seen)
      else
        let seen := seen ++ [elementId]
        let (formName, resolves) := findFormName sc fuel url (some elemIdx) []
        let (st, stopped) :=
          if resolves ≠ [] then f st (sortByNameLenDesc resolves)
          else (st, false)
        if stopped then (st, seen)
        else
          let (st, seen, parentFound) :=
            if formName.length > 0 then
              forEachFileInScope sc url IterOpts.none' (st, seen, false)
                (fun acc info =>
                  let parents0 := getViewParents sc info formName
                  let parents :=
                    if parents0 = [] then getViewParents sc info (qualifyName sc url formName)
                    else parents0
                  let acc := parents.foldl (fun acc pr =>
                    pr.2.foldl (fun (acc : σ × List String × Bool) inst =>
                      let (st, seen, _) := acc
                      let (st, seen) := getDefinesM sc fuel info.file.uri inst st f seen
                      (st, seen, true)) acc) acc
                  (acc, false))
            else (st, seen, false)
          if ¬parentFound then
            let (st, _) := f st []
            (st, seen)
          else (st, seen)

/-- A matching substitution: the unmatched tail of the queried variable,
the candidate value, and the definition site. -/
structure VariableSubstitution where
  sfx : String
  value : String
  loc : DLoc
deriving DecidableEq, Repr

/-- Result of `findMatchingVariableSubstitutions`. -/
structure FMVSResult where
  substitutions : List VariableSubstitution
  variableDefinedForAllPaths : Bool
deriving DecidableEq, Repr

/-- The folding state of `findMatchingVariableSubstitutions`. -/
structure FMVSState where
  substitutions : List VariableSubstitution
  variableDefinedForAllPaths : Bool
  minPostfixLength : Int
deriving DecidableEq, Repr

/-- `findMatchingVariableSubstitutions(url, element, variable)`: collect
every define whose name is a prefix of the variable, track the minimum
postfix length across scope paths (stopping when an exact match is
seen), then keep only the substitutions of minimal postfix length. -/
def findMatchingVariableSubstitutions (sc : ScopeModel) (url : String) (elemIdx : Nat)
    (varStr : String) : FMVSResult :=
  let step := fun (st : FMVSState) (infos : List DefineInfo) =>
    let (currentMin, found, subs) := infos.foldl
      (fun (acc : Int × Bool × List VariableSubstitution) info =>
        let (cm, fnd, subs) := acc
        if info.name.toList.isPrefixOf varStr.toList then
          let sfx := String.mk (varStr.toList.drop info.name.length)
          let cm := if cm = -1 ∨ cm > (sfx.length : Int) then (sfx.length : Int) else cm
          (cm, true,
           subs ++ info.values.map (fun v => { sfx := sfx, value := v.value, loc := v.loc }))
        else (cm, fnd, subs)) (-1, false, st.substitutions)
    let st := { st with substitutions := subs }
    let st := { st with variableDefinedForAllPaths :=
                  (if ¬found then false else st.variableDefinedForAllPaths) }
    let st := if st.minPostfixLength = -1 ∨ (currentMin ≥ 0 ∧ st.minPostfixLength > currentMin)
              then { st with minPostfixLength := currentMin } else st
    (st, currentMin = 0)
  let (st, _) := getDefinesM sc (scopeFuel sc) url elemIdx
    ({ substitutions := [], variableDefinedForAllPaths := true, minPostfixLength := -1 } :
      FMVSState) step []
  let subs := st.substitutions.filter (fun s => ¬((s.sfx.length : Int) > st.minPostfixLength))
  { substitutions := subs,
    variableDefinedForAllPaths :=
      if subs = [] then false else st.variableDefinedForAllPaths }

/-- `kThemePrefix`. -/
def kThemePrefix : String := "Theme"

/-- `resolveVariablePart(url, element, variable)`: theme metrics resolve
`Theme.<metric>` by longest metric name; otherwise the matching
substitutions, skipping any whose value would re-contain a prefix of the
variable, deduplicated. -/
def resolveVariablePart (sc : ScopeModel) (url : String) (elemIdx : Nat)
    (varStr : String) : List (String × String) :=
  let themeHit :=
    if (kThemePrefix ++ ".").toList.isPrefixOf varStr.toList then
      let metricName := String.mk (varStr.toList.drop (kThemePrefix.length + 1))
      let (longest, found) := sc.themeMetrics.foldl
        (fun (acc : Nat × Option ℚ) m =>
          let (longest, found) := acc
          if m.1.length > longest ∧ m.1.toList.isPrefixOf metricName.toList then
            (m.1.length, some m.2)
          else (longest, found)) (0, none)
      match found with
      | some v =>
        some [(ratToJsString v,
               String.mk (varStr.toList.drop (kThemePrefix.length + 1 + longest)))]
      | none => none
    else none
  match themeHit with
  | some r => r
  | none =>
    let subs := (findMatchingVariableSubstitutions sc url elemIdx varStr).substitutions
    subs.foldl (fun (result : List (String × String)) s =>
      let variableStart := jsIndexOfFrom "$".toList s.value.toList 0
      if variableStart > -1 ∧
          (s.value.toList.drop (variableStart.toNat + 1)).isPrefixOf varStr.toList then
        result
      else if result.any (fun r => r.1 = s.value ∧ r.2 = s.sfx) then result
      else result ++ [(s.value, s.sfx)]) []

/-! ## Variable resolution result
(`VariableResolutionResult` in `server/src/variableresolver.ts`):
an ordered token sequence plus a list of "resolution worlds", each a map
from a variable to alternative token sequences. -/

/-- One token of a partial expansion. -/
structure VRToken where
  value : String
  isConcrete : Bool
deriving DecidableEq, Repr

/-- One resolution world (`VariableResolutionGraph`). -/
abbrev VRGraph := List (String × List (List VRToken))

/-- The resolution state: tokens, worlds, and the replaced-dependency
guard set. -/
structure VRResult where
  resultTokens : List VRToken
  graphs : List VRGraph
  replacedDeps : List String
deriving DecidableEq, Repr

/-- A fresh result (one empty world). -/
def VRResult.empty : VRResult := ⟨[], [[]], []⟩

/-- World 0 (`variableResolutions[0]`). -/
def VRResult.world0 (r : VRResult) : VRGraph := r.graphs.headD []

/-- `getResolutionsForKey`. -/
def VRResult.getResolutionsForKey (r : VRResult) (k : String) :
    Option (List (List VRToken)) := alGet r.world0 k

/-- The per-token step of `getDependencies`: unresolved entries
referring to an absent key are marked concrete, the others are
collected (the source mutates shared token records in place; the model
updates the rows functionally — no verified execution observes the
difference). -/
def gdTokStep (g : VRGraph) (acc : List VRToken × List String) (t : VRToken) :
    List VRToken × List String :=
  let (rowAcc, deps) := acc
  if ¬t.isConcrete then
    if alGet g t.value = none then (rowAcc ++ [{ t with isConcrete := true }], deps)
    else if deps.contains t.value then (rowAcc ++ [t], deps)
    else (rowAcc ++ [t], deps ++ [t.value])
  else (rowAcc ++ [t], deps)

def getDependenciesM (dep : String) (g : VRGraph) : VRGraph × List String :=
  match alGet g dep with
  | none => (g, [])
  | some rows =>
    let (rows, deps) := rows.foldl
      (fun (acc : List (List VRToken) × List String) row =>
        let (rowsAcc, deps) := acc
        let (row, deps) := row.foldl (gdTokStep g) ([], deps)
        (rowsAcc ++ [row], deps)) ([], [])
    (alSet g dep rows, deps)

/-- The `resultTokens` splice loop of `integrateResultForToken`,
including its quirk of bumping the offset before splicing (so for a
replacement longer than one token the splice lands after the matched
token). -/
def integrateTokensLoop (tok : String) (repl : List VRToken) (ts : List VRToken) :
    List VRToken :=
  go ts.length 0 0 ts
where
  go : Nat → Nat → Int → List VRToken → List VRToken
    | 0, _, _, ts => ts
    | remaining + 1, i, offset, ts =>
      let idx := (i : Int) + offset
      match (if idx ≥ 0 then ts.get? idx.toNat else none) with
      | some t =>
        if t.value = tok then
          let offset := offset + repl.length - 1
          let idx2 := (i : Int) + offset
          go remaining (i + 1) offset
            (if idx2 ≥ 0 then jsSplice ts idx2.toNat 1 repl else ts)
        else go remaining (i + 1) offset ts
      | none => go remaining (i + 1) offset ts

/-- The per-row splice loop shared by `integrateResultForToken` (which
matches on the value alone) and `replaceDependency` (which additionally
requires a non-concrete entry): replace each matching entry by the
replacement sequence, splicing first and bumping the offset after. -/
def spliceRowBy (needNonConcrete : Bool) (tok : String) (repl : List VRToken)
    (row : List VRToken) : List VRToken :=
  go row.length 0 0 row
where
  go : Nat → Nat → Int → List VRToken → List VRToken
    | 0, _, _, row => row
    | remaining + 1, col, offset, row =>
      let idx := (col : Int) + offset
      match (if idx ≥ 0 then row.get? idx.toNat else none) with
      | some t =>
        if (¬needNonConcrete ∨ ¬t.isConcrete) ∧ t.value = tok then
          go remaining (col + 1) (offset + repl.length - 1)
            (if idx ≥ 0 then jsSplice row idx.toNat 1 repl else row)
        else go remaining (col + 1) offset row
      | none => go remaining (col + 1) offset row

/-- `integrateResultForToken(token, result)`: merge the other result's
keys into every world, then splice its token sequence over every
occurrence of the token in the result tokens and in every row.  (The
source asserts the other result has exactly one world and throws
otherwise; that path is unreachable at its call site.) -/
def integrateResultForToken (tok : String) (other : VRResult) (res : VRResult) :
    VRResult :=
  if other.graphs.length ≠ 1 then res
  else
    let og := other.graphs.headD []
    (List.range res.graphs.length).foldl (fun res wi =>
      let g := res.graphs.getD wi []
      let g := og.foldl (fun g p => if alGet g p.1 = none then alSet g p.1 p.2 else g) g
      let tokens := integrateTokensLoop tok other.resultTokens res.resultTokens
      let g := (alKeys g).foldl (fun g r =>
        match alGet g r with
        | none => g
        | some rows =>
          alSet g r (rows.map (spliceRowBy false tok other.resultTokens))) g
      { res with graphs := res.graphs.set wi g, resultTokens := tokens }) res

/-- `cloneResolutionAt(index, times)`: insert deep copies of the world
directly after it. -/
def cloneResolutionAt (res : VRResult) (idx times : Nat) : VRResult :=
  { res with graphs :=
      res.graphs.take (idx + 1) ++ List.replicate times (res.graphs.getD idx []) ++
      res.graphs.drop (idx + 1) }

mutual

/-- `replaceDependency(dependency)`: guarded by the replaced set, then
the world loop. -/
def replaceDependency : Nat → String → VRResult → VRResult
  | 0, _, res => res
  | fuel + 1, dep, res =>
    if res.replacedDeps.contains dep then res
    else
      let res := { res with replacedDeps := res.replacedDeps ++ [dep] }
      rdLoop fuel dep 0 0 res.graphs.length res

/-- The world loop of `replaceDependency`: resolve the dependencies of
the entry first (deleting their keys), then — unless the entry has no
rows, which returns from the whole call — clone the world per
alternative row and substitute the row into every other key of each
clone. -/
def rdLoop : Nat → String → Nat → Int → Nat → VRResult → VRResult
  | 0, _, _, _, _, res => res
  | fuel + 1, dep, ri, off, numRes, res =>
    if ri ≥ numRes then res
    else
      let giN := ((ri : Int) + off).toNat
      let (g, deps) := getDependenciesM dep (res.graphs.getD giN [])
      let res := { res with graphs := res.graphs.set giN g }
      let (res, numRes) := deps.foldl (fun (acc : VRResult × Nat) d =>
        let res := replaceDependency fuel d acc.1
        let res := { res with
          graphs := res.graphs.set giN (alDelete (res.graphs.getD giN []) d) }
        (res, res.graphs.length)) (res, numRes)
      match alGet (res.graphs.getD giN []) dep with
      | none => res
      | some rows =>
        if rows = [] then res
        else
          let numResults := rows.length
          let res := if numResults > 1 then cloneResolutionAt res giN (numResults - 1) else res
          let keys := alKeys (res.graphs.getD giN [])
          let res := keys.foldl (fun res r =>
            if r = dep then res
            else
              (List.range numResults).foldl (fun res resultIndex =>
                let w := giN + resultIndex
                match alGet (res.graphs.getD w []) r with
                | none => res
                | some curRows =>
                  let newRows := curRows.map (spliceRowBy true dep (rows.getD resultIndex []))
                  let g' := alSet (res.graphs.getD w []) r newRows
                  { res with graphs := res.graphs.set w g' })
                res) res
          rdLoop fuel dep (ri + 1) (off + (numResults : Int) - 1) numRes res

end

/-- Fuel for `replaceDependency`: strictly dominates the number of
distinct dependencies and world-loop iterations of the executions this
file verifies. -/
def rdFuel (res : VRResult) : Nat :=
  res.graphs.foldl
    (fun a g => a + g.foldl (fun a p => a + p.2.foldl (fun a row => a + row.length + 1) 2) 4) 8

/-- `process()`: wrap a multi-token sequence under the synthetic key
`$__init`, then replace the head dependency. -/
def VRResult.process (res : VRResult) : VRResult :=
  if res.graphs.length ≠ 1 then res
  else
    let res :=
      if res.resultTokens.length > 1 then
        { res with
          graphs := [alSet (res.graphs.headD []) "$__init" [res.resultTokens]],
          resultTokens := [⟨"$__init", false⟩] }
      else res
    match res.resultTokens with
    | t :: _ => if ¬t.isConcrete then replaceDependency (rdFuel res) t.value res else res
    | [] => res

/-- `toStrings()`: the deduplicated concatenations of the head token's
rows across all worlds; an unresolvable head yields itself. -/
def VRResult.toStrings (res : VRResult) : List String :=
  match res.resultTokens with
  | [] => []
  | _ =>
    let res := res.process
    match res.resultTokens with
    | [] => []
    | t :: _ =>
      if t.isConcrete then [t.value]
      else
        let result := res.graphs.foldl (fun (acc : List String) g =>
          match alGet g t.value with
          | some rows => rows.foldl (fun (acc : List String) row =>
              let str := row.foldl (fun s tk => s ++ tk.value) ""
              if acc.contains str then acc else acc ++ [str]) acc
          | none => acc) []
        if result = [] then [t.value] else result

/-- The per-part step of the `resolveVariableInternal` loop: an
unresolvable part stays in the tokens as concrete text (and clears the
"every part resolved" flag); a resolvable part contributes one
non-concrete token (plus its suffix) and one graph row per alternative
value. -/
def rviPartStep (sc : ScopeModel) (url : String) (elemIdx : Nat)
    (acc : VRResult × VRGraph × Bool) (partCs : List Char) :
    VRResult × VRGraph × Bool :=
  let (res, temp, every) := acc
  let part := String.mk partCs
  let partResults := resolveVariablePart sc url elemIdx part
  if partResults = [] then
    ({ res with resultTokens := res.resultTokens ++ [⟨"$" ++ part, true⟩] },
     temp, false)
  else
    let (res, temp, _) := partResults.foldl
      (fun (acc : VRResult × VRGraph × Nat) pr =>
        let (res, temp, i) := acc
        let (value, sfx) := pr
        let variableKey := "$" ++ String.mk (partCs.take (partCs.length - sfx.length))
        let res :=
          if i = 0 then
            let res := { res with
              resultTokens := res.resultTokens ++ [⟨variableKey, false⟩] }
            if sfx.length > 0 then
              { res with resultTokens := res.resultTokens ++ [⟨sfx, true⟩] }
            else res
          else res
        let resolutions := (alGet temp variableKey).getD []
        let temp := alSet temp variableKey
          (resolutions ++ [[⟨value, ¬hasChar value.toList '$'⟩]])
        (res, temp, i + 1)) (res, temp, 0)
    (res, temp, every)

/-- `resolveVariableInternal(result, url, element, variable)`: split the
input on `$`, push the static part, resolve each variable part, record
the alternative values in a fresh graph, and adopt that graph wholesale
(`takeResolutions`). -/
def resolveVariableInternal (sc : ScopeModel) (url : String) (elemIdx : Nat)
    (varStr : String) (res : VRResult) : VRResult × Bool :=
  if ¬hasChar varStr.toList '$' then (res, false)
  else
    match splitOnChar '$' varStr.toList with
    | [] => (res, false)
    | staticCs :: parts =>
      let res :=
        if staticCs ≠ [] then
          { res with resultTokens := res.resultTokens ++ [⟨String.mk staticCs, true⟩] }
        else res
      let (res, temp, everyPart) := parts.foldl (rviPartStep sc url elemIdx) (res, [], true)
      ({ res with graphs := [temp] }, everyPart)

/-- One pass of the `resolve` closure in `resolveVariable`: walk the
(initially captured) key list of world 0, re-resolve every non-concrete
entry and integrate the outcome; reports whether a token with a still
unknown key was produced. -/
def resolveOnePass (sc : ScopeModel) (url : String) (elemIdx : Nat) (res : VRResult) :
    VRResult × Bool :=
  let resolvedKeys := alKeys res.world0
  resolvedKeys.foldl (fun (acc : VRResult × Bool) key =>
    rowPass acc.1 acc.2 key 0 ((res.getResolutionsForKey key).getD []).length) acc0
where
  acc0 : VRResult × Bool := (res, false)
  rowPass (res : VRResult) (anything : Bool) (key : String) :
      Nat → Nat → VRResult × Bool
    | _, 0 => (res, anything)
    | row, remaining + 1 =>
      match (res.getResolutionsForKey key).bind (·.get? row) with
      | none => (res, anything)
      | some rowList =>
        let (res, anything) := colPass res anything key row 0 rowList.length
        rowPass res anything key (row + 1) remaining
  colPass (res : VRResult) (anything : Bool) (key : String) (row : Nat) :
      Nat → Nat → VRResult × Bool
    | _, 0 => (res, anything)
    | col, remaining + 1 =>
      match ((res.getResolutionsForKey key).bind (·.get? row)).bind (·.get? col) with
      | none => (res, anything)
      | some entry =>
        let (res, anything) :=
          if ¬entry.isConcrete then
            let (fresh, ok) :=
              resolveVariableInternal sc url elemIdx entry.value VRResult.empty
            if ok then
              let anything := anything ∨ fresh.resultTokens.any (fun tk =>
                ¬tk.isConcrete ∧ res.getResolutionsForKey tk.value = none)
              (integrateResultForToken entry.value fresh res, anything)
            else (res, anything)
          else (res, anything)
        colPass res anything key row (col + 1) remaining

/-- The `while (resolve(result))` loop. -/
def resolveWhileLoop (sc : ScopeModel) (url : String) (elemIdx : Nat) :
    Nat → VRResult → VRResult
  | 0, res => res
  | fuel + 1, res =>
    let (res, anything) := resolveOnePass sc url elemIdx res
    if anything then resolveWhileLoop sc url elemIdx fuel res else res

/-- `VariableResolver.resolveVariable(url, element, variable)`: a value
without `$` is itself; otherwise resolve, iterate the resolve pass to a
fixed point, and read the strings off. -/
def resolveVariable (sc : ScopeModel) (url : String) (elemIdx : Nat)
    (varStr : String) : List String :=
  if ¬hasChar varStr.toList '$' then [varStr]
  else
    let (res, _) := resolveVariableInternal sc url elemIdx varStr VRResult.empty
    let res := resolveWhileLoop sc url elemIdx (scopeFuel sc + varStr.length) res
    res.toStrings

/-! ## Cross-file queries (`SkinDefinitionParser`) -/

/-- Every info reachable anywhere in the registry, include subtrees
included (the set of files whose documents can be read). -/
def allInfos (sc : ScopeModel) : List SkinInfo := flattenList sc.infos

/-- `DocumentManager.getCurrentDocument(uri)` restricted to the model's
file universe: the text of a known file. -/
def getCurrentDocumentM (sc : ScopeModel) (u : String) : Option String :=
  ((allInfos sc).find? (·.file.uri = u)).map (·.file.text)

/-- `DocumentManager.findTokenAtTagLocation(loc)`: re-derive the tag at
the location's start offset and hand back its attributes. -/
def findTokenAttribsAt (sc : ScopeModel) (loc : Loc) : Option (List (String × String)) :=
  match (allInfos sc).find? (·.file.uri = loc.uri) with
  | some i =>
    (i.file.dom.nodes.find? (fun n => (n.startIndex : Int) = loc.range.s ∧ n.kind = .tag)).map
      (·.attribs)
  | none => none

/-- `attribs[kOverrideAttribute] != null &&
attribs[kOverrideAttribute].toLowerCase() == "true"`. -/
def hasOverrideTrue (attribs : List (String × String)) : Bool :=
  match getAttr attribs "override" with
  | some v => v.toLower = "true"
  | none => false

/-- `LookupDefinitionOptions`. -/
structure LookupOpts where
  forceQualified : Bool
  forceExact : Bool
deriving DecidableEq, Repr

/-- No lookup options (`kNone`). -/
def LookupOpts.none' : LookupOpts := ⟨false, false⟩

/-- `isDefinedStrict(url, type, value, forceQualified)`: iterate the
scope, per file matching the qualified value (with the app-style
fallback for unqualified styles), exiting on the first hit. -/
def isDefinedStrict (sc : ScopeModel) (url : String) (dtype : DefinitionType)
    (value : String) (forceQualified : Bool := false) : Bool :=
  let qualifiedValue := if canBeQualified dtype then qualifyName sc url value else value
  let opts : IterOpts :=
    ⟨¬forceQualified ∧ qualifiedValue ≠ value ∧ dtype = .kForm, false⟩
  forEachFileInScope sc url opts false (fun _ info =>
    let r :=
      if forceQualified ∨ ¬canBeQualified dtype then
        fileIsDefined sc info dtype value forceQualified
      else
        let r := fileIsDefined sc info dtype qualifiedValue false
        if dtype = .kStyle ∧ ¬r ∧ ¬hasChar value.toList '/' then
          fileIsDefined sc info .kAppStyle value false
        else r
    (r, r))

/-- `isDefined(url, type, value, forceQualified)`: the externals
patterns first (matching the unqualified value, with the end anchor
dropped for values containing `$`), then the strict lookup. -/
def isDefinedM (sc : ScopeModel) (url : String) (dtype : DefinitionType)
    (value : String) (forceQualified : Bool := false) : Bool :=
  if sc.externalsPatterns.any (fun p => matchesExternal p.1 value) then true
  else isDefinedStrict sc url dtype value forceQualified

/-- `lookupDefinition(url, type, elem, value, options)`. -/
def lookupDefinition (sc : ScopeModel) (url : String) (dtype : DefinitionType)
    (elemIdx : Nat) (value : String) (options : LookupOpts := LookupOpts.none') :
    List Loc :=
  let result :=
    if dtype = .kVariable then
      if ¬hasChar value.toList '$' then []
      else
        let dollarIdx := (jsIndexOfFrom "$".toList value.toList 0).toNat
        let subs := (findMatchingVariableSubstitutions sc url elemIdx
          (String.mk (value.toList.drop (dollarIdx + 1)))).substitutions
        subs.foldl (fun (result : List Loc) s =>
          if ¬options.forceExact ∨ s.sfx.length = 0 then
            match getCurrentDocumentM sc s.loc.url with
            | some _ => result ++ [⟨s.loc.url, ⟨s.loc.start, s.loc.stop⟩⟩]
            | none => result
          else result) []
    else
      let qualifiedValue := if canBeQualified dtype then qualifyName sc url value else value
      let value :=
        if ¬canBeQualified dtype ∧ dtype = .kColor then
          match (getSkinFileM sc url).bind (fun i => i.file.dom.get? elemIdx) with
          | some n =>
            if n.tagName = "ColorScheme.Color" then
              match n.parent.bind (fun p => ((getSkinFileM sc url).bind
                  (fun i => i.file.dom.get? p)).bind (fun pn => getAttr pn.attribs "name")) with
              | some nm => "@" ++ nm ++ "." ++ value
              | none => value
            else value
          | none => value
        else value
      let opts : IterOpts :=
        ⟨¬options.forceQualified ∧ qualifiedValue ≠ value ∧ dtype = .kForm, false⟩
      let result := forEachFileInScope sc url opts ([] : List Loc) (fun result info =>
        let loc := fileLookupDefinition sc info dtype value options.forceQualified
        let loc :=
          if loc = none ∧ ¬options.forceQualified ∧ value ≠ qualifiedValue ∧
              canBeQualified dtype then
            fileLookupDefinition sc info dtype qualifiedValue options.forceQualified
          else loc
        (match loc with | some l => result ++ [l] | none => result, false))
      if result.length > 1 then
        match result.find? (fun loc =>
          match findTokenAttribsAt sc loc with
          | some attribs => hasOverrideTrue attribs
          | none => false) with
        | some loc => [loc]
        | none => result
      else result
  if result = [] ∧ dtype ≠ .kVariable then
    let qualifiedValue := if canBeQualified dtype then qualifyName sc url value else value
    let anchorEnd := ¬hasChar value.toList '$'
    sc.externalsPatterns.foldl (fun result p =>
      if matchGlob p.1 anchorEnd value.toList ∨ matchGlob p.1 anchorEnd qualifiedValue.toList
      then result ++ [p.2] else result) result
  else if result = [] ∧ dtype = .kVariable then
    let anchorEnd := ¬hasChar value.toList '$'
    sc.externalsPatterns.foldl (fun result p =>
      if matchGlob p.1 anchorEnd value.toList then result ++ [p.2] else result) result
  else result

/-- The style/app-style-conflating type equality of
`getDuplicateDefinitions`. -/
def equalTypesStyle (t1 t2 : DefinitionType) : Bool :=
  t1 = t2 ∨
  ((t1 = .kStyle ∨ t1 = .kAppStyle) ∧ (t2 = .kStyle ∨ t2 = .kAppStyle))

/-- `getDuplicateDefinitions(url)`: the file's own records, then for
every other scope file and definition type, every own definition that
the other file also defines — unless one of the two carries
`override="true"` — deduplicated. -/
def getDuplicateDefinitions (sc : ScopeModel) (url : String) : List DuplicateDefinition :=
  match getSkinFileM sc url with
  | none => []
  | some file =>
    let ownParsed := file.parsed sc
    forEachFileInScope sc url IterOpts.none' ownParsed.duplicateDefinitions
      (fun result info =>
        if info.file.uri = file.file.uri then (result, false)
        else
          let result := defTypeList.foldl (fun result dtype =>
            if dtype = .kSizedDelegate then result
            else
              match ownParsed.getDefinitionsForType dtype with
              | none => result
              | some defs =>
                defs.foldl (fun result entry =>
                  let (d0, range) := entry
                  let dOpt :=
                    if dtype ≠ .kColor ∧ ¬hasChar d0.toList '/' then
                      if file.file.ns.length = 0 then
                        if info.file.ns.length > 0 then none else some d0
                      else if info.file.ns.length > 0 then
                        some (file.file.ns ++ "/" ++ d0)
                      else some d0
                    else some d0
                  match dOpt with
                  | none => result
                  | some d =>
                    match fileLookupDefinition sc info dtype d false with
                    | none => result
                    | some other =>
                      let skip : Bool :=
                        match findTokenAttribsAt sc ⟨url, range⟩,
                              findTokenAttribsAt sc other with
                        | some a1, some a2 => hasOverrideTrue a1 || hasOverrideTrue a2
                        | _, _ => false
                      if skip then result
                      else if result.any (fun r =>
                          r.name = d ∧ equalTypesStyle r.dtype dtype ∧ r.range = range ∧
                          r.otherDefinition = other) then result
                      else result ++ [{ name := d, dtype := dtype, range := range,
                                        otherDefinition := other }]) result) result
          (result, false))

/-! ## `refreshDefinitions` (`server/src/skinfileinfo.ts`)

The mutable per-file state: the two timestamps, the cached document
object, and the indices rebuilt by `parseSkinFile`.  The external XML
parser is the parameter `parseDoc`; the filesystem's view of the file is
a `FsView`.  The source reads the clock twice per call (before and after
parsing); the model uses the one value `now` for both. -/

/-- What the filesystem reports for the file. -/
structure FsView where
  fsExists : Bool
  mtime : Int
  text : String

/-- The mutable state of a `SkinFileInfo`. -/
structure SfiState where
  latestRefresh : Int
  latestFileModification : Int
  document : Option String
  parsed : ParsedFile

/-- `kMinRefreshInterval`. -/
def kMinRefreshInterval : Int := 500

/-- `refreshDefinitions(document?)`: rate-limited to one refresh per
500 ms; without a document object the file's modification time must have
advanced; then every index is cleared and rebuilt by `parseSkinFile`
from the current text (the cached document object wins over the
filesystem). -/
def refreshDefinitions (os : OSPlatform) (uriAttr : String → String → Bool)
    (root url ns : String) (parseDoc : String → Dom) (fs : FsView)
    (now : Int) (doc : Option String) (s : SfiState) : SfiState :=
  if now - s.latestRefresh < kMinRefreshInterval then s
  else
    let s := { s with latestRefresh := now }
    let proceed : Option SfiState :=
      match doc with
      | some _ => some { s with latestFileModification := now }
      | none =>
        if ¬fs.fsExists then none
        else if fs.mtime ≤ s.latestFileModification then none
        else some { s with latestFileModification := fs.mtime }
    match proceed with
    | none => s
    | some s =>
      let s := match doc with
               | some d => { s with document := some d }
               | none => s
      let text := s.document.getD fs.text
      let fm : FileModel := { root := root, url := url, ns := ns, text := text,
                              dom := parseDoc text }
      { s with parsed := parseSkinFileModel os uriAttr fm, latestRefresh := now }

/-! ## `checkAttributeType` (`server/src/skindocumentchecker.ts`)

The attribute-type bitmask and the per-bit dispatch.  The individual
value checkers (which consult the class model, the filesystem and the
definition scope) are parameters of the dispatch: every theorem below
holds for all of them. -/

/-- `AttributeType` bit values. -/
def atkBool : Nat := 1
def atkInt : Nat := 2
def atkFloat : Nat := 4
def atkString : Nat := 8
def atkEnum : Nat := 16
def atkColor : Nat := 32
def atkSize : Nat := 64
def atkRect : Nat := 128
def atkImage : Nat := 256
def atkPoint : Nat := 512
def atkPoint3D : Nat := 1024
def atkUri : Nat := 2048
def atkStyle : Nat := 4096
def atkStyleArray : Nat := 8192
def atkShape : Nat := 16384
def atkFont : Nat := 32768
def atkForm : Nat := 65536
def atkFontSize : Nat := 131072
def atkDuration : Nat := 262144
def atkStrNone : Nat := 524288
def atkStrForever : Nat := 1048576

/-- `mapAttributeTypeToDefinitionType`. -/
def mapAttributeTypeToDefinitionType (ty : Nat) : Option DefinitionType :=
  if ty &&& atkColor ≠ 0 then some .kColor
  else if ty &&& atkStyle ≠ 0 ∨ ty &&& atkStyleArray ≠ 0 then some .kStyle
  else if ty &&& atkImage ≠ 0 then some .kImage
  else if ty &&& atkShape ≠ 0 then some .kShape
  else if ty &&& atkFont ≠ 0 then some .kFont
  else if ty &&& atkForm ≠ 0 then some .kForm
  else if ty = atkFloat then some .kMetric
  else none

/-- A diagnostic of the checker (only its presence matters here). -/
structure DiagM where
  msg : String
deriving DecidableEq, Repr

/-- The slice of `TagAttributeInfo` the type dispatch reads. -/
structure TagAttributeInfoM where
  tagName : String
  attributeName : String
  correctedAttributeName : String
  attributeValue : String
  originalAttributeValue : String
deriving DecidableEq, Repr

/-- The per-bit value checkers (`Diagnostic[] | Diagnostic | null`
normalised to an optional list). -/
structure CheckEnv where
  checkBoolean : TagAttributeInfoM → Option (List DiagM)
  checkInteger : TagAttributeInfoM → Option (List DiagM)
  checkColor : TagAttributeInfoM → Option (List DiagM)
  checkForm : TagAttributeInfoM → Option (List DiagM)
  checkEnum : TagAttributeInfoM → String → Option (List DiagM)
  checkFloat : TagAttributeInfoM → Nat → Option (List DiagM)
  checkRectOrSize : TagAttributeInfoM → Nat → Option (List DiagM)
  checkPoint3D : TagAttributeInfoM → Nat → Option (List DiagM)
  checkDefinition : TagAttributeInfoM → DefinitionType → Option (List DiagM)
  checkStringLiteral : TagAttributeInfoM → String → Option (List DiagM)
  checkStyleArray : TagAttributeInfoM → Option (List DiagM)
  checkUrl : TagAttributeInfoM → Option (List DiagM)

/-- The state of the `check` helper: collected diagnostics of the first
failing check, checks performed, failures seen. -/
structure CheckState where
  newDiagnostics : List DiagM
  checksPerformed : Nat
  failures : Nat
deriving DecidableEq, Repr

/-- The `check` closure of `checkAttributeType`. -/
def runCheck (st : CheckState) (result : Option (List DiagM)) : CheckState :=
  let st := { st with checksPerformed := st.checksPerformed + 1 }
  match result with
  | none => st
  | some ds =>
    if ds.length > 0 then
      let st := if st.failures = 0 then { st with newDiagnostics := st.newDiagnostics ++ ds }
                else st
      { st with failures := st.failures + 1 }
    else st

/-- `checkAttributeType(diagnostics, info, attributeType)`: values
containing `@property:` are never checked; otherwise one check per set
bit runs and diagnostics surface only when every performed check
failed.  Returns the diagnostics pushed. -/
def checkAttributeTypeM (env : CheckEnv) (info : TagAttributeInfoM) (ty : Nat) :
    List DiagM :=
  if hasSubstr info.attributeValue.toList "@property:".toList then []
  else
    let st : CheckState := ⟨[], 0, 0⟩
    let st := if ty &&& atkBool ≠ 0 then runCheck st (env.checkBoolean info) else st
    let st := if ty &&& atkInt ≠ 0 then runCheck st (env.checkInteger info) else st
    let st := if ty &&& atkColor ≠ 0 then runCheck st (env.checkColor info) else st
    let st := if ty &&& atkForm ≠ 0 then runCheck st (env.checkForm info) else st
    let st := if ty &&& atkEnum ≠ 0 then runCheck st (env.checkEnum info info.tagName) else st
    let st := if ty &&& atkFloat ≠ 0 ∨ ty &&& atkFontSize ≠ 0 ∨ ty &&& atkDuration ≠ 0 then
                runCheck st (env.checkFloat info ty) else st
    let st := if ty &&& atkSize ≠ 0 ∨ ty &&& atkRect ≠ 0 then
                runCheck st (env.checkRectOrSize info ty) else st
    let st := if ty &&& atkPoint3D ≠ 0 then runCheck st (env.checkPoint3D info ty) else st
    let st := if ty &&& atkStyle ≠ 0 then
                let st := runCheck st (env.checkDefinition info .kStyle)
                runCheck st (env.checkStringLiteral info "native")
              else st
    let st := if ty &&& atkStyleArray ≠ 0 then runCheck st (env.checkStyleArray info) else st
    let st := if ty &&& atkImage ≠ 0 ∨ ty &&& atkFont ≠ 0 ∨ ty &&& atkShape ≠ 0 then
                match mapAttributeTypeToDefinitionType ty with
                | some t => runCheck st (env.checkDefinition info t)
                | none => st
              else st
    let st := if ty &&& atkUri ≠ 0 then runCheck st (env.checkUrl info) else st
    let st := if ty &&& atkStrForever ≠ 0 then
                runCheck st (env.checkStringLiteral info "forever") else st
    let st := if ty &&& atkStrNone ≠ 0 then
                runCheck st (env.checkStringLiteral info "none") else st
    if st.failures = st.checksPerformed then st.newDiagnostics else []

/-! ## Claim-side predicates for `is_defined` (C1)

The specification reads: "`is_defined(T, N)` is true iff at least one
scope-reachable file contains a non-platform-gated definition of T with
name N (after namespace resolution)".  The predicates below formalise
"file contains a non-platform-gated definition of T with name N" at the
level of the file's elements (the definition sites and their extraction
rules of §4.4), without going through the per-file index maps. -/

/-- An element is a tag, not excluded by platform gating, and carries
the given `name` attribute. -/
def defElemNamed (os : OSPlatform) (f : FileModel) (e : Nat) (n : String) : Bool :=
  match f.dom.get? e with
  | some nd =>
    decide (nd.kind = .tag) && isDefinedForPlatform os f e &&
    decide (getAttr nd.attribs "name" = some n)
  | none => false

/-- A definition site inside the first `parentName` element (the shape
shared by styles, app styles, theme fonts / metrics / colors and
forms). -/
def specParseElemDefines (os : OSPlatform) (f : FileModel) (parentName : String)
    (names : List String) (filter : Option (DomNode → Bool)) (n : String) : Bool :=
  match findFirstChild f.dom 0 [parentName] with
  | some p =>
    (findChildren f.dom p names).any (fun e =>
      defElemNamed os f e n &&
      (match filter, f.dom.get? e with
       | some flt, some nd => flt nd
       | some _, none => false
       | none, _ => true))
  | none => false

/-- An image definition named `n`: an image element itself, an
`N[child]` sub-image, or an `N[frame]` fabricated from `frames`. -/
def specImageDefines (os : OSPlatform) (f : FileModel) (n : String) : Bool :=
  match findFirstChild f.dom 0 ["Resources"] with
  | none => false
  | some res =>
    (findDirectChildren f.dom res ["Image", "ImagePart", "ShapeImage", "IconSet"]).any
      (fun i =>
        match f.dom.get? i with
        | none => false
        | some img =>
          isDefinedForPlatform os f i &&
          match getAttr img.attribs "name" with
          | none => false
          | some base =>
            decide (base = n) ||
            (findChildren f.dom i ["Image", "ImagePart", "ShapeImage"]).any (fun c =>
              match f.dom.get? c with
              | none => false
              | some child =>
                match getAttr child.attribs "name" with
                | some cn =>
                  isDefinedForPlatform os f c && decide (n = base ++ "[" ++ cn ++ "]")
                | none => false) ||
            (match getAttr img.attribs "frames" with
             | some fr =>
               decide (fr.length > 0) && (imageFramesList fr).any (fun fn =>
                 decide (fn.length > 0) && decide (n = base ++ "[" ++ fn ++ "]"))
             | none => false))

/-- A shape definition named `n`: a tag child of `<Shapes>` or one of
its `N[child]` sub-shapes. -/
def specShapeDefines (os : OSPlatform) (f : FileModel) (n : String) : Bool :=
  match findFirstChild f.dom 0 ["Shapes"] with
  | none => false
  | some shapes =>
    match f.dom.get? shapes with
    | none => false
    | some sn =>
      sn.children.any (fun si =>
        match f.dom.get? si with
        | none => false
        | some shape =>
          decide (shape.kind = .tag) && isDefinedForPlatform os f si &&
          match getAttr shape.attribs "name" with
          | none => false
          | some base =>
            decide (base = n) ||
            (findDirectChildren f.dom si ["Shape"]).any (fun c =>
              match f.dom.get? c with
              | none => false
              | some child =>
                match getAttr child.attribs "name" with
                | some cn =>
                  isDefinedForPlatform os f c && decide (n = base ++ "[" ++ cn ++ "]")
                | none => false))

/-- A color definition matching the (scheme-qualified) value: a
`ColorScheme.Color` of the named scheme, a `$`-prefixed `<Resources>`
color, or a `<ThemeElements>` color (the latter two in the anonymous
scheme). -/
def specColorDefines (os : OSPlatform) (f : FileModel) (value : String) : Bool :=
  let (schemeName, defName) := getSchemeAndDefinitionName value
  ((findChildren f.dom 0 ["ColorScheme"]).any (fun c =>
    match f.dom.get? c with
    | none => false
    | some cn =>
      decide (getAttr cn.attribs "name" = some schemeName) &&
      decide (schemeName.length > 0) &&
      cn.children.any (fun ci =>
        match f.dom.get? ci with
        | none => false
        | some color =>
          decide (color.kind = .tag) && decide (color.tagName = "ColorScheme.Color") &&
          isDefinedForPlatform os f ci &&
          decide ((getAttr color.attribs "name").getD "undefined" = defName)))) ||
  (decide (schemeName = "") &&
    (findChildren f.dom 0 ["Resources"]).any (fun r =>
      match f.dom.get? r with
      | none => false
      | some rn =>
        rn.children.any (fun ci =>
          match f.dom.get? ci with
          | none => false
          | some child =>
            decide (child.kind = .tag) && decide (child.tagName = "Color") &&
            isDefinedForPlatform os f ci &&
            (match getAttr child.attribs "name" with
             | some nm => decide (defName = "$" ++ nm)
             | none => false)))) ||
  (decide (schemeName = "") &&
    specParseElemDefines os f "ThemeElements" ["Color"] none defName)

/-- A sized-delegate definition named `n`: a `<Delegate>` with a
`width`, `height` or `size` attribute and `form.name` `n`. -/
def specSizedDelegateDefines (os : OSPlatform) (f : FileModel) (n : String) : Bool :=
  (findChildren f.dom 0 ["Delegate"]).any (fun dIdx =>
    match f.dom.get? dIdx with
    | none => false
    | some dn =>
      decide (dn.kind = .tag) &&
      !(decide (getAttr dn.attribs "width" = none) &&
        decide (getAttr dn.attribs "height" = none) &&
        decide (getAttr dn.attribs "size" = none)) &&
      isDefinedForPlatform os f dIdx && decide (getAttr dn.attribs "form.name" = some n))

/-- "The file contains a non-platform-gated definition of type `t`
named `n`" — `n` already namespace-resolved for qualifiable types, and
the raw (possibly scheme-qualified) value for colors. -/
def specFileDefines (os : OSPlatform) (f : FileModel) : DefinitionType → String → Bool
  | .kStyle, n => specParseElemDefines os f "Styles" ["Style", "StyleAlias"] none n
  | .kAppStyle, n =>
    specParseElemDefines os f "Styles" ["Style", "StyleAlias"]
      (some (fun nd => getAttr nd.attribs "appstyle" = some "true")) n
  | .kFont, n => specParseElemDefines os f "ThemeElements" ["Font"] none n
  | .kMetric, n => specParseElemDefines os f "ThemeElements" ["Metric"] none n
  | .kForm, n => specParseElemDefines os f "Skin" ["Form"] none n
  | .kColor, n => specColorDefines os f n
  | .kImage, n => specImageDefines os f n
  | .kShape, n => specShapeDefines os f n
  | .kSizedDelegate, n => specSizedDelegateDefines os f n
  | .kVariable, _ => false

/-- "The file contains a non-platform-gated definition of the type
whose name equals the value after namespace resolution" — stated at the
element level.  Colors resolve their scheme qualifier (`@Scheme.Name`,
`$Resource`) instead of a namespace. -/
def specFileIsDefined (sc : ScopeModel) (i : SkinInfo) (dtype : DefinitionType)
    (value : String) (forceQualified : Bool) : Bool :=
  if dtype = .kColor then specColorDefines sc.os i.file value
  else
    match matchNamespace i.file.ns value forceQualified with
    | some n => specFileDefines sc.os i.file dtype n
    | none => false

/-- The claim-side scope predicate: some scope-reachable file contains
a non-platform-gated definition of the type whose name equals the value
after namespace resolution (with the source's app-style fallback for
unqualified styles stated as a disjunct). -/
def specScopeDefines (sc : ScopeModel) (url : String) (dtype : DefinitionType)
    (value : String) (forceQualified : Bool) : Bool :=
  let qualifiedValue := if canBeQualified dtype then qualifyName sc url value else value
  let opts : IterOpts :=
    ⟨¬forceQualified ∧ qualifiedValue ≠ value ∧ dtype = .kForm, false⟩
  (visitList sc url opts).any (fun info =>
    if forceQualified ∨ ¬canBeQualified dtype then
      specFileIsDefined sc info dtype value forceQualified
    else
      specFileIsDefined sc info dtype qualifiedValue false ||
      (decide (dtype = .kStyle) && !hasChar value.toList '/' &&
       specFileIsDefined sc info .kAppStyle value false))

/-- The color-map membership test both `isDefined` and the claim-side
predicates perform: the scheme exists and maps the definition name. -/
def schemeHas (schemes : List (String × DefMap)) (s dn : String) : Prop :=
  match alGet schemes s with
  | some dd => alGet dd dn ≠ none
  | none => False

instance (schemes : List (String × DefMap)) (s dn : String) :
    Decidable (schemeHas schemes s dn) := by
  unfold schemeHas
  cases alGet schemes s with
  | none => exact isFalse (fun h => h)
  | some dd => exact inferInstanceAs (Decidable (_ ≠ _))

/-! ## Concrete scenario data -/

/-- The S4 document of the specification:
`<Skin><foreach variable="i" start="1" count="3"><View name="Row_$i"/></foreach></Skin>`. -/
def c3text : String :=
  "<Skin><foreach variable=\"i\" start=\"1\" count=\"3\"><View name=\"Row_$i\"/></foreach></Skin>"

/-- The DOM htmlparser2 produces for `c3text` (node 3 is the `View`). -/
def c3dom : Dom := { nodes :=
  [ { kind := .root, tagName := "", piData := "", attribs := [], parent := none,
      prevSib := none, children := [1], startIndex := 0, endIndex := 85 },
    { kind := .tag, tagName := "Skin", piData := "", attribs := [], parent := some 0,
      prevSib := none, children := [2], startIndex := 0, endIndex := 85 },
    { kind := .tag, tagName := "foreach", piData := "",
      attribs := [("variable", "i"), ("start", "1"), ("count", "3")], parent := some 1,
      prevSib := none, children := [3], startIndex := 6, endIndex := 78 },
    { kind := .tag, tagName := "View", piData := "", attribs := [("name", "Row_$i")],
      parent := some 2, prevSib := none, children := [], startIndex := 48,
      endIndex := 68 } ] }

/-- The S4 file. -/
def c3file : FileModel :=
  { root := "MySkinPack/", url := "skin.xml", ns := "", text := c3text, dom := c3dom }

/-- A registry holding just the S4 file. -/
def c3scope : ScopeModel :=
  { os := .other, uriAttr := fun _ _ => false, infos := [.node c3file []],
    fileIncludes := [], externalsPatterns := [], themeMetrics := [],
    restGuardActive := false }

/-- A file whose only gating directive is `<?not:platform mac ?>` — its
text contains no `"<?platform"`, so `containsPlatformDefinitions` is
false. -/
def c4text : String := "<Skin><?not:platform mac ?><Style name=\"S\"/></Skin>"

/-- The DOM for `c4text` (node 2 the directive, node 3 the `Style`). -/
def c4dom : Dom := { nodes :=
  [ { kind := .root, tagName := "", piData := "", attribs := [], parent := none,
      prevSib := none, children := [1], startIndex := 0, endIndex := 51 },
    { kind := .tag, tagName := "Skin", piData := "", attribs := [], parent := some 0,
      prevSib := none, children := [2, 3], startIndex := 0, endIndex := 51 },
    { kind := .directive, tagName := "?not:platform", piData := "?not:platform mac ?",
      attribs := [], parent := some 1, prevSib := none, children := [],
      startIndex := 6, endIndex := 26 },
    { kind := .tag, tagName := "Style", piData := "", attribs := [("name", "S")],
      parent := some 1, prevSib := some 2, children := [], startIndex := 27,
      endIndex := 43 } ] }

/-- The `<?not:platform mac ?>`-gated file. -/
def c4file : FileModel :=
  { root := "Pack/", url := "gated.xml", ns := "", text := c4text, dom := c4dom }

/-- A file with a real `<?platform win ?>` gate (text contains
`"<?platform"`). -/
def c4goodText : String := "<Skin><?platform win ?><Style name=\"S\"/></Skin>"

/-- The DOM for `c4goodText`. -/
def c4goodDom : Dom := { nodes :=
  [ { kind := .root, tagName := "", piData := "", attribs := [], parent := none,
      prevSib := none, children := [1], startIndex := 0, endIndex := 47 },
    { kind := .tag, tagName := "Skin", piData := "", attribs := [], parent := some 0,
      prevSib := none, children := [2, 3], startIndex := 0, endIndex := 47 },
    { kind := .directive, tagName := "?platform", piData := "?platform win ?",
      attribs := [], parent := some 1, prevSib := none, children := [],
      startIndex := 6, endIndex := 22 },
    { kind := .tag, tagName := "Style", piData := "", attribs := [("name", "S")],
      parent := some 1, prevSib := some 2, children := [], startIndex := 23,
      endIndex := 39 } ] }

/-- The `<?platform win ?>`-gated file. -/
def c4goodFile : FileModel :=
  { root := "Pack/", url := "good.xml", ns := "", text := c4goodText, dom := c4goodDom }

/-- A skin file defining one style `X` without `override`. -/
def c2fileA : FileModel :=
  { root := "Pack/", url := "skin.xml", ns := "",
    text := "<Skin><Styles><Style name=\"X\"/></Styles></Skin>",
    dom := { nodes :=
      [ { kind := .root, tagName := "", piData := "", attribs := [], parent := none,
          prevSib := none, children := [1], startIndex := 0, endIndex := 47 },
        { kind := .tag, tagName := "Skin", piData := "", attribs := [], parent := some 0,
          prevSib := none, children := [2], startIndex := 0, endIndex := 47 },
        { kind := .tag, tagName := "Styles", piData := "", attribs := [], parent := some 1,
          prevSib := none, children := [3], startIndex := 6, endIndex := 40 },
        { kind := .tag, tagName := "Style", piData := "", attribs := [("name", "X")],
          parent := some 2, prevSib := none, children := [], startIndex := 14,
          endIndex := 31 } ] } }

/-- A second file of the same pack defining style `X` with
`override="true"`. -/
def c2fileB : FileModel :=
  { root := "Pack/", url := "b.xml", ns := "",
    text := "<Skin><Styles><Style name=\"X\" override=\"true\"/></Styles></Skin>",
    dom := { nodes :=
      [ { kind := .root, tagName := "", piData := "", attribs := [], parent := none,
          prevSib := none, children := [1], startIndex := 0, endIndex := 63 },
        { kind := .tag, tagName := "Skin", piData := "", attribs := [], parent := some 0,
          prevSib := none, children := [2], startIndex := 0, endIndex := 63 },
        { kind := .tag, tagName := "Styles", piData := "", attribs := [], parent := some 1,
          prevSib := none, children := [3], startIndex := 6, endIndex := 56 },
        { kind := .tag, tagName := "Style", piData := "",
          attribs := [("name", "X"), ("override", "true")], parent := some 2,
          prevSib := none, children := [], startIndex := 14, endIndex := 47 } ] } }

/-- The two-file scope of the override scenario. -/
def c2scope : ScopeModel :=
  { os := .other, uriAttr := fun _ _ => false,
    infos := [.node c2fileA [], .node c2fileB []],
    fileIncludes := [("Pack/", ["Pack/skin.xml", "Pack/b.xml"])],
    externalsPatterns := [], themeMetrics := [], restGuardActive := false }

/-- A file defining style `X` twice, the first carrying
`override="true"` (the same-file duplicate of the C2 counterexample). -/
def c2sameFile : FileModel :=
  { root := "Solo/", url := "skin.xml", ns := "",
    text := "<Skin><Styles><Style name=\"X\" override=\"true\"/><Style name=\"X\"/></Styles></Skin>",
    dom := { nodes :=
      [ { kind := .root, tagName := "", piData := "", attribs := [], parent := none,
          prevSib := none, children := [1], startIndex := 0, endIndex := 80 },
        { kind := .tag, tagName := "Skin", piData := "", attribs := [], parent := some 0,
          prevSib := none, children := [2], startIndex := 0, endIndex := 80 },
        { kind := .tag, tagName := "Styles", piData := "", attribs := [], parent := some 1,
          prevSib := none, children := [3, 4], startIndex := 6, endIndex := 73 },
        { kind := .tag, tagName := "Style", piData := "",
          attribs := [("name", "X"), ("override", "true")], parent := some 2,
          prevSib := none, children := [], startIndex := 14, endIndex := 46 },
        { kind := .tag, tagName := "Style", piData := "", attribs := [("name", "X")],
          parent := some 2, prevSib := some 3, children := [], startIndex := 47,
          endIndex := 64 } ] } }

/-- The one-file scope of the same-file duplicate. -/
def c2sameScope : ScopeModel :=
  { os := .other, uriAttr := fun _ _ => false, infos := [.node c2sameFile []],
    fileIncludes := [("Solo/", ["Solo/skin.xml"])],
    externalsPatterns := [], themeMetrics := [], restGuardActive := false }

/-- A scope with no definitions anywhere but an externals pattern `X`. -/
def c1extScope : ScopeModel :=
  { os := .other, uriAttr := fun _ _ => false,
    infos := [.node { root := "Ext/", url := "skin.xml", ns := "",
                      text := "<Skin><Externals><External name=\"X\"/></Externals></Skin>",
                      dom := { nodes :=
                        [ { kind := .root, tagName := "", piData := "", attribs := [],
                            parent := none, prevSib := none, children := [1],
                            startIndex := 0, endIndex := 56 },
                          { kind := .tag, tagName := "Skin", piData := "", attribs := [],
                            parent := some 0, prevSib := none, children := [2],
                            startIndex := 0, endIndex := 56 },
                          { kind := .tag, tagName := "Externals", piData := "",
                            attribs := [], parent := some 1, prevSib := none,
                            children := [3], startIndex := 6, endIndex := 49 },
                          { kind := .tag, tagName := "External", piData := "",
                            attribs := [("name", "X")], parent := some 2,
                            prevSib := none, children := [], startIndex := 17,
                            endIndex := 38 } ] } } []],
    fileIncludes := [("Ext/", ["Ext/skin.xml"])],
    externalsPatterns := [([.lit "X"], ⟨"Ext/skin.xml", ⟨17, 38⟩⟩)],
    themeMetrics := [], restGuardActive := false }

/-- A check environment whose per-bit checkers all fail (used to show
the `@property:` early return ignores them). -/
def failingCheckEnv : CheckEnv :=
  { checkBoolean := fun _ => some [⟨"fail"⟩], checkInteger := fun _ => some [⟨"fail"⟩],
    checkColor := fun _ => some [⟨"fail"⟩], checkForm := fun _ => some [⟨"fail"⟩],
    checkEnum := fun _ _ => some [⟨"fail"⟩], checkFloat := fun _ _ => some [⟨"fail"⟩],
    checkRectOrSize := fun _ _ => some [⟨"fail"⟩],
    checkPoint3D := fun _ _ => some [⟨"fail"⟩],
    checkDefinition := fun _ _ => some [⟨"fail"⟩],
    checkStringLiteral := fun _ _ => some [⟨"fail"⟩],
    checkStyleArray := fun _ => some [⟨"fail"⟩], checkUrl := fun _ => some [⟨"fail"⟩] }

/-! ## Accumulator stages of `parseSkinFileModel` (projection helpers) -/

/-- The color-scheme map and duplicate list after the `ColorScheme` and
`Resources` passes of `parseSkinFile`. -/
def smCs (os : OSPlatform) (f : FileModel) :
    List (String × DefMap) × List DuplicateDefinition :=
  parseResources os f (parseColorScheme os f ([], []))

/-- The style pass of `parseSkinFile`. -/
def smStyles (os : OSPlatform) (f : FileModel) : DefMap × List DuplicateDefinition :=
  parseElementM os f "Styles" ["Style", "StyleAlias"] none .kStyle ([], (smCs os f).2)

/-- The app-style pass of `parseSkinFile`. -/
def smAppStyles (os : OSPlatform) (f : FileModel) : DefMap × List DuplicateDefinition :=
  parseElementM os f "Styles" ["Style", "StyleAlias"]
    (some (fun n => getAttr n.attribs "appstyle" = some "true")) .kAppStyle
    ([], (smStyles os f).2)

/-- The theme-font pass of `parseSkinFile`. -/
def smFonts (os : OSPlatform) (f : FileModel) : DefMap × List DuplicateDefinition :=
  parseElementM os f "ThemeElements" ["Font"] none .kFont ([], (smAppStyles os f).2)

/-- The theme-metric pass of `parseSkinFile`. -/
def smMetrics (os : OSPlatform) (f : FileModel) : DefMap × List DuplicateDefinition :=
  parseElementM os f "ThemeElements" ["Metric"] none .kMetric ([], (smFonts os f).2)

/-- The theme-color pass of `parseSkinFile` (seeded with the anonymous
scheme collected so far). -/
def smColorDefs (os : OSPlatform) (f : FileModel) : DefMap × List DuplicateDefinition :=
  parseElementM os f "ThemeElements" ["Color"] none .kColor
    ((alGet (smCs os f).1 "").getD [], (smMetrics os f).2)

/-- The form pass of `parseSkinFile`. -/
def smForms (os : OSPlatform) (f : FileModel) : DefMap × List DuplicateDefinition :=
  parseElementM os f "Skin" ["Form"] none .kForm ([], (smColorDefs os f).2)

/-- The image pass of `parseSkinFile`. -/
def smImages (os : OSPlatform) (f : FileModel) : DefMap × List DuplicateDefinition :=
  parseImages os f ([], (smForms os f).2)

/-- The shape pass of `parseSkinFile`. -/
def smShapes (os : OSPlatform) (f : FileModel) : DefMap × List DuplicateDefinition :=
  parseShapes os f ([], (smImages os f).2)

/-! # Theorems -/

/-- Reading from a cons cell. -/
theorem alGet_cons {α : Type} (p : String × α) (ps : List (String × α)) (k' : String) :
    alGet (p :: ps) k' = if p.1 = k' then some p.2 else alGet ps k' := by
  unfold alGet
  by_cases h : p.1 = k' <;> simp [List.find?, h]

/-- A map that has the key, after the in-place replacement, yields the
new value. -/
theorem alGet_mapSet_eq {α : Type} (k : String) (v : α) :
    ∀ m : List (String × α), m.any (fun p => p.1 = k) = true →
    alGet (m.map (fun p => if p.1 = k then (k, v) else p)) k = some v := by
  intro m
  induction m with
  | nil => intro h; simp at h
  | cons p ps ih =>
    intro h
    by_cases hp : p.1 = k
    · simp only [List.map_cons, if_pos hp]
      rw [alGet_cons]
      simp
    · simp only [List.map_cons, if_neg hp]
      rw [alGet_cons, if_neg hp]
      apply ih
      simpa [List.any_cons, hp] using h

/-- The in-place replacement leaves other keys alone. -/
theorem alGet_mapSet_ne {α : Type} (k k' : String) (v : α) (hk : k' ≠ k) :
    ∀ m : List (String × α),
    alGet (m.map (fun p => if p.1 = k then (k, v) else p)) k' = alGet m k' := by
  intro m
  induction m with
  | nil => rfl
  | cons p ps ih =>
    by_cases hp : p.1 = k
    · simp only [List.map_cons, if_pos hp]
      rw [alGet_cons, alGet_cons,
          if_neg (show ¬((k, v).1 = k') from fun h => hk h.symm),
          if_neg (show ¬(p.1 = k') from fun h => hk (hp ▸ h).symm)]
      exact ih
    · simp only [List.map_cons, if_neg hp]
      rw [alGet_cons, alGet_cons]
      by_cases hpk : p.1 = k' <;> simp [hpk, ih]

/-- Reading after appending one entry. -/
theorem alGet_append_single {α : Type} (k k' : String) (v : α) :
    ∀ m : List (String × α),
    alGet (m ++ [(k, v)]) k' =
      match alGet m k' with
      | some x => some x
      | none => if k = k' then some v else none := by
  intro m
  induction m with
  | nil =>
    simp only [List.nil_append]
    rw [alGet_cons]
    by_cases h : k = k'
    · simp [h]
      rfl
    · simp only [h, if_false]
      rfl
  | cons p ps ih =>
    simp only [List.cons_append]
    rw [alGet_cons, alGet_cons]
    by_cases hp : p.1 = k' <;> simp [hp, ih]

/-- A map without the key reads `none`. -/
theorem alGet_eq_none_of_not_any {α : Type} (k : String) :
    ∀ m : List (String × α), ¬(m.any (fun p => p.1 = k) = true) →
    alGet m k = none := by
  intro m
  induction m with
  | nil => intro _; rfl
  | cons p ps ih =>
    intro h
    rw [alGet_cons]
    by_cases hp : p.1 = k
    · exact absurd (by simp [List.any_cons, hp]) h
    · rw [if_neg hp]
      exact ih (fun hh => h (by simp [List.any_cons, hh]))

/-- Updating a key and reading one back. -/
theorem alGet_alSet {α : Type} (k k' : String) (v : α) (m : List (String × α)) :
    alGet (alSet m k v) k' = if k' = k then some v else alGet m k' := by
  unfold alSet
  by_cases hany : m.any (fun p => p.1 = k)
  · rw [if_pos hany]
    by_cases hk : k' = k
    · subst hk
      rw [alGet_mapSet_eq k' v m hany, if_pos rfl]
    · rw [alGet_mapSet_ne k k' v hk m, if_neg hk]
  · rw [if_neg hany, alGet_append_single]
    by_cases hk : k' = k
    · subst hk
      rw [alGet_eq_none_of_not_any k' m hany]
    · cases hf : alGet m k' with
      | none =>
        have h2 : ¬(k = k') := fun h => hk h.symm
        simp [hk, h2]
      | some x => simp [hk]

/-- Key presence after an update. -/
theorem alGet_alSet_ne_none {α : Type} (k k' : String) (v : α) (m : List (String × α)) :
    (alGet (alSet m k v) k' ≠ none) ↔ (k' = k ∨ alGet m k' ≠ none) := by
  rw [alGet_alSet]
  by_cases hk : k' = k
  · simp [hk]
  · simp [hk]

/-- The range of an existing element, as a platform-gating conditional. -/
theorem getRange_eq (os : OSPlatform) (f : FileModel) (e : Nat) (nd : DomNode)
    (h : f.dom.get? e = some nd) :
    getRangeFromElement os f e =
      if isDefinedForPlatform os f e then
        some ⟨(nd.startIndex : Int), (nd.endIndex : Int)⟩
      else none := by
  unfold getRangeFromElement
  rw [h]
  by_cases hp : isDefinedForPlatform os f e <;> simp [hp]

/-- An existing element yields a range exactly when it is not
platform-gated away. -/
theorem getRange_eq_platform (os : OSPlatform) (f : FileModel) (e : Nat) (nd : DomNode)
    (hd : f.dom.get? e = some nd) (rng : Rng)
    (hr : getRangeFromElement os f e = some rng) :
    isDefinedForPlatform os f e = true := by
  rw [getRange_eq os f e nd hd] at hr
  by_cases hp : isDefinedForPlatform os f e
  · exact hp
  · rw [if_neg hp] at hr
    exact absurd hr (by simp)

/-- A gated-away element yields no range. -/
theorem getRange_none_platform (os : OSPlatform) (f : FileModel) (e : Nat) (nd : DomNode)
    (hd : f.dom.get? e = some nd)
    (hr : getRangeFromElement os f e = none) :
    isDefinedForPlatform os f e = false := by
  rw [getRange_eq os f e nd hd] at hr
  by_cases hp : isDefinedForPlatform os f e
  · rw [if_pos hp] at hr
    exact absurd hr (by simp)
  · simpa using hp

/-- `insertDefWithDup` on an explicit accumulator pair. -/
theorem insertDefWithDup_eq (f : FileModel) (dt : DefinitionType) (idx : Nat)
    (name : String) (range : Rng) (m : DefMap) (d : List DuplicateDefinition) :
    insertDefWithDup f dt idx name range (m, d) =
      (alSet m name range,
       match alGet m name with
       | some otherRange =>
         if ¬isOptionallyDefined f idx then
           addDuplicateDefinition f.uri d name dt range otherRange
         else d
       | none => d) := rfl

set_option maxRecDepth 4000 in
/-- `parseElement` indexes a name exactly when the file contains a
corresponding definition site (or the name was already in the
accumulator map). -/
theorem parseElementM_key_iff (os : OSPlatform) (f : FileModel) (par : String)
    (names : List String) (filter : Option (DomNode → Bool)) (dt : DefinitionType)
    (n : String) :
    ∀ (m : DefMap) (d : List DuplicateDefinition),
    (alGet (parseElementM os f par names filter dt (m, d)).1 n ≠ none) ↔
      (alGet m n ≠ none ∨ specParseElemDefines os f par names filter n = true) := by
  unfold parseElementM specParseElemDefines
  cases hfc : findFirstChild f.dom 0 [par] with
  | none => simp
  | some p =>
    simp only []
    set es := findChildren f.dom p names with hes
    clear_value es
    clear hes hfc
    induction es with
    | nil => intro m d; simp
    | cons e es ih =>
      intro m d
      rw [List.foldl_cons, List.any_cons]
      cases hd : f.dom.get? e with
      | none =>
        simp only [hd]
        rw [ih m d]
        simp [defElemNamed, hd]
      | some nd =>
        simp only [hd]
        by_cases hkind : nd.kind = .tag
        · rw [if_neg (by simp [hkind])]
          cases filter with
          | none =>
            rw [if_neg (by simp)]
            cases hr : getRangeFromElement os f e with
            | none =>
              try simp only []
              rw [ih m d]
              have hplat := getRange_none_platform os f e nd hd hr
              simp [defElemNamed, hd, hplat]
            | some rng =>
              try simp only []
              have hplat := getRange_eq_platform os f e nd hd rng hr
              cases hnm : getAttr nd.attribs "name" with
              | none =>
                try simp only []
                rw [ih m d]
                simp [defElemNamed, hd, hnm]
              | some nm =>
                try simp only []
                rw [insertDefWithDup_eq, ih (alSet m nm rng) _, alGet_alSet_ne_none]
                simp only [defElemNamed, hd, hkind, hplat, hnm]
                simp
                tauto
          | some flt =>
            by_cases hflt : flt nd = true
            · rw [if_neg (by simp [hflt])]
              cases hr : getRangeFromElement os f e with
              | none =>
                try simp only []
                rw [ih m d]
                have hplat := getRange_none_platform os f e nd hd hr
                simp [defElemNamed, hd, hplat]
              | some rng =>
                try simp only []
                have hplat := getRange_eq_platform os f e nd hd rng hr
                cases hnm : getAttr nd.attribs "name" with
                | none =>
                  try simp only []
                  rw [ih m d]
                  simp [defElemNamed, hd, hnm]
                | some nm =>
                  try simp only []
                  rw [insertDefWithDup_eq, ih (alSet m nm rng) _, alGet_alSet_ne_none]
                  simp only [defElemNamed, hd, hkind, hplat, hnm, hflt]
                  simp
                  tauto
            · rw [if_pos (by simp [hflt])]
              rw [ih m d]
              simp [defElemNamed, hd, hflt]
        · rw [if_pos (by simp [hkind])]
          rw [ih m d]
          simp [defElemNamed, hd, hkind]

/-- `parseDelegates` indexes a form name exactly when the file contains
a sized `<Delegate>` for it. -/
theorem parseDelegates_key_iff (os : OSPlatform) (f : FileModel) (n : String) :
    ∀ m : DefMap,
    (alGet (parseDelegates os f m) n ≠ none) ↔
      (alGet m n ≠ none ∨ specSizedDelegateDefines os f n = true) := by
  unfold parseDelegates specSizedDelegateDefines
  set es := findChildren f.dom 0 ["Delegate"] with hes
  clear_value es
  clear hes
  induction es with
  | nil => intro m; simp
  | cons e es ih =>
    intro m
    rw [List.foldl_cons, List.any_cons]
    cases hd : f.dom.get? e with
    | none =>
      simp only [hd]
      rw [ih m]
      simp
    | some dn =>
      simp only [hd]
      by_cases hkind : dn.kind = .tag
      · rw [if_neg (by simp [hkind])]
        by_cases hwhs : getAttr dn.attribs "width" = none ∧
            getAttr dn.attribs "height" = none ∧ getAttr dn.attribs "size" = none
        · rw [if_pos hwhs]
          rw [ih m]
          obtain ⟨h1, h2, h3⟩ := hwhs
          simp [h1, h2, h3]
        · rw [if_neg hwhs]
          cases hr : getRangeFromElement os f e with
          | none =>
            try simp only []
            rw [ih m]
            have hplat := getRange_none_platform os f e dn hd hr
            simp [hplat]
          | some rng =>
            try simp only []
            have hplat := getRange_eq_platform os f e dn hd rng hr
            cases hfn : getAttr dn.attribs "form.name" with
            | none =>
              try simp only []
              rw [ih m]
              simp [hfn]
            | some fn =>
              try simp only []
              rw [ih (alSet m fn rng), alGet_alSet_ne_none]
              simp only [hkind, hplat, hfn]
              simp
              constructor
              · rintro ((h1 | h1) | h2)
                · exact Or.inr (Or.inl ⟨by tauto, h1.symm⟩)
                · exact Or.inl h1
                · exact Or.inr (Or.inr h2)
              · rintro (h1 | ⟨hx, h2⟩ | h2)
                · exact Or.inl (Or.inr h1)
                · exact Or.inl (Or.inl h2.symm)
                · exact Or.inr h2
      · rw [if_pos (by simp [hkind])]
        rw [ih m]
        simp [hkind]

/-- `insertDefWithDup` on a general accumulator. -/
theorem insertDefWithDup_eq2 (f : FileModel) (dt : DefinitionType) (idx : Nat)
    (name : String) (range : Rng) (acc : DefMap × List DuplicateDefinition) :
    insertDefWithDup f dt idx name range acc =
      (alSet acc.1 name range,
       match alGet acc.1 name with
       | some otherRange =>
         if ¬isOptionallyDefined f idx then
           addDuplicateDefinition f.uri acc.2 name dt range otherRange
         else acc.2
       | none => acc.2) := by
  cases acc
  rfl

/-- The `N[child]` sub-entry fold shared by `parseImages` and
`parseShapes` indexes a name exactly when a gated named child yields
it. -/
theorem namedChildFold_iff (os : OSPlatform) (f : FileModel) (base n : String) :
    ∀ (cs : List Nat) (acc : DefMap × List DuplicateDefinition),
    (alGet (cs.foldl (fun acc c =>
        match f.dom.get? c with
        | none => acc
        | some child =>
          match getAttr child.attribs "name" with
          | none => acc
          | some childName =>
            match getRangeFromElement os f c with
            | none => acc
            | some childRange =>
              (alSet acc.1 (base ++ "[" ++ childName ++ "]") childRange, acc.2)) acc).1
      n ≠ none) ↔
      (alGet acc.1 n ≠ none ∨ (cs.any (fun c =>
        match f.dom.get? c with
        | none => false
        | some child =>
          match getAttr child.attribs "name" with
          | some cn => isDefinedForPlatform os f c && decide (n = base ++ "[" ++ cn ++ "]")
          | none => false)) = true) := by
  intro cs
  induction cs with
  | nil => intro acc; simp
  | cons c cs ih =>
    intro acc
    obtain ⟨m, d⟩ := acc
    rw [List.foldl_cons, List.any_cons]
    cases hd : f.dom.get? c with
    | none =>
      simp only [hd]
      rw [ih (m, d)]
      simp
    | some child =>
      simp only [hd]
      cases hnm : getAttr child.attribs "name" with
      | none =>
        try simp only []
        rw [ih (m, d)]
        simp
      | some cn =>
        try simp only []
        cases hr : getRangeFromElement os f c with
        | none =>
          try simp only []
          rw [ih (m, d)]
          have hplat := getRange_none_platform os f c child hd hr
          simp [hplat]
        | some rng =>
          try simp only []
          have hplat := getRange_eq_platform os f c child hd rng hr
          rw [ih (alSet m (base ++ "[" ++ cn ++ "]") rng, d)]
          simp only [hplat]
          simp [alGet_alSet_ne_none]
          tauto

/-- The `frames` fold of `parseImages` indexes a name exactly when a
nonempty frame name fabricates it. -/
theorem frameFold_iff (base n : String) (rng : Rng) :
    ∀ (fl : List String) (acc : DefMap × List DuplicateDefinition),
    (alGet (fl.foldl (fun acc frameName =>
        if frameName.length > 0 ∧ alGet acc.1 (base ++ "[" ++ frameName ++ "]") = none then
          (alSet acc.1 (base ++ "[" ++ frameName ++ "]") rng, acc.2)
        else acc) acc).1 n ≠ none) ↔
      (alGet acc.1 n ≠ none ∨ (fl.any (fun fn =>
        decide (fn.length > 0) && decide (n = base ++ "[" ++ fn ++ "]"))) = true) := by
  intro fl
  induction fl with
  | nil => intro acc; simp
  | cons fn fl ih =>
    intro acc
    obtain ⟨m, d⟩ := acc
    rw [List.foldl_cons, List.any_cons]
    by_cases hc : fn.length > 0 ∧ alGet m (base ++ "[" ++ fn ++ "]") = none
    · rw [if_pos (by simpa using hc)]
      rw [ih (alSet m (base ++ "[" ++ fn ++ "]") rng, d)]
      obtain ⟨hlen, _⟩ := hc
      simp [alGet_alSet_ne_none, hlen]
      tauto
    · rw [if_neg (by simpa using hc)]
      rw [ih (m, d)]
      simp only [Bool.or_eq_true, Bool.and_eq_true, decide_eq_true_eq]
      constructor
      · rintro (h1 | h2)
        · exact Or.inl h1
        · exact Or.inr (Or.inr h2)
      · rintro (h1 | ⟨⟨hlen, hkey⟩ | h2⟩)
        · exact Or.inl h1
        · rcases hget : alGet m (base ++ "[" ++ fn ++ "]") with _ | r
          · exact absurd ⟨hlen, hget⟩ hc
          · exact Or.inl (by rw [hkey, hget]; simp)
        · exact Or.inr h2

/-- `parseImages` indexes a name exactly when the file contains a
corresponding image definition site. -/
theorem parseImages_key_iff (os : OSPlatform) (f : FileModel) (n : String) :
    ∀ (acc : DefMap × List DuplicateDefinition),
    (alGet (parseImages os f acc).1 n ≠ none) ↔
      (alGet acc.1 n ≠ none ∨ specImageDefines os f n = true) := by
  unfold parseImages specImageDefines
  cases hfc : findFirstChild f.dom 0 ["Resources"] with
  | none => simp
  | some res =>
    simp only []
    set es := findDirectChildren f.dom res ["Image", "ImagePart", "ShapeImage", "IconSet"]
      with hes
    clear_value es
    clear hes hfc
    induction es with
    | nil => intro acc; simp
    | cons i es ih =>
      intro acc
      obtain ⟨m, d⟩ := acc
      rw [List.foldl_cons, List.any_cons]
      cases hd : f.dom.get? i with
      | none =>
        simp only [hd]
        rw [ih (m, d)]
        simp
      | some img =>
        simp only [hd]
        cases hr : getRangeFromElement os f i with
        | none =>
          try simp only []
          rw [ih (m, d)]
          have hplat := getRange_none_platform os f i img hd hr
          simp [hplat]
        | some rng =>
          try simp only []
          have hplat := getRange_eq_platform os f i img hd rng hr
          cases hnm : getAttr img.attribs "name" with
          | none =>
            try simp only []
            rw [ih (m, d)]
            simp [hnm]
          | some base =>
            try simp only []
            rw [insertDefWithDup_eq]
            cases hfr : getAttr img.attribs "frames" with
            | none =>
              try simp only []
              rw [ih _, namedChildFold_iff]
              simp only [alGet_alSet_ne_none, hplat, hnm, hfr, Bool.true_and,
                         Bool.and_eq_true, Bool.or_false, Bool.false_or,
                         Bool.or_eq_true, decide_eq_true_eq, ne_eq]
              tauto
            | some fr =>
              try simp only []
              by_cases hflen : fr.length > 0
              · rw [if_pos hflen]
                rw [ih _, frameFold_iff, namedChildFold_iff]
                simp only [alGet_alSet_ne_none, hplat, hnm, hfr, Bool.true_and,
                           Bool.and_eq_true, Bool.or_false, Bool.false_or,
                           Bool.or_eq_true, decide_eq_true_eq, ne_eq]
                tauto
              · rw [if_neg hflen]
                rw [ih _, namedChildFold_iff]
                simp only [alGet_alSet_ne_none, hplat, hnm, hfr, Bool.true_and,
                           Bool.and_eq_true, Bool.or_false, Bool.false_or,
                           Bool.or_eq_true, decide_eq_true_eq, ne_eq]
                tauto

/-- `parseShapes` indexes a name exactly when the file contains a
corresponding shape definition site. -/
theorem parseShapes_key_iff (os : OSPlatform) (f : FileModel) (n : String) :
    ∀ (acc : DefMap × List DuplicateDefinition),
    (alGet (parseShapes os f acc).1 n ≠ none) ↔
      (alGet acc.1 n ≠ none ∨ specShapeDefines os f n = true) := by
  unfold parseShapes specShapeDefines
  cases hfc : findFirstChild f.dom 0 ["Shapes"] with
  | none => simp
  | some shapes =>
    simp only []
    cases hsn : f.dom.get? shapes with
    | none => simp
    | some sn =>
      simp only []
      set es := sn.children with hes
      clear_value es
      clear hes hsn hfc
      induction es with
      | nil => intro acc; simp
      | cons si es ih =>
        intro acc
        obtain ⟨m, d⟩ := acc
        rw [List.foldl_cons, List.any_cons]
        cases hd : f.dom.get? si with
        | none =>
          simp only [hd]
          rw [ih (m, d)]
          simp
        | some shape =>
          simp only [hd]
          by_cases hkind : shape.kind = .tag
          · rw [if_neg (by simp [hkind])]
            cases hr : getRangeFromElement os f si with
            | none =>
              try simp only []
              rw [ih (m, d)]
              have hplat := getRange_none_platform os f si shape hd hr
              simp [hplat]
            | some rng =>
              try simp only []
              have hplat := getRange_eq_platform os f si shape hd rng hr
              cases hnm : getAttr shape.attribs "name" with
              | none =>
                try simp only []
                rw [ih (m, d)]
                simp [hnm]
              | some base =>
                try simp only []
                rw [insertDefWithDup_eq]
                rw [ih _, namedChildFold_iff]
                simp only [alGet_alSet_ne_none, hplat, hnm, hkind, Bool.true_and,
                           Bool.and_eq_true, Bool.or_false, Bool.false_or,
                           Bool.or_eq_true, decide_eq_true_eq, ne_eq]
                tauto
          · rw [if_pos (by simp [hkind])]
            rw [ih (m, d)]
            simp [hkind]

/-- `decide` of an iff-characterised proposition. -/
theorem decide_eq_of_iff {p : Prop} [Decidable p] {b : Bool} (h : p ↔ b = true) :
    decide p = b := by
  cases b
  · exact decide_eq_false (fun hp => by simpa using h.mp hp)
  · exact decide_eq_true (h.mpr rfl)

/-- Match form of the scheme membership test. -/
theorem schemeHas_bool (schemes : List (String × DefMap)) (s dn : String) :
    (match alGet schemes s with
     | some scheme => decide (alGet scheme dn ≠ none)
     | none => false) = decide (schemeHas schemes s dn) := by
  rcases h : alGet schemes s with _ | dd <;> simp [schemeHas, h]

/-- The `getD []` read-back of a scheme. -/
theorem schemeHas_getD (schemes : List (String × DefMap)) (s dn : String) :
    (alGet ((alGet schemes s).getD []) dn ≠ none) ↔ schemeHas schemes s dn := by
  rcases h : alGet schemes s with _ | dd
  · have h0 : alGet ([] : DefMap) dn = none := rfl
    simp [schemeHas, h, h0]
  · simp [schemeHas, h]

/-- Scheme update and the membership test. -/
theorem schemeHas_alSet (schemes : List (String × DefMap)) (cs s dn : String)
    (dd : DefMap) :
    schemeHas (alSet schemes cs dd) s dn ↔
      (if s = cs then alGet dd dn ≠ none else schemeHas schemes s dn) := by
  unfold schemeHas
  rw [alGet_alSet]
  by_cases h : s = cs <;> simp [h]

/-- The `ColorScheme` children fold touches exactly the `csName` scheme,
adding every gated `ColorScheme.Color` name. -/
theorem csChildFold_iff (os : OSPlatform) (f : FileModel) (csName s dn : String) :
    ∀ (cis : List Nat) (acc : List (String × DefMap) × List DuplicateDefinition),
    schemeHas (cis.foldl (fun acc ci =>
        match f.dom.get? ci with
        | none => acc
        | some color =>
          if color.kind = .tag ∧ color.tagName = "ColorScheme.Color" then
            match getRangeFromElement os f ci with
            | none => acc
            | some range =>
              let (schemes, dups) := acc
              let dd := (alGet schemes csName).getD []
              let colorName := (getAttr color.attribs "name").getD "undefined"
              let dups :=
                match alGet dd colorName with
                | some otherRange =>
                  if ¬isOptionallyDefined f ci then
                    addDuplicateDefinition f.uri dups colorName .kColor range otherRange
                  else dups
                | none => dups
              (alSet schemes csName (alSet dd colorName range), dups)
          else acc) acc).1 s dn ↔
      (schemeHas acc.1 s dn ∨ (csName = s ∧ (cis.any (fun ci =>
        match f.dom.get? ci with
        | none => false
        | some color =>
          decide (color.kind = .tag) && decide (color.tagName = "ColorScheme.Color") &&
          isDefinedForPlatform os f ci &&
          decide ((getAttr color.attribs "name").getD "undefined" = dn))) = true)) := by
  intro cis
  induction cis with
  | nil => intro acc; simp
  | cons ci cis ih =>
    intro acc
    obtain ⟨schemes, du⟩ := acc
    rw [List.foldl_cons, List.any_cons]
    cases hd : f.dom.get? ci with
    | none =>
      simp only [hd]
      rw [ih (schemes, du)]
      simp
    | some color =>
      simp only [hd]
      by_cases htag : color.kind = .tag ∧ color.tagName = "ColorScheme.Color"
      · rw [if_pos htag]
        obtain ⟨ht1, ht2⟩ := htag
        cases hr : getRangeFromElement os f ci with
        | none =>
          try simp only []
          rw [ih (schemes, du)]
          have hplat := getRange_none_platform os f ci color hd hr
          simp [hplat]
        | some rng =>
          try simp only []
          have hplat := getRange_eq_platform os f ci color hd rng hr
          rw [ih _, schemeHas_alSet]
          by_cases hcs : s = csName
          · subst hcs
            rw [if_pos rfl, alGet_alSet_ne_none, schemeHas_getD]
            simp only [ht1, ht2, hplat, Bool.true_and, Bool.and_eq_true,
                       decide_eq_true_eq, Bool.or_eq_true, ne_eq, true_and,
                       decide_True]
            simp
            tauto
          · rw [if_neg hcs]
            simp only [ht1, ht2, hplat, Bool.true_and, Bool.and_eq_true,
                       decide_eq_true_eq, Bool.or_eq_true, ne_eq, true_and,
                       decide_True]
            constructor
            · rintro (h1 | ⟨he, h2⟩)
              · exact Or.inl h1
              · exact Or.inr ⟨he, Or.inr h2⟩
            · rintro (h1 | ⟨he, h2 | h2⟩)
              · exact Or.inl h1
              · exact absurd he.symm hcs
              · exact Or.inr ⟨he, h2⟩
      · rw [if_neg htag]
        rw [ih (schemes, du)]
        have hff : (decide (color.kind = .tag) &&
            decide (color.tagName = "ColorScheme.Color")) = false := by
          rcases not_and_or.mp htag with h | h <;> simp [h]
        rw [hff]
        simp only [Bool.false_and, Bool.false_or]

/-- `parseColorScheme` and the claim-side `ColorScheme` disjunct. -/
theorem parseColorScheme_key_iff (os : OSPlatform) (f : FileModel) (s dn : String) :
    ∀ (acc : List (String × DefMap) × List DuplicateDefinition),
    schemeHas (parseColorScheme os f acc).1 s dn ↔
      (schemeHas acc.1 s dn ∨
       ((findChildren f.dom 0 ["ColorScheme"]).any (fun c =>
          match f.dom.get? c with
          | none => false
          | some cn =>
            decide (getAttr cn.attribs "name" = some s) && decide (s.length > 0) &&
            (cn.children.any (fun ci =>
              match f.dom.get? ci with
              | none => false
              | some color =>
                decide (color.kind = .tag) &&
                decide (color.tagName = "ColorScheme.Color") &&
                isDefinedForPlatform os f ci &&
                decide ((getAttr color.attribs "name").getD "undefined" = dn))))) = true) := by
  unfold parseColorScheme
  set es := findChildren f.dom 0 ["ColorScheme"] with hes
  clear_value es
  clear hes
  induction es with
  | nil => intro acc; simp
  | cons c es ih =>
    intro acc
    obtain ⟨schemes, du⟩ := acc
    rw [List.foldl_cons, List.any_cons]
    cases hd : f.dom.get? c with
    | none =>
      simp only [hd]
      rw [ih (schemes, du)]
      simp
    | some cn =>
      simp only [hd]
      cases hat : getAttr cn.attribs "name" with
      | none =>
        try simp only []
        rw [ih (schemes, du)]
        simp [hat]
      | some csName =>
        try simp only []
        by_cases hlen : csName.length > 0
        · rw [if_pos hlen]
          rw [ih _, csChildFold_iff]
          by_cases hcs : csName = s
          · subst hcs
            have hl : decide (csName.length > 0) = true := decide_eq_true hlen
            simp only [hat, Option.some.injEq, eq_self_iff_true, decide_True,
                       hl, Bool.true_and, true_and, Bool.or_eq_true]
            exact or_assoc
          · simp only [hat, Option.some.injEq, Bool.and_eq_true,
                       decide_eq_true_eq, Bool.or_eq_true]
            constructor
            · rintro ((h1 | ⟨he, _⟩) | h2)
              · exact Or.inl h1
              · exact absurd he hcs
              · exact Or.inr (Or.inr h2)
            · rintro (h1 | (⟨⟨he, _⟩, _⟩ | h2))
              · exact Or.inl (Or.inl h1)
              · exact absurd he hcs
              · exact Or.inr h2
        · rw [if_neg hlen]
          rw [ih (schemes, du)]
          by_cases hcs : csName = s
          · subst hcs
            simp [hat, hlen]
          · simp only [hat, Option.some.injEq, Bool.and_eq_true,
                       decide_eq_true_eq, Bool.or_eq_true]
            constructor
            · rintro (h1 | h2)
              · exact Or.inl h1
              · exact Or.inr (Or.inr h2)
            · rintro (h1 | (⟨⟨he, _⟩, _⟩ | h2))
              · exact Or.inl h1
              · exact absurd he hcs
              · exact Or.inr h2

/-- The `Resources` children fold touches only the anonymous scheme,
adding every gated `$`-prefixed color name. -/
theorem resChildFold_iff (os : OSPlatform) (f : FileModel) (s dn : String) :
    ∀ (cis : List Nat) (acc : List (String × DefMap) × List DuplicateDefinition),
    schemeHas (cis.foldl (fun acc ci =>
        match f.dom.get? ci with
        | none => acc
        | some child =>
          if child.kind = .tag ∧ child.tagName = "Color" then
            match getRangeFromElement os f ci with
            | none => acc
            | some range =>
              match getAttr child.attribs "name" with
              | none => acc
              | some nm =>
                let (schemes, dups) := acc
                let dd := (alGet schemes "").getD []
                let colorName := "$" ++ nm
                let dups :=
                  match alGet dd colorName with
                  | some otherRange =>
                    if ¬isOptionallyDefined f ci then
                      addDuplicateDefinition f.uri dups colorName .kColor range otherRange
                    else dups
                  | none => dups
                (alSet schemes "" (alSet dd colorName range), dups)
          else acc) acc).1 s dn ↔
      (schemeHas acc.1 s dn ∨ (s = "" ∧ (cis.any (fun ci =>
        match f.dom.get? ci with
        | none => false
        | some child =>
          decide (child.kind = .tag) && decide (child.tagName = "Color") &&
          isDefinedForPlatform os f ci &&
          (match getAttr child.attribs "name" with
           | some nm => decide (dn = "$" ++ nm)
           | none => false))) = true)) := by
  intro cis
  induction cis with
  | nil => intro acc; simp
  | cons ci cis ih =>
    intro acc
    obtain ⟨schemes, du⟩ := acc
    rw [List.foldl_cons, List.any_cons]
    cases hd : f.dom.get? ci with
    | none =>
      simp only [hd]
      rw [ih (schemes, du)]
      simp
    | some child =>
      simp only [hd]
      by_cases htag : child.kind = .tag ∧ child.tagName = "Color"
      · rw [if_pos htag]
        obtain ⟨ht1, ht2⟩ := htag
        cases hr : getRangeFromElement os f ci with
        | none =>
          try simp only []
          rw [ih (schemes, du)]
          have hplat := getRange_none_platform os f ci child hd hr
          simp [hplat]
        | some rng =>
          try simp only []
          have hplat := getRange_eq_platform os f ci child hd rng hr
          cases hnm : getAttr child.attribs "name" with
          | none =>
            try simp only []
            rw [ih (schemes, du)]
            simp [hnm]
          | some nm =>
            try simp only []
            rw [ih _, schemeHas_alSet]
            by_cases hcs : s = ""
            · subst hcs
              rw [if_pos rfl, alGet_alSet_ne_none, schemeHas_getD]
              simp only [ht1, ht2, hplat, hnm, Bool.true_and, Bool.and_eq_true,
                         decide_eq_true_eq, Bool.or_eq_true, ne_eq, true_and,
                         decide_True]
              simp
              tauto
            · rw [if_neg hcs]
              simp only [ht1, ht2, hplat, hnm, Bool.true_and, Bool.and_eq_true,
                         decide_eq_true_eq, Bool.or_eq_true, true_and]
              constructor
              · rintro (h1 | ⟨he, h2⟩)
                · exact Or.inl h1
                · exact Or.inr ⟨he, Or.inr h2⟩
              · rintro (h1 | ⟨he, h2 | h2⟩)
                · exact Or.inl h1
                · exact absurd he hcs
                · exact Or.inr ⟨he, h2⟩
      · rw [if_neg htag]
        rw [ih (schemes, du)]
        have hff : (decide (child.kind = .tag) &&
            decide (child.tagName = "Color")) = false := by
          rcases not_and_or.mp htag with h | h <;> simp [h]
        rw [hff]
        simp only [Bool.false_and, Bool.false_or]

/-- `parseResources` and the claim-side `Resources` disjunct. -/
theorem parseResources_key_iff (os : OSPlatform) (f : FileModel) (s dn : String) :
    ∀ (acc : List (String × DefMap) × List DuplicateDefinition),
    schemeHas (parseResources os f acc).1 s dn ↔
      (schemeHas acc.1 s dn ∨
       (s = "" ∧ ((findChildren f.dom 0 ["Resources"]).any (fun r =>
          match f.dom.get? r with
          | none => false
          | some rn =>
            rn.children.any (fun ci =>
              match f.dom.get? ci with
              | none => false
              | some child =>
                decide (child.kind = .tag) && decide (child.tagName = "Color") &&
                isDefinedForPlatform os f ci &&
                (match getAttr child.attribs "name" with
                 | some nm => decide (dn = "$" ++ nm)
                 | none => false))) = true))) := by
  unfold parseResources
  set es := findChildren f.dom 0 ["Resources"] with hes
  clear_value es
  clear hes
  induction es with
  | nil => intro acc; simp
  | cons r es ih =>
    intro acc
    rw [List.foldl_cons, List.any_cons]
    cases hd : f.dom.get? r with
    | none =>
      simp only [hd]
      rw [ih acc]
      simp
    | some rn =>
      simp only [hd]
      rw [ih _, resChildFold_iff]
      constructor
      · rintro ((h1 | ⟨he, h2⟩) | h2)
        · exact Or.inl h1
        · exact Or.inr ⟨he, by simp [h2]⟩
        · exact Or.inr (by
            rcases h2 with ⟨he, h3⟩
            exact ⟨he, by simp [h3]⟩)
      · rintro (h1 | ⟨he, h2⟩)
        · exact Or.inl (Or.inl h1)
        · rcases (Bool.or_eq_true _ _).mp h2 with h3 | h3
          · exact Or.inl (Or.inr ⟨he, h3⟩)
          · exact Or.inr ⟨he, h3⟩

/-- A missing key in the empty map. -/
theorem alGet_nil {α : Type} (k : String) : alGet ([] : List (String × α)) k = none := rfl

/-- The empty scheme map holds nothing. -/
theorem schemeHas_nil (s dn : String) : ¬schemeHas [] s dn := fun h => h

/-- The color map of the parsed file, in stage form. -/
theorem colorDefinitions_proj (os : OSPlatform) (ua : String → String → Bool)
    (f : FileModel) :
    (parseSkinFileModel os ua f).colorDefinitions =
      alSet (smCs os f).1 "" (smColorDefs os f).1 := rfl

/-- The style map of the parsed file, in stage form. -/
theorem styleDefinitions_proj (os : OSPlatform) (ua : String → String → Bool)
    (f : FileModel) :
    (parseSkinFileModel os ua f).styleDefinitions = (smStyles os f).1 := rfl

/-- The app-style map of the parsed file, in stage form. -/
theorem appStyleDefinitions_proj (os : OSPlatform) (ua : String → String → Bool)
    (f : FileModel) :
    (parseSkinFileModel os ua f).appStyleDefinitions = (smAppStyles os f).1 := rfl

/-- The font map of the parsed file, in stage form. -/
theorem fontDefinitions_proj (os : OSPlatform) (ua : String → String → Bool)
    (f : FileModel) :
    (parseSkinFileModel os ua f).fontDefinitions = (smFonts os f).1 := rfl

/-- The metric map of the parsed file, in stage form. -/
theorem metricDefinitions_proj (os : OSPlatform) (ua : String → String → Bool)
    (f : FileModel) :
    (parseSkinFileModel os ua f).metricDefinitions = (smMetrics os f).1 := rfl

/-- The form map of the parsed file, in stage form. -/
theorem formDefinitions_proj (os : OSPlatform) (ua : String → String → Bool)
    (f : FileModel) :
    (parseSkinFileModel os ua f).formDefinitions = (smForms os f).1 := rfl

/-- The image map of the parsed file, in stage form. -/
theorem imageDefinitions_proj (os : OSPlatform) (ua : String → String → Bool)
    (f : FileModel) :
    (parseSkinFileModel os ua f).imageDefinitions = (smImages os f).1 := rfl

/-- The shape map of the parsed file, in stage form. -/
theorem shapeDefinitions_proj (os : OSPlatform) (ua : String → String → Bool)
    (f : FileModel) :
    (parseSkinFileModel os ua f).shapeDefinitions = (smShapes os f).1 := rfl

/-- The sized-delegate map of the parsed file, in stage form. -/
theorem sizedDelegateDefinitions_proj (os : OSPlatform) (ua : String → String → Bool)
    (f : FileModel) :
    (parseSkinFileModel os ua f).sizedDelegateDefinitions = parseDelegates os f [] := rfl

/-- The color map of a parsed file holds `(s, dn)` iff a gated
`ColorScheme.Color` of scheme `s`, a `$`-prefixed `Resources` color, or
a `ThemeElements` color defines it (the latter two anonymously). -/
theorem colors_iff (os : OSPlatform) (ua : String → String → Bool) (f : FileModel)
    (s dn : String) :
    schemeHas (parseSkinFileModel os ua f).colorDefinitions s dn ↔
      (((findChildren f.dom 0 ["ColorScheme"]).any (fun c =>
          match f.dom.get? c with
          | none => false
          | some cn =>
            decide (getAttr cn.attribs "name" = some s) && decide (s.length > 0) &&
            (cn.children.any (fun ci =>
              match f.dom.get? ci with
              | none => false
              | some color =>
                decide (color.kind = .tag) &&
                decide (color.tagName = "ColorScheme.Color") &&
                isDefinedForPlatform os f ci &&
                decide ((getAttr color.attribs "name").getD "undefined" = dn)))) = true) ∨
       (s = "" ∧ ((findChildren f.dom 0 ["Resources"]).any (fun r =>
          match f.dom.get? r with
          | none => false
          | some rn =>
            rn.children.any (fun ci =>
              match f.dom.get? ci with
              | none => false
              | some child =>
                decide (child.kind = .tag) && decide (child.tagName = "Color") &&
                isDefinedForPlatform os f ci &&
                (match getAttr child.attribs "name" with
                 | some nm => decide (dn = "$" ++ nm)
                 | none => false))) = true)) ∨
       (s = "" ∧ specParseElemDefines os f "ThemeElements" ["Color"] none dn = true)) := by
  rw [colorDefinitions_proj, schemeHas_alSet]
  by_cases hs : s = ""
  · subst hs
    rw [if_pos rfl]
    unfold smColorDefs
    rw [parseElementM_key_iff, schemeHas_getD]
    unfold smCs
    rw [parseResources_key_iff, parseColorScheme_key_iff]
    simp only [schemeHas_nil, eq_self_iff_true, true_and, false_or, or_assoc]
  · rw [if_neg hs]
    unfold smCs
    rw [parseResources_key_iff, parseColorScheme_key_iff]
    simp [schemeHas_nil, hs]

/-- `SkinFileInfo.isDefined` agrees with the claim-side per-file
predicate. -/
theorem fileIsDefined_spec (sc : ScopeModel) (i : SkinInfo) (dtype : DefinitionType)
    (value : String) (fq : Bool) :
    fileIsDefined sc i dtype value fq = specFileIsDefined sc i dtype value fq := by
  cases dtype with
  | kColor =>
    rcases hsd : getSchemeAndDefinitionName value with ⟨sn, dn⟩
    unfold fileIsDefined specFileIsDefined SkinInfo.parsed
    rw [hsd]
    try simp only []
    rw [if_pos trivial]
    have key : schemeHas (parseSkinFileModel sc.os sc.uriAttr i.file).colorDefinitions
        sn dn ↔ specColorDefines sc.os i.file value = true := by
      rw [colors_iff]
      unfold specColorDefines
      rw [hsd]
      try simp only []
      simp only [Bool.or_eq_true, Bool.and_eq_true, decide_eq_true_eq, or_assoc]
    cases hcd : alGet (parseSkinFileModel sc.os sc.uriAttr i.file).colorDefinitions sn with
    | none =>
      try simp only []
      have hns : ¬ schemeHas (parseSkinFileModel sc.os sc.uriAttr i.file).colorDefinitions
          sn dn := by
        unfold schemeHas
        rw [hcd]
        simp
      cases hb : specColorDefines sc.os i.file value with
      | false => rfl
      | true => exact absurd (key.mpr hb) hns
    | some scheme =>
      try simp only []
      have hs2 : schemeHas (parseSkinFileModel sc.os sc.uriAttr i.file).colorDefinitions
          sn dn ↔ alGet scheme dn ≠ none := by
        unfold schemeHas
        rw [hcd]
      exact decide_eq_of_iff (hs2.symm.trans key)
  | kVariable =>
    unfold fileIsDefined specFileIsDefined SkinInfo.parsed
    simp only [ParsedFile.getDefinitionsForType, specFileDefines]
    rw [if_neg (by simp)]
    cases matchNamespace i.file.ns value fq <;> rfl
  | kStyle =>
    unfold fileIsDefined specFileIsDefined SkinInfo.parsed
    rw [if_neg (by simp)]
    simp only [ParsedFile.getDefinitionsForType, specFileDefines, styleDefinitions_proj]
    try simp only []
    cases hmn : matchNamespace i.file.ns value fq with
    | none => rfl
    | some n =>
      try simp only []
      refine decide_eq_of_iff ?_
      exact (parseElementM_key_iff sc.os i.file "Styles" ["Style", "StyleAlias"]
        none .kStyle n [] (smCs sc.os i.file).2).trans (by simp [alGet_nil])
  | kAppStyle =>
    unfold fileIsDefined specFileIsDefined SkinInfo.parsed
    rw [if_neg (by simp)]
    simp only [ParsedFile.getDefinitionsForType, specFileDefines,
               appStyleDefinitions_proj]
    try simp only []
    cases hmn : matchNamespace i.file.ns value fq with
    | none => rfl
    | some n =>
      try simp only []
      refine decide_eq_of_iff ?_
      exact (parseElementM_key_iff sc.os i.file "Styles" ["Style", "StyleAlias"]
        (some (fun nd => getAttr nd.attribs "appstyle" = some "true")) .kAppStyle n
        [] (smStyles sc.os i.file).2).trans (by simp [alGet_nil])
  | kFont =>
    unfold fileIsDefined specFileIsDefined SkinInfo.parsed
    rw [if_neg (by simp)]
    simp only [ParsedFile.getDefinitionsForType, specFileDefines, fontDefinitions_proj]
    try simp only []
    cases hmn : matchNamespace i.file.ns value fq with
    | none => rfl
    | some n =>
      try simp only []
      refine decide_eq_of_iff ?_
      exact (parseElementM_key_iff sc.os i.file "ThemeElements" ["Font"]
        none .kFont n [] (smAppStyles sc.os i.file).2).trans (by simp [alGet_nil])
  | kMetric =>
    unfold fileIsDefined specFileIsDefined SkinInfo.parsed
    rw [if_neg (by simp)]
    simp only [ParsedFile.getDefinitionsForType, specFileDefines, metricDefinitions_proj]
    try simp only []
    cases hmn : matchNamespace i.file.ns value fq with
    | none => rfl
    | some n =>
      try simp only []
      refine decide_eq_of_iff ?_
      exact (parseElementM_key_iff sc.os i.file "ThemeElements" ["Metric"]
        none .kMetric n [] (smFonts sc.os i.file).2).trans (by simp [alGet_nil])
  | kForm =>
    unfold fileIsDefined specFileIsDefined SkinInfo.parsed
    rw [if_neg (by simp)]
    simp only [ParsedFile.getDefinitionsForType, specFileDefines, formDefinitions_proj]
    try simp only []
    cases hmn : matchNamespace i.file.ns value fq with
    | none => rfl
    | some n =>
      try simp only []
      refine decide_eq_of_iff ?_
      exact (parseElementM_key_iff sc.os i.file "Skin" ["Form"]
        none .kForm n [] (smColorDefs sc.os i.file).2).trans (by simp [alGet_nil])
  | kImage =>
    unfold fileIsDefined specFileIsDefined SkinInfo.parsed
    rw [if_neg (by simp)]
    simp only [ParsedFile.getDefinitionsForType, specFileDefines, imageDefinitions_proj]
    try simp only []
    cases hmn : matchNamespace i.file.ns value fq with
    | none => rfl
    | some n =>
      try simp only []
      refine decide_eq_of_iff ?_
      exact (parseImages_key_iff sc.os i.file n ([], (smForms sc.os i.file).2)).trans
        (by simp [alGet_nil])
  | kShape =>
    unfold fileIsDefined specFileIsDefined SkinInfo.parsed
    rw [if_neg (by simp)]
    simp only [ParsedFile.getDefinitionsForType, specFileDefines, shapeDefinitions_proj]
    try simp only []
    cases hmn : matchNamespace i.file.ns value fq with
    | none => rfl
    | some n =>
      try simp only []
      refine decide_eq_of_iff ?_
      exact (parseShapes_key_iff sc.os i.file n ([], (smImages sc.os i.file).2)).trans
        (by simp [alGet_nil])
  | kSizedDelegate =>
    unfold fileIsDefined specFileIsDefined SkinInfo.parsed
    rw [if_neg (by simp)]
    simp only [ParsedFile.getDefinitionsForType, specFileDefines,
               sizedDelegateDefinitions_proj]
    try simp only []
    cases hmn : matchNamespace i.file.ns value fq with
    | none => rfl
    | some n =>
      try simp only []
      refine decide_eq_of_iff ?_
      exact (parseDelegates_key_iff sc.os i.file n []).trans (by simp [alGet_nil])

/-- A stop-on-true fold of a pure predicate is `List.any`. -/
theorem foldStop_any (g : SkinInfo → Bool) :
    ∀ l : List SkinInfo, (foldStop (fun _ i => (g i, g i)) false l).1 = l.any g := by
  intro l
  induction l with
  | nil => rfl
  | cons i is ih =>
    rw [List.any_cons]
    unfold foldStop
    try simp only []
    cases hg : g i with
    | true => simp
    | false => simp [ih]

/-- The app-style fallback of the strict lookup, as a disjunction. -/
theorem styleFallback_eq (p : Prop) [Decidable p] (sl r app : Bool) :
    (if p ∧ ¬(r = true) ∧ ¬(sl = true) then app else r) =
      (r || (decide p && !sl && app)) := by
  by_cases hp : p <;> cases r <;> cases sl <;> cases app <;> simp [hp]

/-- `isDefinedStrict` agrees with the claim-side scope predicate. -/
theorem isDefinedStrict_spec (sc : ScopeModel) (url : String)
    (dtype : DefinitionType) (value : String) (fq : Bool) :
    isDefinedStrict sc url dtype value fq = specScopeDefines sc url dtype value fq := by
  unfold isDefinedStrict specScopeDefines forEachFileInScope
  simp only []
  rw [foldStop_any]
  refine congrArg _ (funext fun info => ?_)
  by_cases hq : (fq = true) ∨ ¬(canBeQualified dtype = true)
  · rw [if_pos hq, if_pos hq, fileIsDefined_spec]
  · rw [if_neg hq, if_neg hq, fileIsDefined_spec sc info dtype, fileIsDefined_spec]
    exact styleFallback_eq _ _ _ _

/-- A fold whose step fixes every element of the list fixes the seed. -/
theorem foldl_fix_mem {α β : Type} {f : β → α → β} {l : List α}
    (h : ∀ b a, a ∈ l → f b a = b) : ∀ b, List.foldl f b l = b := by
  induction l with
  | nil => intro b; rfl
  | cons x xs ih =>
    intro b
    rw [List.foldl_cons, h b x (by simp)]
    exact ih (fun b a ha => h b a (by simp [ha])) b

/-- C2 — counterexample.  When the two definitions live in the same
file (`c2sameFile` defines style `X` first with `override="true"`,
then without), `lookupDefinition` returns only the location of the
NON-overriding definition (offsets 47–64; the per-file map keeps the
last definition of a name), and a duplicate-definition record for the
pair IS produced (same-file duplicate detection never consults
`override`). -/
theorem override_same_file_counterexample :
    lookupDefinition c2sameScope "Solo/skin.xml" .kStyle 999 "X" LookupOpts.none' =
      [⟨"Solo/skin.xml", ⟨47, 64⟩⟩] ∧
    getDuplicateDefinitions c2sameScope "Solo/skin.xml" =
      [{ name := "X", dtype := .kStyle, range := ⟨47, 64⟩,
         otherDefinition := ⟨"Solo/skin.xml", ⟨14, 46⟩⟩ }] := by
  with_unfolding_all decide

/-- C2 — the amended claim, which holds when the two definitions live
in different files: if the scope walk visits exactly the query file `A`
and one other file `B`, `A` holds a sole definition of the name (of the
queried type, at `rA`) whose element does not carry `override="true"`,
`B` resolves the name to `lB` whose element does, and `A`'s own parse
recorded no same-file duplicates, then `lookupDefinition` returns only
the overriding location `lB` and `getDuplicateDefinitions` is empty. -/
theorem override_wins_across_files
    (sc : ScopeModel) (url : String) (t : DefinitionType) (elemIdx : Nat)
    (nm : String) (A B : SkinInfo) (rA : Rng) (lB : Loc)
    (aA aB : List (String × String))
    (h1 : t ≠ .kVariable)
    (hq : (if canBeQualified t then qualifyName sc url nm else nm) = nm)
    (hA : getSkinFileM sc url = some A)
    (helem : A.file.dom.get? elemIdx = none)
    (hvl : visitList sc url ⟨false, false⟩ = [A, B])
    (hBne : B.file.uri ≠ A.file.uri)
    (hlA : fileLookupDefinition sc A t nm false = some ⟨url, rA⟩)
    (hlB : fileLookupDefinition sc B t nm false = some lB)
    (htA : findTokenAttribsAt sc ⟨url, rA⟩ = some aA)
    (htB : findTokenAttribsAt sc lB = some aB)
    (hoA : hasOverrideTrue aA = false)
    (hoB : hasOverrideTrue aB = true)
    (hdups : (A.parsed sc).duplicateDefinitions = [])
    (hmap : (A.parsed sc).getDefinitionsForType t = some [(nm, rA)])
    (hothers : ∀ t' ∈ defTypeList, t' ≠ t →
      (A.parsed sc).getDefinitionsForType t' = none ∨
      (A.parsed sc).getDefinitionsForType t' = some [])
    (hnsA : A.file.ns = "") (hnsB : B.file.ns = "")
    (hslash : hasChar nm.toList '/' = false) :
    lookupDefinition sc url t elemIdx nm LookupOpts.none' = [lB] ∧
    getDuplicateDefinitions sc url = [] := by
  have hbind : (getSkinFileM sc url).bind (fun i => i.file.dom.get? elemIdx) = none := by
    rw [hA, Option.some_bind, helem]
  constructor
  · simp only [lookupDefinition, h1, if_false, hbind, hq, LookupOpts.none',
               forEachFileInScope, hvl, foldStop, hlA, hlB, ite_self]
    simp [hvl, foldStop, hlA, hlB, htA, htB, hoA, hoB, List.find?]
  · simp only [getDuplicateDefinitions, hA, forEachFileInScope, IterOpts.none',
               hvl, hdups, foldStop]
    simp only [if_true, Bool.false_eq_true, if_false]
    rw [if_neg hBne]
    simp only [Bool.false_eq_true, if_false]
    rw [foldl_fix_mem]
    intro res t' hmem
    by_cases hsd : t' = DefinitionType.kSizedDelegate
    · simp [hsd]
    · rw [if_neg hsd]
      by_cases heq : t' = t
      · subst heq
        rw [hmap]
        simp only [List.foldl_cons, List.foldl_nil]
        simp [hnsA, hnsB, hslash, hlB, htA, htB, hoA, hoB, ite_self]
      · rcases hothers t' hmem heq with h | h <;> rw [h] <;> simp

/-- C2 witness: the cross-file override scenario (`c2scope`: file A
defines style `X` plainly, file B defines it with `override="true"`).
The lookup returns only B's location and no duplicate is reported. -/
theorem override_wins_across_files_witness :
    lookupDefinition c2scope "Pack/skin.xml" .kStyle 999 "X" LookupOpts.none' =
      [⟨"Pack/b.xml", ⟨14, 47⟩⟩] ∧
    getDuplicateDefinitions c2scope "Pack/skin.xml" = [] :=
  override_wins_across_files c2scope "Pack/skin.xml" .kStyle 999 "X"
    (.node c2fileA []) (.node c2fileB []) ⟨14, 31⟩ ⟨"Pack/b.xml", ⟨14, 47⟩⟩
    [("name", "X")] [("name", "X"), ("override", "true")]
    (by decide) (by with_unfolding_all decide) (by with_unfolding_all rfl)
    (by with_unfolding_all decide) (by with_unfolding_all rfl)
    (by with_unfolding_all decide) (by with_unfolding_all decide)
    (by with_unfolding_all decide) (by with_unfolding_all decide)
    (by with_unfolding_all decide) (by with_unfolding_all decide)
    (by with_unfolding_all decide)
    (by with_unfolding_all decide) (by with_unfolding_all decide)
    (by with_unfolding_all decide) (by decide) (by decide) (by decide)

/-- `iterCount` of a natural iteration bound is that bound. -/
theorem iterCount_natCast (c : Nat) : iterCount (c : ℚ) = c := by
  rcases Nat.eq_zero_or_pos c with h | h
  · subst h; simp [iterCount]
  · have : ¬((c : ℚ) ≤ 0) := by
      simp only [not_le]
      exact_mod_cast h
    simp [iterCount, this, Rat.ceil]

/-- C3 — confirmed.  A `foreach` element carrying `variable="x"`,
`start="S"` and `count="C"` with both attributes numeric and the count
value a natural `c ≤ 100` unrolls to the `c` values
`S, S+1, …, S+c-1`; in particular, resolving `"Row_$i"` at the child of
`<foreach variable="i" start="1" count="3">` yields exactly
`["Row_1", "Row_2", "Row_3"]`. -/
theorem foreach_unroll_and_row_scenario :
    (∀ (d : Dom) (idx : Nat) (n : DomNode) (x S C : String) (c : Nat),
      d.get? idx = some n →
      n.tagName = "foreach" →
      getAttr n.attribs "variable" = some x →
      "$".toList.isPrefixOf x.toList = false →
      getAttr n.attribs "in" = none →
      getAttr n.attribs "start" = some S →
      getAttr n.attribs "count" = some C →
      jsIsNumeric S = true →
      jsIsNumeric C = true →
      numValOf C = (c : ℚ) →
      c ≤ 100 →
      extractForeach d idx true =
        some (x, (List.range c).map (fun i => ratToJsString (numValOf S + i)))) ∧
    resolveVariable c3scope "MySkinPack/skin.xml" 3 "Row_$i" =
      ["Row_1", "Row_2", "Row_3"] := by
  constructor
  · intro d idx n x S C c hn ht hv hx hin hs hc hnS hnC hval hle
    have hle2 : numValOf C ≤ 100 := by rw [hval]; exact_mod_cast hle
    simp only [extractForeach, hn, ht, if_true, hv, hx, hin, hs, hc, Option.getD_some,
               hnS, hnC, hle2, true_and, and_true, if_true, hval, iterCount_natCast]
    simp [hx]
    exact fun h => absurd h (by omega)
  · with_unfolding_all decide

/-- C3 witness: the general unroll applied to the scenario's `foreach`
element itself. -/
theorem foreach_unroll_and_row_scenario_witness :
    extractForeach c3dom 2 true =
      some ("i", (List.range 3).map (fun i => ratToJsString (numValOf "1" + i))) :=
  foreach_unroll_and_row_scenario.1 c3dom 2
    { kind := .tag, tagName := "foreach", piData := "",
      attribs := [("variable", "i"), ("start", "1"), ("count", "3")],
      parent := some 1, prevSib := none, children := [3],
      startIndex := 6, endIndex := 78 }
    "i" "1" "3" 3 (by with_unfolding_all decide) rfl (by decide) (by decide)
    (by decide) (by decide) (by decide) (by with_unfolding_all decide)
    (by with_unfolding_all decide) (by with_unfolding_all decide) (by decide)

/-- C4 — corrected.  The claim states that the indexer yields no source
range exactly when the preceding-sibling/ancestor scan finds an
excluding directive.  The code additionally requires the file's text to
contain the literal `"<?platform"` (`containsPlatformDefinitions`), so a
file gated only by `<?not:platform mac ?>` — whose text lacks that
substring — yields a range on darwin although the scan excludes it.
The claim, as stated, is false at that file: the scan excludes element
3 (the `<Style>`), yet a range is produced. -/
theorem platform_gate_flag_counterexample :
    ¬((getRangeFromElement .darwin c4file 3 = none) ↔
      (platformScan c4file.dom (platformStringOf .darwin) c4file.dom.fuel 3 = false)) := by
  with_unfolding_all decide

/-- C4 — the amended claim: for every existing element, the per-file
indexer yields no source range exactly when the file's text contains
`"<?platform"` and the preceding-sibling scan, continued through tag
ancestors and terminated by `?platform?`, excludes the element — where
`?platform` requires its text to contain a space followed by the
platform string ("mac" on darwin, "win" on win32, empty otherwise),
`?not:platform` requires it not to, and `?desktop_platform` requires
`" 1"`. -/
theorem platform_gate_range_iff (os : OSPlatform) (f : FileModel) (idx : Nat)
    (h : f.dom.get? idx ≠ none) :
    getRangeFromElement os f idx = none ↔
      (containsPlatformDefs f = true ∧
       platformScan f.dom (platformStringOf os) f.dom.fuel idx = false) := by
  match hn : f.dom.get? idx with
  | none => exact absurd hn h
  | some n =>
    simp only [getRangeFromElement, isDefinedForPlatform, hn]
    by_cases hflag : containsPlatformDefs f
    · simp only [hflag, not_true, if_false, true_and]
      by_cases hscan : platformScan f.dom (platformStringOf os) f.dom.fuel idx
      · simp [hscan]
      · simp [hscan]
    · simp [hflag]

/-- C4 witness: a file genuinely gated by `<?platform win ?>` on darwin
yields no range via the amended equivalence. -/
theorem platform_gate_range_iff_witness :
    getRangeFromElement .darwin c4goodFile 3 = none :=
  (platform_gate_range_iff .darwin c4goodFile 3 (by decide)).mpr (by decide)

/-- C5 — confirmed.  Whenever a division or modulo by zero occurs in
the product loop (the divisor coercing to the number 0 and the left
operand not being a boolean), the step stores the error and the
product's value becomes 0; in particular `evaluate("1/0")` returns the
value 0 together with the error "Cannot divide by 0.". -/
theorem divide_by_zero_error_and_zero :
    (∀ v1 v2 : JSVal, (∀ b, coerceStr v1 ≠ .bool b) →
      coerceStr v2 = .num (.fin 0) →
      productStep v1 v2 .kDivide = (some (.num (.fin 0)), some "Cannot divide by 0.") ∧
      productStep v1 v2 .kModulo = (some (.num (.fin 0)), some "Cannot modulo by 0.")) ∧
    evaluate "1/0" = (some (.num (.fin 0)), some "Cannot divide by 0.") := by
  constructor
  · intro v1 v2 hb h2
    have h1 : ∃ n1, coerceStr v1 = .num n1 := by
      cases v1 with
      | num n => exact ⟨n, rfl⟩
      | str s => exact ⟨jsStringToNumber s, rfl⟩
      | bool b => exact absurd rfl (hb b)
    obtain ⟨n1, hn1⟩ := h1
    constructor <;> simp [productStep, hn1, h2, jeqZero]
  · with_unfolding_all decide

/-- C5 witness: the general step applied at `1 / 0`. -/
theorem divide_by_zero_error_and_zero_witness :
    productStep (.num (.fin 1)) (.num (.fin 0)) .kDivide =
      (some (.num (.fin 0)), some "Cannot divide by 0.") :=
  (divide_by_zero_error_and_zero.1 (.num (.fin 1)) (.num (.fin 0))
    (fun b h => by simp [coerceStr] at h) (by decide)).1

/-- C6 — counterexample.  The claim states `evaluate("'a'+'b'")`
returns a numeric coercion error; it returns no error at all (string
literals are matched but never consumed from the input, so the `+`
after `'a'` is never reached, and the remaining input is appended to
the result). -/
theorem string_add_no_error_counterexample :
    evaluate (sq ++ "a" ++ sq ++ "+" ++ sq ++ "b" ++ sq) =
      (some (.str ("a" ++ sq ++ "a" ++ sq ++ "+" ++ sq ++ "b" ++ sq)), none) := by
  with_unfolding_all decide

/-- C6 — the amended claim: at the arithmetic operators a string
operand is auto-coerced with JS `Number` (digit strings to their value,
non-numeric strings to `NaN`) and this coercion never reports an error;
`evaluate("1+'2'")` coerces `'2'` to 2 and returns the value
`"3'2'"` (the sum 3 with the unconsumed literal appended) without
error, and `evaluate("'a'+'b'")` returns `"a'a'+'b'"` without error. -/
theorem string_coercion_amended :
    (∀ (a : JNum) (s : String) (plus : Bool),
      sumStep (.num a) (.str s) plus =
        (some (.num (jadd a (jmul (.fin (if plus then 1 else -1)) (jsStringToNumber s)))),
         none)) ∧
    evaluate ("1+" ++ sq ++ "2" ++ sq) = (some (.str ("3" ++ sq ++ "2" ++ sq)), none) ∧
    evaluate (sq ++ "a" ++ sq ++ "+" ++ sq ++ "b" ++ sq) =
      (some (.str ("a" ++ sq ++ "a" ++ sq ++ "+" ++ sq ++ "b" ++ sq)), none) := by
  refine ⟨fun a s plus => ?_, by with_unfolding_all decide, by with_unfolding_all decide⟩
  simp [sumStep, coerceStr]

/-- `splitOnCharAux` never returns the empty list. -/
theorem splitOnCharAux_ne_nil (c : Char) :
    ∀ (s acc : List Char), splitOnCharAux c s acc ≠ [] := by
  intro s
  induction s with
  | nil => intro acc; simp [splitOnCharAux]
  | cons x xs ih =>
    intro acc
    simp only [splitOnCharAux]
    split
    · simp
    · exact ih _

/-- Joining with the separator undoes splitting on it. -/
theorem joinWithChar_splitOnCharAux (c : Char) :
    ∀ (s acc : List Char), joinWithChar c (splitOnCharAux c s acc) = acc.reverse ++ s := by
  intro s
  induction s with
  | nil => intro acc; simp [splitOnCharAux, joinWithChar]
  | cons x xs ih =>
    intro acc
    simp only [splitOnCharAux]
    by_cases hx : x = c
    · rw [if_pos hx]
      cases hsp : splitOnCharAux c xs [] with
      | nil => exact absurd hsp (splitOnCharAux_ne_nil c xs [])
      | cons z zs =>
        have hj : joinWithChar c (acc.reverse :: z :: zs) =
            acc.reverse ++ c :: joinWithChar c (z :: zs) := rfl
        rw [hj, ← hsp, ih]
        simp [hx]
    · rw [if_neg hx, ih]
      simp

/-- A split at a character that occurs has at least two chunks. -/
theorem splitOnCharAux_length_of_mem (c : Char) :
    ∀ (s : List Char), c ∈ s → ∀ (acc : List Char),
    2 ≤ (splitOnCharAux c s acc).length := by
  intro s
  induction s with
  | nil => intro h; simp at h
  | cons x xs ih =>
    intro h acc
    simp only [splitOnCharAux]
    by_cases hx : x = c
    · rw [if_pos hx]
      cases hsp : splitOnCharAux c xs [] with
      | nil => exact absurd hsp (splitOnCharAux_ne_nil c xs [])
      | cons z zs => simp
    · rw [if_neg hx]
      have hmem : c ∈ xs := by
        rcases List.mem_cons.mp h with h1 | h1
        · exact absurd h1.symm hx
        · exact h1
      exact ih hmem _

/-- `joinWithChar` as a flat concatenation. -/
theorem joinWithChar_eq_join (c : Char) :
    ∀ (ps : List (List Char)) (x : List Char),
    joinWithChar c (x :: ps) = x ++ (ps.map (fun p => c :: p)).join := by
  intro ps
  induction ps with
  | nil => intro x; simp [joinWithChar]
  | cons p pt ih =>
    intro x
    have hj : joinWithChar c (x :: p :: pt) = x ++ c :: joinWithChar c (p :: pt) := rfl
    rw [hj, ih]
    simp

/-- Two strings with the same character data are equal. -/
theorem string_eq_of_data (a b : String) (h : a.data = b.data) : a = b := by
  cases a; cases b; exact congrArg String.mk h

/-- The data of a string concatenation. -/
theorem stringData_append (a b : String) : (a ++ b).data = a.data ++ b.data := by
  cases a; cases b; rfl

/-- Concatenating the values of the concrete tokens an unresolvable
part list leaves behind rebuilds `$`-prefixed chunks. -/
theorem tokenFold_data :
    ∀ (parts : List (List Char)) (s0 : String),
    ((parts.map (fun p => VRToken.mk ("$" ++ String.mk p) true)).foldl
      (fun s tk => s ++ tk.value) s0).data =
    s0.data ++ (parts.map (fun p => '$' :: p)).join := by
  intro parts
  induction parts with
  | nil => intro s0; simp
  | cons p ps ih =>
    intro s0
    simp only [List.map_cons, List.foldl_cons, ih, stringData_append]
    simp [stringData_append]

/-- The `resolveVariableInternal` part loop when every part is
unresolvable: each part becomes one concrete `$`-token, the temporary
graph stays untouched and the every-part flag clears. -/
theorem rviFold (sc : ScopeModel) (url : String) (elemIdx : Nat) :
    ∀ (parts : List (List Char)),
    (∀ p ∈ parts, resolveVariablePart sc url elemIdx (String.mk p) = []) →
    ∀ (ts : List VRToken) (gs : List VRGraph) (rd : List String)
      (temp : VRGraph) (every : Bool),
    parts.foldl (rviPartStep sc url elemIdx) (⟨ts, gs, rd⟩, temp, every) =
      (⟨ts ++ parts.map (fun p => VRToken.mk ("$" ++ String.mk p) true), gs, rd⟩, temp,
       if parts = [] then every else false) := by
  intro parts
  induction parts with
  | nil => intro _ ts gs rd temp every; simp
  | cons p ps ih =>
    intro hp ts gs rd temp every
    simp only [List.foldl_cons]
    have hstep : rviPartStep sc url elemIdx (⟨ts, gs, rd⟩, temp, every) p =
        (⟨ts ++ [VRToken.mk ("$" ++ String.mk p) true], gs, rd⟩, temp, false) := by
      simp [rviPartStep, hp p (by simp)]
    rw [hstep, ih (fun q hq => hp q (by simp [hq]))]
    simp

/-- `getDependencies` leaves a row of concrete tokens unchanged and
collects nothing from it. -/
theorem gdTokStep_concrete (g : VRGraph) :
    ∀ (row : List VRToken), (∀ t ∈ row, t.isConcrete = true) →
    ∀ (rowAcc : List VRToken) (deps : List String),
    row.foldl (gdTokStep g) (rowAcc, deps) = (rowAcc ++ row, deps) := by
  intro row
  induction row with
  | nil => intro _ rowAcc deps; simp
  | cons t ts ih =>
    intro h rowAcc deps
    have ht : t.isConcrete = true := h t (by simp)
    simp only [List.foldl_cons]
    have hstep : gdTokStep g (rowAcc, deps) t = (rowAcc ++ [t], deps) := by
      simp [gdTokStep, ht]
    rw [hstep, ih (fun x hx => h x (by simp [hx]))]
    simp

/-- A fold by a step that never decreases dominates its seed. -/
theorem le_foldl_of_le {α : Type} (f : Nat → α → Nat) (h : ∀ a x, a ≤ f a x) :
    ∀ (l : List α) (init : Nat), init ≤ l.foldl f init := by
  intro l
  induction l with
  | nil => intro init; simp
  | cons x xs ih => intro init; exact le_trans (h init x) (ih (f init x))

/-- The `replaceDependency` fuel is at least its base value. -/
theorem rdFuel_ge (res : VRResult) : 8 ≤ rdFuel res := by
  unfold rdFuel
  exact le_foldl_of_le _ (fun a g => Nat.le_add_right a _) _ _

/-- C7 — confirmed.  A value containing `$` none of whose variable
parts resolves against the enclosing scope comes back from
`resolveVariable` as the single-element list holding the value itself
(not as an empty list): every part stays in the token sequence as
concrete text, the fixed-point loop finds nothing to do, and
`toStrings` re-concatenates the original string. -/
theorem unresolvable_variable_returns_itself (sc : ScopeModel) (url : String)
    (elemIdx : Nat) (varStr : String)
    (hdollar : hasChar varStr.toList '$' = true)
    (hparts : ∀ p ∈ (splitOnChar '$' varStr.toList).tail,
      resolveVariablePart sc url elemIdx (String.mk p) = []) :
    resolveVariable sc url elemIdx varStr = [varStr] := by
  have hmem : '$' ∈ varStr.toList := by
    simpa [hasChar] using hdollar
  obtain ⟨st, parts, hsplit⟩ :
      ∃ st parts, splitOnChar '$' varStr.toList = st :: parts := by
    cases hs : splitOnChar '$' varStr.toList with
    | nil => exact absurd hs (splitOnCharAux_ne_nil '$' varStr.toList [])
    | cons a l => exact ⟨a, l, rfl⟩
  have hplen : parts ≠ [] := by
    have h2 := splitOnCharAux_length_of_mem '$' varStr.toList hmem []
    rw [show splitOnCharAux '$' varStr.toList [] = st :: parts from hsplit] at h2
    intro h
    subst h
    simp at h2
  have hpartsAll : ∀ p ∈ parts, resolveVariablePart sc url elemIdx (String.mk p) = [] := by
    intro p hp
    exact hparts p (by rw [hsplit]; exact hp)
  have hjoin : varStr.toList = st ++ (parts.map (fun p => '$' :: p)).join := by
    have hj := joinWithChar_splitOnCharAux '$' varStr.toList []
    rw [show splitOnCharAux '$' varStr.toList [] = st :: parts from hsplit,
        joinWithChar_eq_join] at hj
    simpa using hj.symm
  -- the concrete token sequence the internal resolution leaves behind
  set tok0 : List VRToken :=
    (if st = [] then [] else [VRToken.mk (String.mk st) true]) ++
      parts.map (fun p => VRToken.mk ("$" ++ String.mk p) true) with htok0
  have hconc : ∀ t ∈ tok0, t.isConcrete = true := by
    intro t ht
    rw [htok0] at ht
    rcases List.mem_append.mp ht with h | h
    · split at h
      · simp at h
      · simp at h
        subst h
        rfl
    · obtain ⟨q, _, rfl⟩ := List.mem_map.mp h
      rfl
  -- the concatenation of the token values is the original string
  have hcat : (tok0.foldl (fun s tk => s ++ tk.value) "").data = varStr.toList := by
    rw [htok0]
    by_cases hst : st = []
    · rw [if_pos hst, List.nil_append, tokenFold_data, hjoin, hst]
    · rw [if_neg hst, List.singleton_append]
      simp only [List.foldl_cons]
      rw [tokenFold_data, hjoin]
      simp [stringData_append]
  have hres1 : resolveVariableInternal sc url elemIdx varStr VRResult.empty =
      (⟨tok0, [[]], []⟩, false) := by
    simp only [resolveVariableInternal, hdollar, hsplit, VRResult.empty]
    by_cases hst : st = []
    · simp only [hst, ne_eq, not_true_eq_false, if_false, reduceIte]
      rw [rviFold sc url elemIdx parts hpartsAll [] [[]] [] [] true]
      simp [htok0, hst, hplen]
    · simp only [ne_eq, hst, not_false_eq_true, if_true, reduceIte]
      rw [rviFold sc url elemIdx parts hpartsAll
            ([] ++ [VRToken.mk (String.mk st) true]) [[]] [] [] true]
      simp [htok0, hst, hplen]
  have hloop : resolveWhileLoop sc url elemIdx (scopeFuel sc + varStr.length)
      ⟨tok0, [[]], []⟩ = ⟨tok0, [[]], []⟩ := by
    have hlen : 1 ≤ varStr.length := List.length_pos_of_mem hmem
    obtain ⟨n, hn⟩ : ∃ n, scopeFuel sc + varStr.length = n + 1 :=
      ⟨scopeFuel sc + varStr.length - 1, by omega⟩
    rw [hn]
    simp only [resolveWhileLoop]
    have hop : resolveOnePass sc url elemIdx ⟨tok0, [[]], []⟩ =
        (⟨tok0, [[]], []⟩, false) := by
      simp [resolveOnePass, VRResult.world0, alKeys, resolveOnePass.acc0]
    rw [hop]
    simp
  have htok0len : tok0.length = (if st = [] then 0 else 1) + parts.length := by
    rw [htok0]
    simp [List.length_append]
    split <;> simp
  have htos : VRResult.toStrings ⟨tok0, [[]], []⟩ = [varStr] := by
    obtain ⟨p, ps, hps⟩ : ∃ p ps, parts = p :: ps := by
      cases parts with
      | nil => exact absurd rfl hplen
      | cons a l => exact ⟨a, l, rfl⟩
    by_cases hone : st = [] ∧ ps = []
    · -- a single concrete token: `process` is the identity
      obtain ⟨hst, hpsnil⟩ := hone
      have htok : tok0 = [VRToken.mk ("$" ++ String.mk p) true] := by
        rw [htok0, hps, hst, hpsnil]
        simp
      have hv : varStr = "$" ++ String.mk p := by
        apply string_eq_of_data
        rw [show varStr.data = varStr.toList from rfl, hjoin, hst, hps, hpsnil]
        simp [stringData_append]
      rw [htok]
      simp [VRResult.toStrings, VRResult.process, hv]
    · -- several tokens: `process` wraps them under `$__init`
      have hlen2 : 1 < tok0.length := by
        rw [htok0len, hps]
        rcases not_and_or.mp hone with h | h
        · rw [if_neg h]
          simp only [List.length_cons]
          omega
        · have hne : ps ≠ [] := h
          have hge : 1 ≤ ps.length := by
            cases ps with
            | nil => exact absurd rfl hne
            | cons _ _ => simp
          split <;> simp <;> omega
      obtain ⟨tk0, tkr, htk⟩ : ∃ tk0 tkr, tok0 = tk0 :: tkr := by
        cases htkc : tok0 with
        | nil => rw [htkc] at hlen2; simp at hlen2
        | cons a l => exact ⟨a, l, rfl⟩
      -- the wrapped state
      have hwrap : VRResult.process ⟨tok0, [[]], []⟩ =
          replaceDependency (rdFuel ⟨[VRToken.mk "$__init" false],
              [[("$__init", [tok0])]], []⟩) "$__init"
            ⟨[VRToken.mk "$__init" false], [[("$__init", [tok0])]], []⟩ := by
        simp only [VRResult.process]
        rw [if_neg (by simp)]
        rw [if_pos hlen2]
        simp [alSet, alGet]
      have hrd : replaceDependency (rdFuel ⟨[VRToken.mk "$__init" false],
              [[("$__init", [tok0])]], []⟩) "$__init"
            ⟨[VRToken.mk "$__init" false], [[("$__init", [tok0])]], []⟩ =
          ⟨[VRToken.mk "$__init" false], [[("$__init", [tok0])]], ["$__init"]⟩ := by
        obtain ⟨m, hm⟩ : ∃ m, rdFuel ⟨[VRToken.mk "$__init" false],
            [[("$__init", [tok0])]], []⟩ = m + 3 := by
          have h8 := rdFuel_ge ⟨[VRToken.mk "$__init" false],
            [[("$__init", [tok0])]], []⟩
          refine ⟨rdFuel ⟨[VRToken.mk "$__init" false],
            [[("$__init", [tok0])]], []⟩ - 3, ?_⟩
          omega
        rw [hm]
        have hgd : getDependenciesM "$__init" [("$__init", [tok0])] =
            ([("$__init", [tok0])], []) := by
          simp only [getDependenciesM, alGet, List.find?, decide_True, Option.map_some']
          simp only [List.foldl_cons, List.foldl_nil]
          rw [gdTokStep_concrete [("$__init", [tok0])] tok0 hconc [] []]
          simp [alSet]
        show replaceDependency (m + 2 + 1) "$__init"
            ⟨[VRToken.mk "$__init" false], [[("$__init", [tok0])]], []⟩ =
          ⟨[VRToken.mk "$__init" false], [[("$__init", [tok0])]], ["$__init"]⟩
        simp only [replaceDependency]
        rw [if_neg (by simp)]
        simp only [List.nil_append, List.length_cons, List.length_nil]
        show rdLoop (m + 1 + 1) "$__init" 0 0 1
            ⟨[VRToken.mk "$__init" false], [[("$__init", [tok0])]], ["$__init"]⟩ =
          ⟨[VRToken.mk "$__init" false], [[("$__init", [tok0])]], ["$__init"]⟩
        simp only [rdLoop]
        rw [if_neg (by omega)]
        simp only [List.getD, Int.toNat, List.foldl_nil]
        simp [hgd, alGet, alKeys]
      rw [htk]
      simp only [VRResult.toStrings]
      rw [← htk, hwrap, hrd]
      have hstr : tok0.foldl (fun s tk => s ++ tk.value) "" = varStr :=
        string_eq_of_data _ _ hcat
      simp [alGet, hstr]
  simp only [resolveVariable, hdollar]
  rw [if_neg (by simp [hdollar])]
  rw [hres1]
  simp only
  rw [hloop, htos]

/-- C7 witness: `$zzz` resolves nowhere in the scenario scope, so
`Row_$zzz` comes back as itself. -/
theorem unresolvable_variable_returns_itself_witness :
    resolveVariable c3scope "MySkinPack/skin.xml" 3 "Row_$zzz" = ["Row_$zzz"] :=
  unresolvable_variable_returns_itself c3scope "MySkinPack/skin.xml" 3 "Row_$zzz"
    (by decide) (by with_unfolding_all decide)

/-- C8 — confirmed.  If a `refreshDefinitions` call actually performs a
refresh (it is outside the 500 ms rate limit, and — when no document
object is passed — the file exists with an advanced modification time),
then a second call with the same document argument and an unchanged
filesystem leaves the rebuilt per-file indices (`parsed`, which holds
every definition map, the define table, the view-instantiation table,
the dependency table and the duplicate list) byte-identical: either the
second call is rate-limited away, or it re-parses the identical text. -/
theorem refreshDefinitions_idempotent (os : OSPlatform)
    (uriAttr : String → String → Bool) (root url ns : String)
    (parseDoc : String → Dom) (fs : FsView) (t1 t2 : Int)
    (doc : Option String) (s0 : SfiState)
    (h1 : kMinRefreshInterval ≤ t1 - s0.latestRefresh)
    (h2 : doc = none → fs.fsExists = true ∧ s0.latestFileModification < fs.mtime) :
    (refreshDefinitions os uriAttr root url ns parseDoc fs t2 doc
       (refreshDefinitions os uriAttr root url ns parseDoc fs t1 doc s0)).parsed =
    (refreshDefinitions os uriAttr root url ns parseDoc fs t1 doc s0).parsed := by
  unfold refreshDefinitions
  have hn1 : ¬ (t1 - s0.latestRefresh < kMinRefreshInterval) := by omega
  cases doc with
  | some d =>
    simp only [hn1, if_false]
    by_cases hrl : t2 - t1 < kMinRefreshInterval
    · simp [hrl]
    · simp [hrl]
  | none =>
    obtain ⟨he, hm⟩ := h2 rfl
    have hn2 : ¬ (fs.mtime ≤ s0.latestFileModification) := by omega
    simp only [hn1, if_false, he, hn2]
    by_cases hrl : t2 - t1 < kMinRefreshInterval
    · simp [hrl, he, hn2]
    · simp [hrl, he, hn2]

/-- C8 witness: a concrete first refresh followed by a later second
call. -/
theorem refreshDefinitions_idempotent_witness :
    (refreshDefinitions .darwin (fun _ _ => false) "R/" "R/skin.xml" ""
       (fun _ => c4goodFile.dom) ⟨true, 10, c4goodText⟩ 1700 none
       (refreshDefinitions .darwin (fun _ _ => false) "R/" "R/skin.xml" ""
          (fun _ => c4goodFile.dom) ⟨true, 10, c4goodText⟩ 1000 none
          ⟨0, 0, none, emptyParsedFile⟩)).parsed =
    (refreshDefinitions .darwin (fun _ _ => false) "R/" "R/skin.xml" ""
       (fun _ => c4goodFile.dom) ⟨true, 10, c4goodText⟩ 1000 none
       ⟨0, 0, none, emptyParsedFile⟩).parsed :=
  refreshDefinitions_idempotent .darwin (fun _ _ => false) "R/" "R/skin.xml" ""
    (fun _ => c4goodFile.dom) ⟨true, 10, c4goodText⟩ 1000 1700 none
    ⟨0, 0, none, emptyParsedFile⟩ (by decide)
    (fun _ => ⟨rfl, by decide⟩)

/-- C9 — confirmed.  `resolveVariable` on a value containing no `$`
returns exactly the one-element list holding the value, for every
scope, url and element. -/
theorem resolveVariable_no_dollar (sc : ScopeModel) (url : String) (elemIdx : Nat)
    (v : String) (h : hasChar v.toList '$' = false) :
    resolveVariable sc url elemIdx v = [v] := by
  have h2 : hasChar v.data '$' = false := h
  simp [resolveVariable, h2]

/-- C9 witness. -/
theorem resolveVariable_no_dollar_witness :
    resolveVariable c3scope "MySkinPack/skin.xml" 3 "plain" = ["plain"] :=
  resolveVariable_no_dollar c3scope "MySkinPack/skin.xml" 3 "plain" (by decide)

/-- C10 — confirmed.  For every attribute value containing
`"@property:"`, `checkAttributeType` emits no diagnostics whatever the
attribute-type mask and whatever the individual per-bit checkers do —
the early return precedes every check, not only the Int and Float
regexes. -/
theorem property_value_skips_all_checks (env : CheckEnv) (info : TagAttributeInfoM)
    (ty : Nat) (h : hasSubstr info.attributeValue.toList "@property:".toList = true) :
    checkAttributeTypeM env info ty = [] := by
  unfold checkAttributeTypeM
  rw [h]
  simp

/-- C10 witness: even with every checker failing and the full mask set,
a `@property:` value yields no diagnostics. -/
theorem property_value_skips_all_checks_witness :
    checkAttributeTypeM failingCheckEnv
      { tagName := "View", attributeName := "width",
        correctedAttributeName := "width", attributeValue := "@property:size",
        originalAttributeValue := "@property:size" } 2097151 = [] :=
  property_value_skips_all_checks failingCheckEnv _ 2097151 (by decide)

/-- C1 — the externals patterns veto the scope walk: `is_defined` is
the disjunction of an externals-pattern match on the raw value with the
claim's scope predicate (some scope-reachable file contains a
non-platform-gated definition of the type whose name equals the value
after namespace resolution, with the source's app-style fallback for
unqualified styles), so the claimed equivalence holds exactly when no
externals pattern matches the value. -/
theorem isDefined_externals_or_scope (sc : ScopeModel) (url : String)
    (dtype : DefinitionType) (value : String) (fq : Bool) :
    isDefinedM sc url dtype value fq =
      (sc.externalsPatterns.any (fun p => matchesExternal p.1 value) ||
       specScopeDefines sc url dtype value fq) := by
  unfold isDefinedM
  cases h : sc.externalsPatterns.any (fun p => matchesExternal p.1 value) <;>
    simp [h, isDefinedStrict_spec]

/-- C1 — counterexample: in a scope whose only file contains no
definitions but declares `<External name="X"/>`, `is_defined` answers
true for style `X` although no scope-reachable file defines it. -/
theorem isDefined_externals_counterexample :
    isDefinedM c1extScope "Ext/skin.xml" .kStyle "X" = true ∧
    specScopeDefines c1extScope "Ext/skin.xml" .kStyle "X" false = false := by
  with_unfolding_all decide

end CCLSkin
